import Mathlib

/-!
# Bisection partitioner of ug (lib_grid/parallelization/partitioner_bisection.cpp)

A shallow embedding of `Partitioner_Bisection<dim>::partition`, of
`estimate_distribution_quality`, of the setters and of the state they work
on, followed by theorems about them.

Conventions of the embedding.
* Mesh elements (`elem_t*`) are handles of type `Elem`.
* Conversions `size_t -> int` of the values that come from the mesh and the
  topology (level numbers, element counts, process counts, indices of
  hierarchy levels) are value preserving on the range the program is run on
  (below `2^31`); they are embedded as the inclusion of `Nat` in `Int`.
* The parameters `baseLvl` and `elementThreshold` of `partition` are
  arbitrary `size_t` values; their conversion `(int)x` is `intCast`, the low
  32 bits read as a two's complement number.
* `int` variables that can become negative in the source (`maxLvl`,
  `m_highestRedistLevel`, subset indices) are `Int`.
* The mesh container (`MultiGrid`), the subset handler (`SubsetHandler`) and
  the process hierarchy (`ProcessHierarchy`) are declared in other headers
  of lib_grid; they are modelled by the small structures below, with the
  operations `partition` calls on them.
* The geometric splitter `PartitionElementsByRepeatedIntersection` and the
  values contributed by the other processes to the final `allreduce` are
  parameters (`Env`).
* For `estimate_distribution_quality` the cluster is a list of processes
  (`QProc`), a reduction is the minimum or maximum over the processes of the
  communicator, and the type `number` is embedded as the exact rationals. A
  reduction returns only when every process of the communicator makes the
  matching call; the method has no result when one does not.
-/

namespace UG

/-- Handle of a mesh element (`elem_t*` in the source). -/
abbrev Elem := Nat

/-! ## The hierarchical mesh -/

/-- Modelled from the spec: the hierarchical mesh container `MultiGrid`
(level-indexed element iteration, parent/child queries). `levels` lists, per mesh level, the
elements in iteration order (`mg.begin<elem_t>(l)` .. `mg.end<elem_t>(l)`),
`children e` lists `mg.get_child<elem_t>(e, 0)`, .. ,
`mg.get_child<elem_t>(e, mg.num_children<elem_t>(e) - 1)`. -/
structure MultiGrid where
  levels : List (List Elem)
  children : Elem → List Elem

namespace MultiGrid

/-- Elements of one level, the range `mg.begin<elem_t>(lvl)` .. `mg.end<elem_t>(lvl)`
(empty for a level the mesh does not have). -/
def elems (mg : MultiGrid) (lvl : Nat) : List Elem :=
  mg.levels.getD lvl []

/-- Local element count of a level, `mg.num<elem_t>(lvl)`. -/
def num (mg : MultiGrid) (lvl : Nat) : Nat :=
  (mg.elems lvl).length

/-- Index of the highest level, `mg.top_level()`: the number of levels minus
one, and 0 for a mesh without levels. -/
def top_level (mg : MultiGrid) : Nat :=
  mg.levels.length - 1

/-- Structural invariant of a multigrid: an element lives on one level only
and the children of an element of level `l` live on level `l + 1`. -/
def WF (mg : MultiGrid) : Prop :=
  (∀ l, l < mg.levels.length → ∀ l2, l2 < mg.levels.length →
      ∀ e ∈ mg.elems l, e ∈ mg.elems l2 → l = l2) ∧
  (∀ l, l < mg.levels.length → ∀ e ∈ mg.elems l, ∀ c ∈ mg.children e, c ∈ mg.elems (l + 1))

instance (mg : MultiGrid) : Decidable mg.WF := by
  unfold WF
  infer_instance

/-- Every element above level 0 has a parent on the level directly below
(no element was created without a parent). -/
def Full (mg : MultiGrid) : Prop :=
  ∀ l, l < mg.levels.length → ∀ c ∈ mg.elems (l + 1), ∃ p ∈ mg.elems l, c ∈ mg.children p

instance (mg : MultiGrid) : Decidable mg.Full := by
  unfold Full
  infer_instance

/-- Structural invariant of a multigrid: an element is the child of one
element only. -/
def UniqueParent (mg : MultiGrid) : Prop :=
  ∀ l, l < mg.levels.length → ∀ p ∈ mg.elems l, ∀ q ∈ mg.elems l,
    ∀ c ∈ mg.children p, c ∈ mg.children q → p = q

instance (mg : MultiGrid) : Decidable mg.UniqueParent := by
  unfold UniqueParent
  infer_instance

/-- Number of levels, `mg.num_levels()`. -/
def num_levels (mg : MultiGrid) : Nat :=
  mg.levels.length

/-- Inside the window of mesh levels `lo .. hi`, every element above level
`lo` has a parent on the level directly below. -/
def ParentsWithin (mg : MultiGrid) (lo : Nat) (hi : Int) : Prop :=
  ∀ l, lo ≤ l → (l : Int) < hi → ∀ c ∈ mg.elems (l + 1), ∃ p ∈ mg.elems l, c ∈ mg.children p

end MultiGrid

/-! ## The subset handler holding the partition assignment -/

/-- Modelled from the spec: the subset handler `m_sh` that stores the
partition assignment, a map from elements to partition indices. Every element
has a subset index, `-1` meaning unassigned; `num_subsets` is one more than
the highest subset index in use since the last `clear`. -/
structure SubsetHandler where
  subsetIndex : Elem → Int
  numSubsets : Nat

namespace SubsetHandler

/-- State after `m_sh.clear()`: no subsets, every element unassigned. -/
def clear : SubsetHandler :=
  { subsetIndex := fun _ => -1, numSubsets := 0 }

/-- Reading `m_sh.get_subset_index(e)`. -/
def get_subset_index (sh : SubsetHandler) (e : Elem) : Int :=
  sh.subsetIndex e

/-- Reading `m_sh.num_subsets()`. -/
def num_subsets (sh : SubsetHandler) : Nat :=
  sh.numSubsets

/-- Single assignment `m_sh.assign_subset(e, si)`. -/
def assign_subset (sh : SubsetHandler) (e : Elem) (si : Int) : SubsetHandler :=
  { subsetIndex := Function.update sh.subsetIndex e si
    numSubsets := if 0 ≤ si then max sh.numSubsets (si.toNat + 1) else sh.numSubsets }

/-- Range assignment `m_sh.assign_subset(begin, end, si)`. -/
def assign_subset_range (sh : SubsetHandler) (es : List Elem) (si : Int) : SubsetHandler :=
  es.foldl (fun acc e => acc.assign_subset e si) sh

end SubsetHandler

/-! ## The process hierarchy (topology) -/

/-- One hierarchy level: the first mesh level it owns and the global ranks
taking part; further the number of processes involved in the level and the
ranks of its communicator, which `estimate_distribution_quality` reads
(by default the count and the ranks of `clusterProcs`). -/
structure HLevelInfo where
  gridLvl : Nat
  clusterProcs : List Int
  numGlobalProcsInUse : Nat := clusterProcs.length
  globalProcs : List Int := clusterProcs
  deriving DecidableEq

/-- Modelled from the spec: the process topology `ProcessHierarchy`, an
ordered sequence of hierarchy levels. -/
structure ProcessHierarchy where
  m_levels : List HLevelInfo
  deriving DecidableEq

namespace ProcessHierarchy

/-- Number of hierarchy levels, `procH->num_hierarchy_levels()`. -/
def num_hierarchy_levels (procH : ProcessHierarchy) : Nat :=
  procH.m_levels.length

/-- First mesh level of a hierarchy level, `procH->grid_base_level(h)`. -/
def grid_base_level (procH : ProcessHierarchy) (h : Nat) : Nat :=
  match procH.m_levels[h]? with
  | some lvl => lvl.gridLvl
  | none => 0

/-- Ranks of a hierarchy level, `procH->cluster_procs(h)`. -/
def cluster_procs (procH : ProcessHierarchy) (h : Nat) : List Int :=
  match procH.m_levels[h]? with
  | some lvl => lvl.clusterProcs
  | none => []

/-- Appending a level, `add_hierarchy_level(gridLvl, numProcs)`, with the
ranks of the new level given explicitly. -/
def add_hierarchy_level (procH : ProcessHierarchy) (gridLvl : Nat) (procs : List Int) :
    ProcessHierarchy :=
  { m_levels := procH.m_levels ++ [{ gridLvl := gridLvl, clusterProcs := procs }] }

/-- Number of processes involved in a hierarchy level,
`procH->num_global_procs_involved(h)`. -/
def num_global_procs_involved (procH : ProcessHierarchy) (h : Nat) : Nat :=
  match procH.m_levels[h]? with
  | some lvl => lvl.numGlobalProcsInUse
  | none => 0

/-- Ranks of the communicator of a hierarchy level,
`procH->global_proc_com(h)`. -/
def global_proc_com (procH : ProcessHierarchy) (h : Nat) : List Int :=
  match procH.m_levels[h]? with
  | some lvl => lvl.globalProcs
  | none => []

/-- Linear search behind `hierarchy_level_from_grid_level`: the index of the
first level whose successor starts above `gridLvl`, counted from `i`. -/
def hlevelSearch (gridLvl : Nat) : List HLevelInfo → Nat → Nat
  | [], i => i
  | [_], i => i
  | _ :: next :: rest, i =>
    if gridLvl < next.gridLvl then i else hlevelSearch gridLvl (next :: rest) (i + 1)

/-- Modelled from the spec: the hierarchy level owning a mesh level,
`procH->hierarchy_level_from_grid_level(gridLvl)`, a search over the monotone
sequence of grid base levels (a method of the process hierarchy, whose
implementation is in another file). -/
def hierarchy_level_from_grid_level (procH : ProcessHierarchy) (gridLvl : Nat) : Nat :=
  hlevelSearch gridLvl procH.m_levels 0

/-- Invariant of a topology: grid base levels do not decrease from one
hierarchy level to the next. -/
def Monotone (procH : ProcessHierarchy) : Prop :=
  ∀ h, h < procH.num_hierarchy_levels → h + 1 < procH.num_hierarchy_levels →
    procH.grid_base_level h ≤ procH.grid_base_level (h + 1)

instance (procH : ProcessHierarchy) : Decidable procH.Monotone := by
  unfold Monotone
  infer_instance

end ProcessHierarchy

/-! ## Environment and partitioner state -/

/-- What `partition` consumes from outside the class: the rank of the local
process (`pcl::GetProcRank()`), the geometric splitter
(`PartitionElementsByRepeatedIntersection`, given the elements of the level
to split and the number of parts, it tags each of these elements with a part
index) and the values of `m_highestRedistLevel` which the other processes
contribute to the final `allreduce`. -/
structure Env where
  procRank : Int
  splitter : List Elem → Nat → Elem → Int
  peerRedistLevels : List Int

/-- Members of `Partitioner_Bisection<dim>` (and the sibling-clustering flag
of its base class). -/
structure Partitioner_Bisection where
  m_mg : Option MultiGrid
  m_sh : SubsetHandler
  m_procMap : List Int
  m_highestRedistLevel : Int
  m_processHierarchy : ProcessHierarchy
  m_nextProcessHierarchy : Option ProcessHierarchy
  m_clusteredSiblings : Bool

/-- Failures of `partition`: a violated `assert` and `UG_THROW`. -/
inductive UGError where
  | assertFailed
  | ugThrow
  deriving DecidableEq, Repr

namespace Partitioner_Bisection

/-- Constructor `Partitioner_Bisection()`: no mesh, ratchet `-1`, a topology
with the single hierarchy level `add_hierarchy_level(0, 1)`. The flag of the
base class is a parameter. -/
def new (clustered : Bool) : Partitioner_Bisection :=
  { m_mg := none
    m_sh := SubsetHandler.clear
    m_procMap := []
    m_highestRedistLevel := -1
    m_processHierarchy := (ProcessHierarchy.mk []).add_hierarchy_level 0 [0]
    m_nextProcessHierarchy := none
    m_clusteredSiblings := clustered }

/-- Binding a mesh, `set_grid(mg, aPos)`. The re-binding of the subset
handler (`m_sh.assign_grid`) is not modelled: `partition` clears the handler
before it uses it. -/
def set_grid (s : Partitioner_Bisection) (mg : MultiGrid) : Partitioner_Bisection :=
  { s with m_mg := some mg }

/-- Staging a topology, `set_next_process_hierarchy(procHierarchy)`. -/
def set_next_process_hierarchy (s : Partitioner_Bisection) (procH : Option ProcessHierarchy) :
    Partitioner_Bisection :=
  { s with m_nextProcessHierarchy := procH }

/-- Getter `current_process_hierarchy()`. -/
def current_process_hierarchy (s : Partitioner_Bisection) : ProcessHierarchy :=
  s.m_processHierarchy

/-- Getter `next_process_hierarchy()`: the staged topology, `none` for an
invalid (null) pointer. -/
def next_process_hierarchy (s : Partitioner_Bisection) : Option ProcessHierarchy :=
  s.m_nextProcessHierarchy

/-- Probe `supports_balance_weights()`. -/
def supports_balance_weights (_ : Partitioner_Bisection) : Bool :=
  false

/-- Probe `supports_connection_weights()`. -/
def supports_connection_weights (_ : Partitioner_Bisection) : Bool :=
  false

/-- Setter `set_balance_weights(weights)`, whose body is empty. -/
def set_balance_weights {W : Type} (s : Partitioner_Bisection) (_ : W) : Partitioner_Bisection :=
  s

/-- Setter `set_connection_weights(weights)`, whose body is empty. -/
def set_connection_weights {W : Type} (s : Partitioner_Bisection) (_ : W) :
    Partitioner_Bisection :=
  s

/-- Getter `get_process_map()`. -/
def get_process_map (s : Partitioner_Bisection) : List Int :=
  s.m_procMap

/-- Getter `get_partitions()`. -/
def get_partitions (s : Partitioner_Bisection) : SubsetHandler :=
  s.m_sh

end Partitioner_Bisection

/-! ## partition -/

/-- Mesh levels `lo, lo + 1, .., hi` of a loop `for(int i = lo; i <= hi; ++i)`. -/
def levelsUpTo (lo : Nat) (hi : Int) : List Nat :=
  List.range' lo (hi + 1 - lo).toNat

/-- Mesh levels of a loop `for(int lvl = lo; lvl < hi; ++lvl)`. -/
def levelsBelow (lo : Nat) (hi : Int) : List Nat :=
  List.range' lo (hi - lo).toNat

/-- Loop `for i in lvls: m_sh.assign_subset(mg.begin(i), mg.end(i), 0)`. -/
def assignLevels (mg : MultiGrid) (sh : SubsetHandler) (lvls : List Nat) : SubsetHandler :=
  lvls.foldl (fun acc i => acc.assign_subset_range (mg.elems i) 0) sh

/-- Conversion `(int)x` of a `size_t` value `x`, as applied to the
parameters `baseLvl` and `elementThreshold` of `partition`: the low 32 bits
of `x` read as a two's complement number. (The levels, counts and sizes that
come from the mesh and the topology are far below `2^31`; their conversions
to `int` are taken as value preserving.) -/
def intCast (x : Nat) : Int :=
  if x % 4294967296 < 2147483648 then ((x % 4294967296 : Nat) : Int)
  else ((x % 4294967296 : Nat) : Int) - 4294967296

/-- Mesh levels of the first loop (line 164),
`for(int i = 0; i < (int)baseLvl; ++i)`. -/
def firstLevels (baseLvl : Nat) : List Nat :=
  levelsBelow 0 (intCast baseLvl)

/-- Lower end of the window of a hierarchy level (lines 178, 185-186):
`minLvl = grid_base_level(hlevel)`, and
`if(minLvl < (int)baseLvl) minLvl = (int)baseLvl`. The value is not
negative. -/
def minLvl (procH : ProcessHierarchy) (baseLvl hlevel : Nat) : Nat :=
  if (procH.grid_base_level hlevel : Int) < intCast baseLvl then (intCast baseLvl).toNat
  else procH.grid_base_level hlevel

/-- Upper end of the window of a hierarchy level (lines 179-183). -/
def maxLvl (procH : ProcessHierarchy) (mg : MultiGrid) (hlevel : Nat) : Int :=
  if hlevel + 1 < procH.num_hierarchy_levels then
    min (mg.top_level : Int) ((procH.grid_base_level (hlevel + 1) : Int) - 1)
  else (mg.top_level : Int)

/-- Minimum-work test of lines 225-227 on `int` operands:
`elementThreshold > 0` and `numLocalElems / numProcs < (int)elementThreshold`. -/
def belowThreshold (numLocalElems numProcs : Int) (elementThreshold : Nat) : Bool :=
  decide (elementThreshold > 0) &&
    decide (Int.tdiv numLocalElems numProcs < intCast elementThreshold)

/-- Modelled from the spec: the call
`PartitionElementsByRepeatedIntersection(m_sh, mg, minLvl, numProcs, m_aPos)`
of the geometric splitter, a function of another header. Every element of
level `lvl` is tagged with the index of the group the splitter puts it in;
the grouping itself is the parameter `env.splitter`. -/
def applySplitter (env : Env) (mg : MultiGrid) (sh : SubsetHandler) (lvl numProcs : Nat) :
    SubsetHandler :=
  (mg.elems lvl).foldl
    (fun acc e => acc.assign_subset e (env.splitter (mg.elems lvl) numProcs e)) sh

/-- Body of the sibling loop (lines 253-259) for one parent `e`: with more
than one child, children 1.. are put in the subset of child 0. -/
def clusterChildren (mg : MultiGrid) (sh : SubsetHandler) (e : Elem) : SubsetHandler :=
  match mg.children e with
  | c0 :: c1 :: cs =>
    let partition := sh.get_subset_index c0
    (c1 :: cs).foldl (fun acc c => acc.assign_subset c partition) sh
  | _ => sh

/-- Sibling clustering (lines 248-261). -/
def clusterSiblings (mg : MultiGrid) (sh : SubsetHandler) (lvl : Nat) : SubsetHandler :=
  if lvl > 0 then (mg.elems (lvl - 1)).foldl (clusterChildren mg) sh else sh

/-- Body of the propagation loop (lines 268-271) for one element. -/
def assignChildren (mg : MultiGrid) (sh : SubsetHandler) (e : Elem) : SubsetHandler :=
  let si := sh.get_subset_index e
  (mg.children e).foldl (fun acc c => acc.assign_subset c si) sh

/-- One level of the propagation loop (lines 266-272). -/
def propagateLevel (mg : MultiGrid) (sh : SubsetHandler) (lvl : Nat) : SubsetHandler :=
  (mg.elems lvl).foldl (assignChildren mg) sh

/-- Downward propagation (lines 265-273). -/
def propagate (mg : MultiGrid) (sh : SubsetHandler) (lo : Nat) (hi : Int) : SubsetHandler :=
  (levelsBelow lo hi).foldl (propagateLevel mg) sh

/-- The split of a window (lines 236-273): splitter, optional sibling
clustering, downward propagation. -/
def splitWindow (env : Env) (mg : MultiGrid) (clustered : Bool) (sh : SubsetHandler)
    (lo : Nat) (hi : Int) (numProcs : Nat) : SubsetHandler :=
  let sh1 := applySplitter env mg sh lo numProcs
  let sh2 := if clustered then clusterSiblings mg sh1 lo else sh1
  propagate mg sh2 lo hi

/-- Body of the loop over hierarchy levels (lines 177-277). -/
def processLevel (env : Env) (mg : MultiGrid) (procH : ProcessHierarchy)
    (baseLvl elementThreshold : Nat) (s : Partitioner_Bisection) (hlevel : Nat) :
    Partitioner_Bisection :=
  let lo := minLvl procH baseLvl hlevel
  let hi := maxLvl procH mg hlevel
  if hi < (lo : Int) then s
  else
    let clusterProcs := procH.cluster_procs hlevel
    let numProcs := clusterProcs.length
    if numProcs ≤ 1 then
      { s with m_sh := assignLevels mg s.m_sh (levelsUpTo lo hi) }
    else if (hlevel : Int) ≤ s.m_highestRedistLevel then
      { s with m_sh := assignLevels mg s.m_sh (levelsUpTo lo hi) }
    else if belowThreshold (mg.num lo) numProcs elementThreshold then
      { s with m_sh := assignLevels mg s.m_sh (levelsUpTo lo hi) }
    else
      { s with
        m_sh := splitWindow env mg s.m_clusteredSiblings s.m_sh lo hi numProcs
        m_procMap := clusterProcs
        m_highestRedistLevel := hlevel }

/-- The decision taken for a hierarchy level, in the order of the guards of
the loop body. -/
inductive Branch where
  | emptyWindow
  | singleProc
  | alreadyRedist
  | belowThreshold
  | split
  deriving DecidableEq, Repr

/-- Guards of the loop body (lines 188, 195, 204, 225-227) for hierarchy
level `hlevel` when the ratchet holds `redist`. -/
def branch (mg : MultiGrid) (procH : ProcessHierarchy) (baseLvl elementThreshold : Nat)
    (redist : Int) (hlevel : Nat) : Branch :=
  let lo := minLvl procH baseLvl hlevel
  let hi := maxLvl procH mg hlevel
  if hi < (lo : Int) then Branch.emptyWindow
  else if (procH.cluster_procs hlevel).length ≤ 1 then Branch.singleProc
  else if (hlevel : Int) ≤ redist then Branch.alreadyRedist
  else if belowThreshold (mg.num lo) (procH.cluster_procs hlevel).length elementThreshold then
    Branch.belowThreshold
  else Branch.split

/-- The topology `partition` works on (lines 167-171): the staged one if
present, else the current one. -/
def activeHierarchy (s : Partitioner_Bisection) : ProcessHierarchy :=
  match s.m_nextProcessHierarchy with
  | some procH => procH
  | none => s.m_processHierarchy

/-- Lines 161-277 of `partition` on the bound mesh `mg`: clear, levels below
`(int)baseLvl` to subset 0, then the loop over the hierarchy levels. -/
def partitionLoop (env : Env) (mg : MultiGrid) (s : Partitioner_Bisection)
    (baseLvl elementThreshold : Nat) : Partitioner_Bisection :=
  let sh0 := assignLevels mg SubsetHandler.clear (firstLevels baseLvl)
  let procH := activeHierarchy s
  (List.range procH.num_hierarchy_levels).foldl
    (processLevel env mg procH baseLvl elementThreshold)
    { s with m_sh := sh0, m_procMap := [] }

/-- The loop over the hierarchy levels after its first `k` rounds, started
in state `s`. -/
def loopUpTo (env : Env) (mg : MultiGrid) (procH : ProcessHierarchy)
    (baseLvl elementThreshold : Nat) (s : Partitioner_Bisection) (k : Nat) :
    Partitioner_Bisection :=
  (List.range k).foldl (processLevel env mg procH baseLvl elementThreshold) s

/-- The last hierarchy level below `k` whose decision is `Branch.split`,
if there is one. -/
def lastSplit (mg : MultiGrid) (procH : ProcessHierarchy) (baseLvl elementThreshold : Nat)
    (redist : Int) : Nat → Option Nat
  | 0 => none
  | k + 1 =>
    if branch mg procH baseLvl elementThreshold redist k = Branch.split then some k
    else lastSplit mg procH baseLvl elementThreshold redist k

/-- Lines 279-285: the fallback for an empty process map. -/
def fallbackProcMap (env : Env) (s : Partitioner_Bisection) :
    Except UGError Partitioner_Bisection :=
  if s.m_procMap.isEmpty ∧ s.m_sh.num_subsets > 0 then
    if s.m_sh.num_subsets ≠ 1 then Except.error UGError.ugThrow
    else Except.ok { s with m_procMap := s.m_procMap ++ [env.procRank] }
  else Except.ok s

/-- Result of `com.allreduce(v, PCL_RO_MAX)` on the local process: the
maximum of the local value and the values of the other processes. -/
def allreduceMax (v : Int) (peers : List Int) : Int :=
  peers.foldl max v

/-- Lines 287-294: synchronising the ratchet and committing the staged
topology. -/
def syncAndCommit (env : Env) (s : Partitioner_Bisection) : Partitioner_Bisection :=
  let redist := allreduceMax s.m_highestRedistLevel env.peerRedistLevels
  match s.m_nextProcessHierarchy with
  | some procH =>
    { s with m_highestRedistLevel := redist, m_processHierarchy := procH,
             m_nextProcessHierarchy := none }
  | none => { s with m_highestRedistLevel := redist }

/-- The method `partition(baseLvl, elementThreshold)` (lines 152-295). -/
def partition (env : Env) (s : Partitioner_Bisection) (baseLvl elementThreshold : Nat) :
    Except UGError Partitioner_Bisection :=
  match s.m_mg with
  | none => Except.error UGError.assertFailed
  | some mg =>
    match fallbackProcMap env (partitionLoop env mg s baseLvl elementThreshold) with
    | Except.error err => Except.error err
    | Except.ok s2 => Except.ok (syncAndCommit env s2)

/-! ## Notions used in the statements -/

/-- Every index with property `G` in `sh` has property `G` in `sh2`. -/
def Keeps (G : Int → Prop) (sh sh2 : SubsetHandler) : Prop :=
  ∀ y, G (sh.subsetIndex y) → G (sh2.subsetIndex y)

/-- Process map that `partition` leaves behind: the ranks of the level split
last in this call, or the fallback of lines 279-285. -/
def resultProcMap (env : Env) (mg : MultiGrid) (s : Partitioner_Bisection) (b t : Nat) :
    List Int :=
  match lastSplit mg (activeHierarchy s) b t s.m_highestRedistLevel
      (activeHierarchy s).num_hierarchy_levels with
  | some h => (activeHierarchy s).cluster_procs h
  | none =>
    if (partitionLoop env mg s b t).m_sh.numSubsets = 0 then [] else [env.procRank]

/-- Consistency of a subset handler that only ever saw assignments to
subset 0: at most one subset, and every element is unassigned or in subset 0,
the latter only if that subset exists. -/
def ZeroOnly (sh : SubsetHandler) : Prop :=
  sh.numSubsets ≤ 1 ∧ ∀ x, sh.subsetIndex x = -1 ∨ (sh.subsetIndex x = 0 ∧ sh.numSubsets = 1)

/-- The splitter hands out part indices in `[0, numProcs)`. -/
def SplitterInRange (env : Env) : Prop :=
  ∀ (es : List Elem) (n : Nat) (e : Elem), e ∈ es → 1 < n →
    0 ≤ env.splitter es n e ∧ env.splitter es n e < (n : Int)

/-- `Descendant mg a k c`: element `c` is reached from element `a` by `k`
steps from a parent to one of its children. -/
inductive Descendant (mg : MultiGrid) (a : Elem) : Nat → Elem → Prop where
  | self : Descendant mg a 0 a
  | child {k : Nat} {p c : Elem} : Descendant mg a k p → c ∈ mg.children p →
      Descendant mg a (k + 1) c

/-! ## Example data -/

/-- Example splitter: the elements of the level are dealt out round robin. -/
def exSplitter (es : List Elem) (n : Nat) (e : Elem) : Int :=
  ((es.indexOf e % n : Nat) : Int)

/-- Example environment: local rank 7, no other process in the reduction. -/
def exEnv : Env :=
  { procRank := 7, splitter := exSplitter, peerRedistLevels := [] }

/-- Example mesh with three levels: elements 0, 1 on level 0, their children
2 .. 5 on level 1, and 6, 7 (children of 2 and 5) on level 2. -/
def exMesh : MultiGrid :=
  { levels := [[0, 1], [2, 3, 4, 5], [6, 7]]
    children := fun e =>
      if e = 0 then [2, 3] else if e = 1 then [4, 5] else if e = 2 then [6]
      else if e = 5 then [7] else [] }

/-- Example topology: one process from mesh level 0 on, two processes from
mesh level 1 on. -/
def exTopo : ProcessHierarchy :=
  { m_levels := [{ gridLvl := 0, clusterProcs := [0] }, { gridLvl := 1, clusterProcs := [0, 1] }] }

/-- Example state: a new partitioner with `exMesh` bound and `exTopo` staged. -/
def exState : Partitioner_Bisection :=
  ((Partitioner_Bisection.new true).set_grid exMesh).set_next_process_hierarchy (some exTopo)

/-- Example state in which hierarchy level 1 counts as already redistributed. -/
def exStateRedist : Partitioner_Bisection :=
  { exState with m_highestRedistLevel := 1 }

/-- Example topology without any hierarchy level (a `ProcessHierarchy` as
its constructor leaves it). -/
def exTopoEmpty : ProcessHierarchy :=
  { m_levels := [] }

/-- Example topology whose only hierarchy level (one process) starts at mesh
level 1. -/
def exTopoFromOne : ProcessHierarchy :=
  { m_levels := [{ gridLvl := 1, clusterProcs := [0] }] }

/-- Example mesh with an element created without a parent: 0 on level 0, its
child 1 on level 1, and 2 on level 2 with no parent. -/
def exMeshOrphan : MultiGrid :=
  { levels := [[0], [1], [2]]
    children := fun e => if e = 0 then [1] else [] }

/-- Example topology with four processes from mesh level 1 on. -/
def exTopoFour : ProcessHierarchy :=
  { m_levels := [{ gridLvl := 0, clusterProcs := [0] },
      { gridLvl := 1, clusterProcs := [0, 1, 2, 3] }] }

/-- A new partitioner with mesh `mg` bound and topology `procH` staged. -/
def exStateOn (mg : MultiGrid) (procH : ProcessHierarchy) : Partitioner_Bisection :=
  ((Partitioner_Bisection.new true).set_grid mg).set_next_process_hierarchy (some procH)

/-! ## estimate_distribution_quality -/

/-- One process of the cluster as far as `estimate_distribution_quality`
reads it: its rank, its mesh (`*m_mg`), the ghost predicate of the
distributed grid manager (`distGridMgr.is_ghost`) and the topology it works
on (the staged one if present, else the current one, lines 107-111). -/
structure QProc where
  rank : Int
  mg : MultiGrid
  is_ghost : Elem → Bool
  procH : ProcessHierarchy

/-- Lines 124-130: the number of non-ghost elements the process holds on
mesh level `lvl`. -/
def QProc.localWeight (q : QProc) (lvl : Nat) : Int :=
  (q.mg.elems lvl).foldl (fun w e => if q.is_ghost e then w else w + 1) 0

/-- Result of `com.allreduce(v, PCL_RO_MIN)` on the local process: the
minimum of the local value and the values of the processes of the
communicator. -/
def allreduceMin (v : Int) (peers : List Int) : Int :=
  peers.foldl min v

/-- Result of `comGlobal.allreduce(v, PCL_RO_MIN)` for values of type
`number`, which is embedded as an exact rational. -/
def allreduceMinQ (v : ℚ) (peers : List ℚ) : ℚ :=
  peers.foldl min v

/-- Modelled from the spec: the processes of the communicator
`procH->global_proc_com(hlvl)` as process `p` sees it (the communicator
class is declared in another library). They are the processes of the cluster
whose rank is in the process set of the level if `p` is one of them; for a
process outside the set, and for an empty set, the communicator is empty. -/
def comMembers (world : List QProc) (p : QProc) (hlvl : Nat) : List QProc :=
  if p.rank ∈ p.procH.global_proc_com hlvl then
    world.filter (fun q => decide (q.rank ∈ p.procH.global_proc_com hlvl))
  else []

/-- Modelled from the spec: whether process `q` makes, in round `lvl` of its
own loop, the reductions that match those of process `p` in its round `lvl`
(a collective call of the communicator class, declared in another library):
`q` works on the topology of `p`, whose object the communicator is, and the
mesh of `q` has level `lvl`, so that its loop, bounded by its own
`mg.num_levels()`, has such a round. -/
def matchesRound (p q : QProc) (lvl : Nat) : Bool :=
  decide (q.procH = p.procH) && decide (lvl < q.mg.num_levels)

/-- Modelled from the spec: the processes whose weights enter the reductions
of lines 132-133 on process `p` in round `lvl`: the processes of the
communicator that make the matching calls. -/
def reducers (world : List QProc) (p : QProc) (lvl : Nat) : List QProc :=
  (comMembers world p (p.procH.hierarchy_level_from_grid_level lvl)).filter
    (fun q => matchesRound p q lvl)

/-- Modelled from the spec: whether round `lvl` of the loop on process `p`
is matched. A round without reduction is (at most one process, or an empty
communicator); a round with the reductions of lines 132-133 is matched when
every process of the communicator has the matching round. A collective
reduction returns when every process of the communicator makes the matching
call, and blocks otherwise. -/
def roundReturns (world : List QProc) (p : QProc) (lvl : Nat) : Bool :=
  decide (p.procH.num_global_procs_involved (p.procH.hierarchy_level_from_grid_level lvl) ≤ 1) ||
    (comMembers world p (p.procH.hierarchy_level_from_grid_level lvl)).all
      (fun q => matchesRound p q lvl)

/-- Every round of the loop over the mesh levels (lines 113-146) on process
`p` is matched. -/
def loopReturns (world : List QProc) (p : QProc) : Bool :=
  (List.range p.mg.num_levels).all (roundReturns world p)

/-- Every round of every process of the cluster is matched: the processes of
each communicator make the same sequence of reductions. Then every
reduction inside the loops returns, the loop of every process reaches its
end and every process makes the final reduction of line 149. -/
def allReturn (world : List QProc) : Bool :=
  world.all (loopReturns world)

/-- Value of `minWeight` (line 132) on process `p` for mesh level `lvl`: the
minimum of the weights of the processes that take part in the reduction. -/
def levelMinWeight (world : List QProc) (p : QProc) (lvl : Nat) : Int :=
  allreduceMin (p.localWeight lvl) ((reducers world p lvl).map (fun q => q.localWeight lvl))

/-- Value of `maxWeight` (line 133) on process `p` for mesh level `lvl`: the
maximum of the weights of the processes that take part in the reduction. -/
def levelMaxWeight (world : List QProc) (p : QProc) (lvl : Nat) : Int :=
  allreduceMax (p.localWeight lvl) ((reducers world p lvl).map (fun q => q.localWeight lvl))

/-- Appending to the optional output vector, `if(p) p->push_back(x)`. -/
def pushBack (out : Option (List ℚ)) (x : ℚ) : Option (List ℚ) :=
  out.map (fun l => l ++ [x])

/-- Body of the loop over the mesh levels (lines 114-145) on process `p`, for
a round whose reductions return; the accumulator holds `minQuality` and the
output vector. -/
def qualityStep (world : List QProc) (p : QProc) (acc : ℚ × Option (List ℚ)) (lvl : Nat) :
    ℚ × Option (List ℚ) :=
  let hlvl := p.procH.hierarchy_level_from_grid_level lvl
  let numProcs := p.procH.num_global_procs_involved hlvl
  if numProcs ≤ 1 then (acc.1, pushBack acc.2 1)
  else
    let procComAll := comMembers world p hlvl
    if procComAll.isEmpty = false then
      let localWeight := p.localWeight lvl
      let minWeight := allreduceMin localWeight
        ((reducers world p lvl).map (fun q => q.localWeight lvl))
      let maxWeight := allreduceMax localWeight
        ((reducers world p lvl).map (fun q => q.localWeight lvl))
      if maxWeight > 0 then
        let quality : ℚ := (minWeight : ℚ) / (maxWeight : ℚ)
        (min acc.1 quality, pushBack acc.2 quality)
      else (acc.1, pushBack acc.2 (-1))
    else (acc.1, pushBack acc.2 (-1))

/-- Lines 99-146 on process `p`, for a loop that reaches its end:
`minQuality` and the output vector after the loop over the mesh levels. The
output vector is cleared first. -/
def estimateLocal (world : List QProc) (p : QProc) (pLvlQualitiesOut : Option (List ℚ)) :
    ℚ × Option (List ℚ) :=
  (List.range p.mg.num_levels).foldl (qualityStep world p)
    (1, pLvlQualitiesOut.map (fun _ => []))

/-- Lines 99-149 on process `p` of the cluster `world`: the value returned,
the minimum over all processes of their `minQuality`, and the output vector.
There is a result only if the rounds of `p` and of every process of the
cluster are matched (`allReturn`): the final reduction of line 149 is over
all processes, and each reaches it only after its own loop. When the
processes of a communicator make different sequences of reductions the call
blocks, and the embedding gives no result. -/
def estimateQuality (world : List QProc) (p : QProc) (pLvlQualitiesOut : Option (List ℚ)) :
    Option (ℚ × Option (List ℚ)) :=
  if loopReturns world p && allReturn world then
    let r := estimateLocal world p pLvlQualitiesOut
    some (allreduceMinQ r.1 (world.map (fun q => (estimateLocal world q none).1)), r.2)
  else none

/-- The per-level quality that process `p` reports for mesh level `lvl`,
by the cases of the loop body: 1 for a level with at most one process, the
sentinel -1 for an empty communicator or a maximum of 0, else the quotient
of the minimal by the maximal weight. -/
def levelQuality (world : List QProc) (p : QProc) (lvl : Nat) : ℚ :=
  if p.procH.num_global_procs_involved (p.procH.hierarchy_level_from_grid_level lvl) ≤ 1 then 1
  else if (comMembers world p (p.procH.hierarchy_level_from_grid_level lvl)).isEmpty = false then
    if levelMaxWeight world p lvl > 0 then
      (levelMinWeight world p lvl : ℚ) / (levelMaxWeight world p lvl : ℚ)
    else -1
  else -1

/-- The local process as `estimate_distribution_quality` reads it: its rank,
the bound mesh, the ghost predicate and the topology the method works on
(the staged one if present, else the current one, lines 107-111). -/
def Partitioner_Bisection.asProc (s : Partitioner_Bisection) (mg : MultiGrid) (rank : Int)
    (is_ghost : Elem → Bool) : QProc :=
  { rank := rank, mg := mg, is_ghost := is_ghost, procH := activeHierarchy s }

/-- The method `estimate_distribution_quality(pLvlQualitiesOut)` on a
process with rank `rank` and ghost predicate `is_ghost`, the other processes
being `peers`. It returns the quality, the output vector and the state of
the partitioner, which it never writes. With no mesh bound the method
dereferences a null pointer, and with reductions that do not match it
blocks; the embedding gives no result then. -/
def Partitioner_Bisection.estimate_distribution_quality (s : Partitioner_Bisection)
    (rank : Int) (is_ghost : Elem → Bool) (peers : List QProc)
    (pLvlQualitiesOut : Option (List ℚ)) :
    Option (ℚ × Option (List ℚ) × Partitioner_Bisection) :=
  match s.m_mg with
  | none => none
  | some mg =>
    match estimateQuality (s.asProc mg rank is_ghost :: peers) (s.asProc mg rank is_ghost)
        pLvlQualitiesOut with
    | none => none
    | some r => some (r.1, r.2, s)

/-- Example topology with two processes from mesh level 0 on. -/
def exTopoTwo : ProcessHierarchy :=
  { m_levels := [{ gridLvl := 0, clusterProcs := [0, 1] }] }

/-- Example process: rank `r`, a one-level mesh with the elements `es`, the
elements in `ghosts` being ghosts, topology `exTopoTwo`. -/
def exProc (r : Int) (es ghosts : List Elem) : QProc :=
  { rank := r
    mg := { levels := [es], children := fun _ => [] }
    is_ghost := fun e => decide (e ∈ ghosts)
    procH := exTopoTwo }


/-! ## The cluster in a collective call of partition -/

/-- The decisions `partition` takes for the hierarchy levels, in the order of
the loop (one entry per hierarchy level, read off the guards with the value
the ratchet has when the level is reached). -/
def branchTrace (env : Env) (mg : MultiGrid) (s : Partitioner_Bisection)
    (baseLvl elementThreshold : Nat) : List Branch :=
  (List.range (activeHierarchy s).num_hierarchy_levels).map (fun h =>
    branch mg (activeHierarchy s) baseLvl elementThreshold
      (loopUpTo env mg (activeHierarchy s) baseLvl elementThreshold
        { s with
          m_sh := assignLevels mg SubsetHandler.clear (firstLevels baseLvl), m_procMap := [] }
        h).m_highestRedistLevel h)

/-- One process of the cluster in a collective call of `partition`: its
environment (rank and splitter; the values of the other processes in the
final reduction come from the cluster) and the state of its partitioner. -/
structure PProc where
  env : Env
  state : Partitioner_Bisection

/-- Value of `m_highestRedistLevel` that a process contributes to the
reduction of line 289: the value after its loop over the hierarchy levels. -/
def localRedistLevel (p : PProc) (baseLvl elementThreshold : Nat) : Int :=
  match p.state.m_mg with
  | some mg => (partitionLoop p.env mg p.state baseLvl elementThreshold).m_highestRedistLevel
  | none => p.state.m_highestRedistLevel

/-- The collective call of `partition` on all processes of a cluster: every
process runs `partition`, the reduction of line 289 being the maximum over
the values of all processes. -/
def partitionCluster (procs : List PProc) (baseLvl elementThreshold : Nat) :
    List (Except UGError Partitioner_Bisection) :=
  procs.map (fun p =>
    partition
      { p.env with
        peerRedistLevels := procs.map (fun q => localRedistLevel q baseLvl elementThreshold) }
      p.state baseLvl elementThreshold)

/-- The larger of the previous ratchet of a process and the index of the
highest hierarchy level it splits in the call (its previous ratchet if it
splits none). -/
def highestLocal (p : PProc) (baseLvl elementThreshold : Nat) : Int :=
  match p.state.m_mg with
  | none => p.state.m_highestRedistLevel
  | some mg =>
    match lastSplit mg (activeHierarchy p.state) baseLvl elementThreshold
        p.state.m_highestRedistLevel (activeHierarchy p.state).num_hierarchy_levels with
    | some h => max p.state.m_highestRedistLevel (h : Int)
    | none => p.state.m_highestRedistLevel

/-- Mesh level `l` lies in the clamped window of hierarchy level `h`. -/
def inWindow (procH : ProcessHierarchy) (mg : MultiGrid) (baseLvl h l : Nat) : Prop :=
  minLvl procH baseLvl h ≤ l ∧ (l : Int) ≤ maxLvl procH mg h

instance (procH : ProcessHierarchy) (mg : MultiGrid) (baseLvl h l : Nat) :
    Decidable (inWindow procH mg baseLvl h l) := by
  unfold inWindow
  infer_instance

/-- Example mesh with the levels of `exMesh` but a single element on mesh
level 1. -/
def exMeshSmall : MultiGrid :=
  { levels := [[0], [2], [6]]
    children := fun e => if e = 0 then [2] else if e = 2 then [6] else [] }

/-- Example process for the quality estimate: rank 1, the mesh `exMeshSmall`,
no ghosts, topology `exTopo`. -/
def exPeer : QProc :=
  { rank := 1, mg := exMeshSmall, is_ghost := fun _ => false, procH := exTopo }

/-- Example mesh with other elements than `exMesh` but the same number of
elements on every level. -/
def exMeshOther : MultiGrid :=
  { levels := [[10, 11], [12, 13, 14, 15], [16, 17]]
    children := fun e =>
      if e = 10 then [12, 13] else if e = 11 then [14, 15] else if e = 12 then [16]
      else if e = 13 then [17] else [] }

/-- Example cluster of two processes with the topology `exTopo`: the first
holds `exMesh`, the second `exMeshSmall`. -/
def exCluster : List PProc :=
  [{ env := exEnv, state := exStateOn exMesh exTopo },
   { env := exEnv, state := exStateOn exMeshSmall exTopo }]



/-! ## Smart pointers (common/util/smart_pointer.h) -/

/-- Largest value of an `int`. -/
def INT_MAX : Int := 2147483647

/-- Smallest value of an `int`. -/
def INT_MIN : Int := -2147483648

/-- The part of the heap smart pointers work on: the reference counters
allocated with `new int(1)` (address to value, `none` for an address that
holds no counter, in particular after `delete`), the address the next
`new int` returns, and the calls of `FreePolicy<T>::free` so far with their
argument (an object address, `none` for a null pointer). -/
structure SPHeap where
  counters : Nat → Option Int
  nextCounter : Nat
  freed : List (Option Nat)

namespace SPHeap

/-- Heap without counters, on which nothing was freed yet. -/
def empty : SPHeap :=
  { counters := fun _ => none, nextCounter := 0, freed := [] }

/-- Writing (`some v`) or deleting (`none`) the counter at address `c`. -/
def store (h : SPHeap) (c : Nat) (v : Option Int) : SPHeap :=
  { h with counters := fun a => if a = c then v else h.counters a }

/-- Allocation `new int(1)`: the heap afterwards and the address. -/
def newCounter (h : SPHeap) : SPHeap × Nat :=
  ({ h.store h.nextCounter (some 1) with nextCounter := h.nextCounter + 1 }, h.nextCounter)

/-- Statement `(*c)++`. On an address without counter and on a counter that
holds `INT_MAX` the behaviour is undefined: the heap at that point is
returned as error. -/
def increment (h : SPHeap) (c : Nat) : Except SPHeap SPHeap :=
  match h.counters c with
  | some n => if n < INT_MAX then Except.ok (h.store c (some (n + 1))) else Except.error h
  | none => Except.error h

/-- Call `FreePolicy<T>::free(ptr)`, entered in the log. -/
def free (h : SPHeap) (ptr : Option Nat) : SPHeap :=
  { h with freed := h.freed ++ [ptr] }

end SPHeap

/-- Members of `SmartPtr<T, FreePolicy>`: the encapsulated pointer and the
pointer to the shared counter, each `none` for a null pointer. -/
structure SmartPtr where
  m_ptr : Option Nat
  m_refCount : Option Nat
  deriving DecidableEq, Repr

namespace SmartPtr

/-- Constructor `SmartPtr()`. -/
def null : SmartPtr :=
  { m_ptr := none, m_refCount := none }

/-- Constructor `SmartPtr(T* ptr)`: a new counter with value 1 if `ptr` is
not null. -/
def fromRaw (h : SPHeap) (ptr : Option Nat) : SPHeap × SmartPtr :=
  match ptr with
  | some o => (h.newCounter.1, { m_ptr := some o, m_refCount := some h.newCounter.2 })
  | none => (h, { m_ptr := none, m_refCount := none })

/-- Copy constructor `SmartPtr(const SmartPtr& sp)`: the heap afterwards and
the new smart pointer. -/
def copy (sp : SmartPtr) (h : SPHeap) : Except SPHeap (SPHeap × SmartPtr) :=
  match sp.m_refCount with
  | some c =>
    match h.increment c with
    | Except.ok h2 => Except.ok (h2, { m_ptr := sp.m_ptr, m_refCount := sp.m_refCount })
    | Except.error e => Except.error e
  | none => Except.ok (h, { m_ptr := sp.m_ptr, m_refCount := sp.m_refCount })

/-- Method `release()`: decrements the counter; below 1 the counter is
deleted and `FreePolicy<T>::free(m_ptr)` called. The members are not
changed. Access to an address without counter is undefined behaviour (error
with the heap at that point). -/
def release (sp : SmartPtr) (h : SPHeap) : Except SPHeap SPHeap :=
  match sp.m_refCount with
  | none => Except.ok h
  | some c =>
    match h.counters c with
    | none => Except.error h
    | some n =>
      if n ≤ INT_MIN then Except.error h
      else if n - 1 < 1 then Except.ok ((h.store c none).free sp.m_ptr)
      else Except.ok (h.store c (some (n - 1)))

/-- Destructor `~SmartPtr() {release();}`. -/
def destructor (sp : SmartPtr) (h : SPHeap) : Except SPHeap SPHeap :=
  sp.release h

/-- Assignment `self = sp` (`operator=(const SmartPtr& sp)`): release if
`m_ptr` is not null, take over the members of `sp`, increment the counter if
there is one. For `a = a` the argument is the object itself; `release()`
leaves its members as they are, so they are read with the values they had
at the call. -/
def assign (self sp : SmartPtr) (h : SPHeap) : Except SPHeap (SPHeap × SmartPtr) :=
  match (if self.m_ptr.isSome then self.release h else Except.ok h) with
  | Except.error e => Except.error e
  | Except.ok h1 =>
    match sp.m_refCount with
    | some c =>
      match h1.increment c with
      | Except.ok h2 => Except.ok (h2, { m_ptr := sp.m_ptr, m_refCount := sp.m_refCount })
      | Except.error e => Except.error e
    | none => Except.ok (h1, { m_ptr := sp.m_ptr, m_refCount := sp.m_refCount })

/-- Method `get_refcount()`: `*m_refCount`, 0 for a null counter pointer. -/
def get_refcount (sp : SmartPtr) (h : SPHeap) : Except SPHeap Int :=
  match sp.m_refCount with
  | none => Except.ok 0
  | some c =>
    match h.counters c with
    | some n => Except.ok n
    | none => Except.error h

/-- Method `is_valid()`: `m_ptr != NULL`. -/
def is_valid (sp : SmartPtr) : Bool :=
  sp.m_ptr.isSome

end SmartPtr

/-- Members of `SmartPtr<void>`: pointer and counter pointer. The member
`m_freeFunc` is not represented: a call `m_freeFunc(m_ptr)` is a call of
`FreePolicy<T>::free` and entered in the log of the heap as such. -/
structure SmartPtrVoid where
  m_ptr : Option Nat
  m_refCountPtr : Option Nat
  deriving DecidableEq, Repr

namespace SmartPtrVoid

/-- Constructor `SmartPtr<void>(const SmartPtr<T>& sp)`. -/
def fromSmartPtr (sp : SmartPtr) (h : SPHeap) : Except SPHeap (SPHeap × SmartPtrVoid) :=
  match sp.m_refCount with
  | some c =>
    match h.increment c with
    | Except.ok h2 => Except.ok (h2, { m_ptr := sp.m_ptr, m_refCountPtr := sp.m_refCount })
    | Except.error e => Except.error e
  | none => Except.ok (h, { m_ptr := sp.m_ptr, m_refCountPtr := sp.m_refCount })

/-- Method `release()` of `SmartPtr<void>`. -/
def release (p : SmartPtrVoid) (h : SPHeap) : Except SPHeap SPHeap :=
  match p.m_refCountPtr with
  | none => Except.ok h
  | some c =>
    match h.counters c with
    | none => Except.error h
    | some n =>
      if n ≤ INT_MIN then Except.error h
      else if n - 1 < 1 then Except.ok ((h.store c none).free p.m_ptr)
      else Except.ok (h.store c (some (n - 1)))

/-- Destructor `~SmartPtr() {release();}` of `SmartPtr<void>`. -/
def destructor (p : SmartPtrVoid) (h : SPHeap) : Except SPHeap SPHeap :=
  p.release h

/-- Method `is_valid()` of `SmartPtr<void>`. -/
def is_valid (p : SmartPtrVoid) : Bool :=
  p.m_ptr.isSome

/-- Method `invalidate() {if(is_valid()) release(); m_ptr = NULL;}`: the
counter pointer stays as it is. -/
def invalidate (p : SmartPtrVoid) (h : SPHeap) : Except SPHeap (SPHeap × SmartPtrVoid) :=
  match (if p.is_valid then p.release h else Except.ok h) with
  | Except.error e => Except.error e
  | Except.ok h1 => Except.ok (h1, { p with m_ptr := none })

/-- Method `get_refcount()` of `SmartPtr<void>`. -/
def get_refcount (p : SmartPtrVoid) (h : SPHeap) : Except SPHeap Int :=
  match p.m_refCountPtr with
  | none => Except.ok 0
  | some c =>
    match h.counters c with
    | some n => Except.ok n
    | none => Except.error h

end SmartPtrVoid

/-- An operation of a program on its smart pointers; the live `SmartPtr`
objects are numbered in the order of the list `SPMachine.live`. -/
inductive SPOp where
  | construct (ptr : Option Nat)
  | copy (i : Nat)
  | assign (i j : Nat)
  | destroy (i : Nat)
  deriving DecidableEq, Repr

/-- State of a program as far as its smart pointers go: the heap, the live
`SmartPtr` objects, and the raw pointers that were handed to the constructor
`SmartPtr(T* ptr)` so far. -/
structure SPMachine where
  heap : SPHeap
  live : List SmartPtr
  wrapped : List Nat

namespace SPMachine

/-- Start of the program: no smart pointer yet. -/
def empty : SPMachine :=
  { heap := SPHeap.empty, live := [], wrapped := [] }

/-- One operation: `construct ptr` declares a new `SmartPtr(ptr)`, `copy i`
a new copy of object `i`, `assign i j` is the assignment of object `j` to
object `i`, `destroy i` ends the life of object `i`. An operation that names
no live object does nothing. -/
def step (m : SPMachine) : SPOp → Except SPHeap SPMachine
  | SPOp.construct ptr =>
    Except.ok
      { heap := (SmartPtr.fromRaw m.heap ptr).1
        live := m.live ++ [(SmartPtr.fromRaw m.heap ptr).2]
        wrapped := match ptr with
          | some o => o :: m.wrapped
          | none => m.wrapped }
  | SPOp.copy i =>
    match m.live[i]? with
    | none => Except.ok m
    | some sp =>
      match sp.copy m.heap with
      | Except.ok r => Except.ok { m with heap := r.1, live := m.live ++ [r.2] }
      | Except.error e => Except.error e
  | SPOp.assign i j =>
    match m.live[i]?, m.live[j]? with
    | some a, some b =>
      match a.assign b m.heap with
      | Except.ok r => Except.ok { m with heap := r.1, live := m.live.set i r.2 }
      | Except.error e => Except.error e
    | _, _ => Except.ok m
  | SPOp.destroy i =>
    match m.live[i]? with
    | none => Except.ok m
    | some sp =>
      match sp.destructor m.heap with
      | Except.ok h => Except.ok { m with heap := h, live := m.live.eraseIdx i }
      | Except.error e => Except.error e

/-- A sequence of operations, one after the other. -/
def run (m : SPMachine) : List SPOp → Except SPHeap SPMachine
  | [] => Except.ok m
  | op :: ops =>
    match m.step op with
    | Except.ok m2 => m2.run ops
    | Except.error e => Except.error e

/-- Number of live `SmartPtr` objects that encapsulate object `o`. -/
def holdersOf (live : List SmartPtr) (o : Nat) : Nat :=
  live.countP (fun sp => decide (sp.m_ptr = some o))

/-- Number of live `SmartPtr` objects whose counter is at address `c`. -/
def holders (live : List SmartPtr) (c : Nat) : Nat :=
  live.countP (fun sp => decide (sp.m_refCount = some c))

/-- Whether object `i` is valid and its reference count is 1. -/
def soleHolder (m : SPMachine) (i : Nat) : Bool :=
  match m.live[i]? with
  | none => false
  | some sp =>
    sp.is_valid &&
      (match sp.get_refcount m.heap with
       | Except.ok n => decide (n = 1)
       | Except.error _ => false)

/-- The operations considered: a raw pointer is handed to the constructor
`SmartPtr(T* ptr)` at most once, the objects named are live, fewer than
`INT_MAX` objects are live when one is added, and an object that is the only
holder of its pointer is not assigned to itself. -/
def admits (m : SPMachine) : SPOp → Bool
  | SPOp.construct (some o) => decide (o ∉ m.wrapped)
  | SPOp.construct none => true
  | SPOp.copy i => decide (i < m.live.length) && decide ((m.live.length : Int) < INT_MAX)
  | SPOp.assign i j =>
    decide (i < m.live.length) && decide (j < m.live.length) &&
      decide ((m.live.length : Int) ≤ INT_MAX) && !(decide (i = j) && m.soleHolder i)
  | SPOp.destroy i => decide (i < m.live.length)

/-- Every operation of the sequence is admitted in the state it is applied
to. -/
def admitsAll (m : SPMachine) : List SPOp → Bool
  | [] => true
  | op :: ops =>
    m.admits op &&
      (match m.step op with
       | Except.ok m2 => m2.admitsAll ops
       | Except.error _ => true)

end SPMachine



/-- Number of calls of `FreePolicy<T>::free` on object `o` so far. -/
def SPHeap.timesFreed (h : SPHeap) (o : Nat) : Nat :=
  h.freed.countP (fun x => decide (x = some o))

/-- Value a counter has when `n` live smart pointers point to it: no counter
for `n = 0`. -/
def counterOf (n : Nat) : Option Int :=
  if n = 0 then none else some (n : Int)

/-- Heap `h`, live smart pointers `live` and wrapped raw pointers `wrapped`
fit together: every counter holds the number of live smart pointers that
point to it, smart pointers of one object share one counter and a counter
serves one object, a null smart pointer has no counter, and free was
executed, once, on exactly those wrapped objects no live smart pointer
encapsulates. -/
structure SPConsistent (h : SPHeap) (live : List SmartPtr) (wrapped : List Nat) : Prop where
  counters : ∀ c, h.counters c = counterOf (SPMachine.holders live c)
  fresh : ∀ sp ∈ live, ∀ c, sp.m_refCount = some c → c < h.nextCounter
  null_iff : ∀ sp ∈ live, (sp.m_ptr = none ↔ sp.m_refCount = none)
  same_counter : ∀ sp ∈ live, ∀ sq ∈ live, ∀ o, sp.m_ptr = some o → sq.m_ptr = some o →
    sp.m_refCount = sq.m_refCount
  same_object : ∀ sp ∈ live, ∀ sq ∈ live, ∀ c, sp.m_refCount = some c →
    sq.m_refCount = some c → sp.m_ptr = sq.m_ptr
  held_wrapped : ∀ sp ∈ live, ∀ o, sp.m_ptr = some o → o ∈ wrapped
  freed_iff : ∀ o ∈ wrapped, (some o ∈ h.freed ↔ SPMachine.holdersOf live o = 0)
  freed_nodup : h.freed.Nodup
  freed_wrapped : ∀ x ∈ h.freed, ∃ o ∈ wrapped, x = some o


/-! # Lemmas -/

/-! ## Basic facts about the mesh and the subset handler -/

theorem MultiGrid.lt_length_of_mem {mg : MultiGrid} {l : Nat} {e : Elem}
    (h : e ∈ mg.elems l) : l < mg.levels.length := by
  by_contra hlt
  have hnone : mg.levels[l]? = none := List.getElem?_eq_none (not_lt.mp hlt)
  simp [MultiGrid.elems, List.getD, hnone] at h

theorem MultiGrid.WF.level_unique {mg : MultiGrid} (hwf : mg.WF) {l l2 : Nat} {e : Elem}
    (h1 : e ∈ mg.elems l) (h2 : e ∈ mg.elems l2) : l = l2 :=
  hwf.1 l (MultiGrid.lt_length_of_mem h1) l2 (MultiGrid.lt_length_of_mem h2) e h1 h2

theorem MultiGrid.WF.child_level {mg : MultiGrid} (hwf : mg.WF) {l : Nat} {e c : Elem}
    (h1 : e ∈ mg.elems l) (h2 : c ∈ mg.children e) : c ∈ mg.elems (l + 1) :=
  hwf.2 l (MultiGrid.lt_length_of_mem h1) e h1 c h2

theorem MultiGrid.Full.parent {mg : MultiGrid} (hfull : mg.Full) {l : Nat} {c : Elem}
    (h : c ∈ mg.elems (l + 1)) : ∃ p ∈ mg.elems l, c ∈ mg.children p := by
  have h1 : l + 1 < mg.levels.length := MultiGrid.lt_length_of_mem h
  exact hfull l (by omega) c h

theorem MultiGrid.Full.parentsWithin {mg : MultiGrid} (hfull : mg.Full) (lo : Nat) (hi : Int) :
    mg.ParentsWithin lo hi :=
  fun _ _ _ _ hc => hfull.parent hc

/-- An invariant of every step of a fold is an invariant of the fold. -/
theorem foldl_invariant {α β : Type} (P : β → Prop) (f : β → α → β) (l : List α)
    (hstep : ∀ b a, a ∈ l → P b → P (f b a)) : ∀ b, P b → P (l.foldl f b) := by
  induction l with
  | nil => intro b hb; simpa using hb
  | cons a t ih =>
    intro b hb
    simp only [List.foldl_cons]
    exact ih (fun b2 a2 ha2 => hstep b2 a2 (List.mem_cons_of_mem _ ha2)) _
      (hstep b a (List.mem_cons_self _ _) hb)

/-- A fold none of whose steps changes the index of `x` leaves it unchanged. -/
theorem foldl_frame {α : Type} (f : SubsetHandler → α → SubsetHandler) (x : Elem) (l : List α)
    (hstep : ∀ sh a, a ∈ l → (f sh a).subsetIndex x = sh.subsetIndex x) (sh : SubsetHandler) :
    (l.foldl f sh).subsetIndex x = sh.subsetIndex x :=
  foldl_invariant (fun b => b.subsetIndex x = sh.subsetIndex x) f l
    (fun b a ha hb => (hstep b a ha).trans hb) sh rfl

theorem SubsetHandler.assign_subset_same (sh : SubsetHandler) (e : Elem) (si : Int) :
    (sh.assign_subset e si).subsetIndex e = si := by
  simp [SubsetHandler.assign_subset]

theorem SubsetHandler.assign_subset_other (sh : SubsetHandler) {e x : Elem} (si : Int)
    (h : x ≠ e) : (sh.assign_subset e si).subsetIndex x = sh.subsetIndex x := by
  simp [SubsetHandler.assign_subset, Function.update_noteq h]

theorem SubsetHandler.assign_subset_cases (sh : SubsetHandler) (e x : Elem) (si : Int) :
    (sh.assign_subset e si).subsetIndex x = si ∨
      (sh.assign_subset e si).subsetIndex x = sh.subsetIndex x := by
  by_cases h : x = e
  · subst h; exact Or.inl (sh.assign_subset_same _ _)
  · exact Or.inr (sh.assign_subset_other _ h)

/-- Writing a value with property `G` keeps property `G` of every index. -/
theorem SubsetHandler.assign_subset_keeps (G : Int → Prop) (sh : SubsetHandler) (e x : Elem)
    (si : Int) (hsi : G si) (hx : G (sh.subsetIndex x)) :
    G ((sh.assign_subset e si).subsetIndex x) := by
  rcases sh.assign_subset_cases e x si with h | h <;> rw [h] <;> assumption

theorem SubsetHandler.assign_subset_range_mem (sh : SubsetHandler) (es : List Elem) (si : Int)
    {x : Elem} (hx : x ∈ es) : (sh.assign_subset_range es si).subsetIndex x = si := by
  unfold SubsetHandler.assign_subset_range
  induction es generalizing sh with
  | nil => simp at hx
  | cons a t ih =>
    simp only [List.foldl_cons]
    by_cases hxt : x ∈ t
    · exact ih _ hxt
    · have hxa : x = a := by
        rcases List.mem_cons.mp hx with h | h
        · exact h
        · exact absurd h hxt
      subst hxa
      rw [foldl_frame _ x t (fun b _ ha => b.assign_subset_other _ (fun h => hxt (h ▸ ha)))]
      exact sh.assign_subset_same _ _

theorem SubsetHandler.assign_subset_range_not_mem (sh : SubsetHandler) (es : List Elem)
    (si : Int) {x : Elem} (hx : x ∉ es) :
    (sh.assign_subset_range es si).subsetIndex x = sh.subsetIndex x :=
  foldl_frame (fun acc e => acc.assign_subset e si) x es
    (fun b _ ha => SubsetHandler.assign_subset_other b si (fun h => hx (h ▸ ha))) sh

theorem SubsetHandler.assign_subset_range_keeps (G : Int → Prop) (sh : SubsetHandler)
    (es : List Elem) (si : Int) (hsi : G si) (x : Elem) (hx : G (sh.subsetIndex x)) :
    G ((sh.assign_subset_range es si).subsetIndex x) :=
  foldl_invariant (fun (b : SubsetHandler) => G (b.subsetIndex x)) _ es
    (fun b a _ hb => SubsetHandler.assign_subset_keeps G b a x si hsi hb) sh hx

/-! ### assignLevels -/

theorem assignLevels_mem (mg : MultiGrid) (sh : SubsetHandler) (lvls : List Nat) {l : Nat}
    {x : Elem} (hl : l ∈ lvls) (hx : x ∈ mg.elems l) :
    (assignLevels mg sh lvls).subsetIndex x = 0 := by
  unfold assignLevels
  induction lvls generalizing sh with
  | nil => simp at hl
  | cons a t ih =>
    simp only [List.foldl_cons]
    by_cases hlt : l ∈ t
    · exact ih _ hlt
    · have hla : l = a := by
        rcases List.mem_cons.mp hl with h | h
        · exact h
        · exact absurd h hlt
      subst hla
      refine foldl_invariant (fun (b : SubsetHandler) => b.subsetIndex x = 0) _ t ?_ _ ?_
      · intro b a _ hb
        exact SubsetHandler.assign_subset_range_keeps (fun v => v = 0) b _ 0 rfl x hb
      · exact sh.assign_subset_range_mem _ 0 hx

theorem assignLevels_not_mem (mg : MultiGrid) (sh : SubsetHandler) (lvls : List Nat) {x : Elem}
    (hx : ∀ l ∈ lvls, x ∉ mg.elems l) :
    (assignLevels mg sh lvls).subsetIndex x = sh.subsetIndex x :=
  foldl_frame _ x lvls
    (fun b a ha => SubsetHandler.assign_subset_range_not_mem b _ 0 (hx a ha)) sh

theorem assignLevels_keeps (G : Int → Prop) (hG : G 0) (mg : MultiGrid) (sh : SubsetHandler)
    (lvls : List Nat) (x : Elem) (hx : G (sh.subsetIndex x)) :
    G ((assignLevels mg sh lvls).subsetIndex x) :=
  foldl_invariant (fun (b : SubsetHandler) => G (b.subsetIndex x)) _ lvls
    (fun b _ _ hb => SubsetHandler.assign_subset_range_keeps G b _ 0 hG x hb) sh hx

theorem mem_levelsUpTo {lo : Nat} {hi : Int} {l : Nat} :
    l ∈ levelsUpTo lo hi ↔ lo ≤ l ∧ (l : Int) ≤ hi := by
  unfold levelsUpTo
  rw [List.mem_range'_1]
  omega

theorem mem_levelsBelow {lo : Nat} {hi : Int} {l : Nat} :
    l ∈ levelsBelow lo hi ↔ lo ≤ l ∧ (l : Int) < hi := by
  unfold levelsBelow
  rw [List.mem_range'_1]
  omega


/-! ### Passes that copy indices: what they keep and what they leave alone -/

theorem Keeps.refl (G : Int → Prop) (sh : SubsetHandler) : Keeps G sh sh :=
  fun _ h => h

theorem Keeps.trans {G : Int → Prop} {a b c : SubsetHandler} (h1 : Keeps G a b)
    (h2 : Keeps G b c) : Keeps G a c :=
  fun y h => h2 y (h1 y h)

theorem keeps_assign_subset (G : Int → Prop) (sh : SubsetHandler) (e : Elem) (si : Int)
    (hsi : G si) : Keeps G sh (sh.assign_subset e si) :=
  fun y hy => sh.assign_subset_keeps G e y si hsi hy

theorem foldl_keeps {α : Type} (G : Int → Prop) (f : SubsetHandler → α → SubsetHandler)
    (l : List α) (sh : SubsetHandler)
    (hstep : ∀ b a, a ∈ l → Keeps G sh b → Keeps G b (f b a)) :
    Keeps G sh (l.foldl f sh) :=
  foldl_invariant (fun b => Keeps G sh b) f l
    (fun b a ha hb => hb.trans (hstep b a ha hb)) sh (Keeps.refl G sh)

/-- Writing one fixed value with property `G` to a list of elements. -/
theorem keeps_assign_list (G : Int → Prop) (sh : SubsetHandler) (cs : List Elem) (si : Int)
    (hsi : G si) : Keeps G sh (cs.foldl (fun acc c => acc.assign_subset c si) sh) :=
  foldl_keeps G _ cs sh (fun b a _ _ => keeps_assign_subset G b a si hsi)

theorem assign_list_mem (sh : SubsetHandler) (cs : List Elem) (si : Int) {x : Elem}
    (hx : x ∈ cs) : (cs.foldl (fun acc c => acc.assign_subset c si) sh).subsetIndex x = si :=
  sh.assign_subset_range_mem cs si hx

theorem assign_list_not_mem (sh : SubsetHandler) (cs : List Elem) (si : Int) {x : Elem}
    (hx : x ∉ cs) :
    (cs.foldl (fun acc c => acc.assign_subset c si) sh).subsetIndex x = sh.subsetIndex x :=
  sh.assign_subset_range_not_mem cs si hx

/-! #### The splitter call -/

theorem applySplitter_frame (env : Env) (mg : MultiGrid) (sh : SubsetHandler) (lvl n : Nat)
    {x : Elem} (hx : x ∉ mg.elems lvl) :
    (applySplitter env mg sh lvl n).subsetIndex x = sh.subsetIndex x :=
  foldl_frame _ x (mg.elems lvl)
    (fun b _ ha => SubsetHandler.assign_subset_other b _ (fun h => hx (h ▸ ha))) sh

theorem applySplitter_keeps (G : Int → Prop) (env : Env) (mg : MultiGrid) (sh : SubsetHandler)
    (lvl n : Nat) (hG : ∀ e ∈ mg.elems lvl, G (env.splitter (mg.elems lvl) n e)) :
    Keeps G sh (applySplitter env mg sh lvl n) :=
  foldl_keeps G _ (mg.elems lvl) sh (fun b a ha _ => keeps_assign_subset G b a _ (hG a ha))

theorem foldl_assign_fun_mem (G : Int → Prop) (g : Elem → Int) (es : List Elem)
    (hG : ∀ e ∈ es, G (g e)) (sh : SubsetHandler) {x : Elem} (hx : x ∈ es) :
    G ((es.foldl (fun acc e => acc.assign_subset e (g e)) sh).subsetIndex x) := by
  induction es generalizing sh with
  | nil => simp at hx
  | cons a t ih =>
    simp only [List.foldl_cons]
    by_cases hxt : x ∈ t
    · exact ih (fun e he => hG e (List.mem_cons_of_mem _ he)) _ hxt
    · have hxa : x = a := by
        rcases List.mem_cons.mp hx with h | h
        · exact h
        · exact absurd h hxt
      subst hxa
      rw [foldl_frame _ x t
        (fun b _ ha => SubsetHandler.assign_subset_other b _ (fun h => hxt (h ▸ ha)))]
      rw [SubsetHandler.assign_subset_same]
      exact hG x (List.mem_cons_self _ _)

theorem applySplitter_mem (G : Int → Prop) (env : Env) (mg : MultiGrid) (sh : SubsetHandler)
    (lvl n : Nat) (hG : ∀ e ∈ mg.elems lvl, G (env.splitter (mg.elems lvl) n e)) {x : Elem}
    (hx : x ∈ mg.elems lvl) : G ((applySplitter env mg sh lvl n).subsetIndex x) :=
  foldl_assign_fun_mem G _ (mg.elems lvl) hG sh hx

/-! #### Sibling clustering -/

theorem clusterChildren_frame (mg : MultiGrid) (sh : SubsetHandler) (e : Elem) {x : Elem}
    (hx : x ∉ mg.children e) : (clusterChildren mg sh e).subsetIndex x = sh.subsetIndex x := by
  unfold clusterChildren
  split
  · next c0 c1 cs heq =>
    rw [heq] at hx
    exact assign_list_not_mem sh _ _ (fun h => hx (List.mem_cons_of_mem _ h))
  · rfl

theorem clusterChildren_keeps (G : Int → Prop) (mg : MultiGrid) (sh : SubsetHandler) (e : Elem)
    (hsrc : ∀ c ∈ mg.children e, G (sh.subsetIndex c)) : Keeps G sh (clusterChildren mg sh e) := by
  unfold clusterChildren
  split
  · next c0 c1 cs heq =>
    exact keeps_assign_list G sh _ _ (hsrc c0 (by rw [heq]; exact List.mem_cons_self _ _))
  · exact Keeps.refl G sh

theorem clusterSiblings_frame (mg : MultiGrid) (sh : SubsetHandler) (lvl : Nat) {x : Elem}
    (hx : 0 < lvl → ∀ p ∈ mg.elems (lvl - 1), x ∉ mg.children p) :
    (clusterSiblings mg sh lvl).subsetIndex x = sh.subsetIndex x := by
  unfold clusterSiblings
  split
  · next hpos =>
    exact foldl_frame _ x _ (fun b a ha => clusterChildren_frame mg b a (hx hpos a ha)) sh
  · rfl

theorem clusterSiblings_keeps (G : Int → Prop) (mg : MultiGrid) (sh : SubsetHandler) (lvl : Nat)
    (hsrc : 0 < lvl → ∀ p ∈ mg.elems (lvl - 1), ∀ c ∈ mg.children p, G (sh.subsetIndex c)) :
    Keeps G sh (clusterSiblings mg sh lvl) := by
  unfold clusterSiblings
  split
  · next hpos =>
    exact foldl_keeps G _ _ sh
      (fun b a ha hb => clusterChildren_keeps G mg b a (fun c hc => hb c (hsrc hpos a ha c hc)))
  · exact Keeps.refl G sh

/-! #### Downward propagation -/

theorem assignChildren_frame (mg : MultiGrid) (sh : SubsetHandler) (e : Elem) {x : Elem}
    (hx : x ∉ mg.children e) : (assignChildren mg sh e).subsetIndex x = sh.subsetIndex x :=
  assign_list_not_mem sh _ _ hx

theorem assignChildren_keeps (G : Int → Prop) (mg : MultiGrid) (sh : SubsetHandler) (e : Elem)
    (hsrc : G (sh.subsetIndex e)) : Keeps G sh (assignChildren mg sh e) :=
  keeps_assign_list G sh _ _ hsrc

theorem assignChildren_mem (mg : MultiGrid) (sh : SubsetHandler) (e : Elem) {c : Elem}
    (hc : c ∈ mg.children e) : (assignChildren mg sh e).subsetIndex c = sh.subsetIndex e :=
  assign_list_mem sh _ _ hc

theorem propagateLevel_frame (mg : MultiGrid) (sh : SubsetHandler) (lvl : Nat) {x : Elem}
    (hx : ∀ p ∈ mg.elems lvl, x ∉ mg.children p) :
    (propagateLevel mg sh lvl).subsetIndex x = sh.subsetIndex x :=
  foldl_frame _ x _ (fun b a ha => assignChildren_frame mg b a (hx a ha)) sh

theorem propagateLevel_keeps (G : Int → Prop) (mg : MultiGrid) (sh : SubsetHandler) (lvl : Nat)
    (hsrc : ∀ p ∈ mg.elems lvl, G (sh.subsetIndex p)) :
    Keeps G sh (propagateLevel mg sh lvl) :=
  foldl_keeps G _ _ sh (fun b a ha hb => assignChildren_keeps G mg b a (hb a (hsrc a ha)))

theorem foldl_assignChildren_child (G : Int → Prop) (mg : MultiGrid) (es : List Elem)
    (sh : SubsetHandler) (hsrc : ∀ p ∈ es, G (sh.subsetIndex p)) {p c : Elem} (hp : p ∈ es)
    (hc : c ∈ mg.children p) : G ((es.foldl (assignChildren mg) sh).subsetIndex c) := by
  induction es generalizing sh with
  | nil => simp at hp
  | cons a t ih =>
    simp only [List.foldl_cons]
    have hk : Keeps G sh (assignChildren mg sh a) :=
      assignChildren_keeps G mg sh a (hsrc a (List.mem_cons_self _ _))
    have hsrc2 : ∀ q ∈ t, G ((assignChildren mg sh a).subsetIndex q) :=
      fun q hq => hk q (hsrc q (List.mem_cons_of_mem _ hq))
    rcases List.mem_cons.mp hp with h | h
    · subst h
      have h1 : G ((assignChildren mg sh p).subsetIndex c) := by
        rw [assignChildren_mem mg sh p hc]
        exact hsrc p (List.mem_cons_self _ _)
      exact foldl_keeps G _ t _
        (fun b q hq hb => assignChildren_keeps G mg b q (hb q (hsrc2 q hq))) c h1
    · exact ih _ hsrc2 h

theorem propagateLevel_child (G : Int → Prop) (mg : MultiGrid) (sh : SubsetHandler) (lvl : Nat)
    (hsrc : ∀ p ∈ mg.elems lvl, G (sh.subsetIndex p)) {p c : Elem} (hp : p ∈ mg.elems lvl)
    (hc : c ∈ mg.children p) : G ((propagateLevel mg sh lvl).subsetIndex c) :=
  foldl_assignChildren_child G mg _ sh hsrc hp hc

theorem propagate_frame (mg : MultiGrid) (sh : SubsetHandler) (lo : Nat) (hi : Int) {x : Elem}
    (hx : ∀ l ∈ levelsBelow lo hi, ∀ p ∈ mg.elems l, x ∉ mg.children p) :
    (propagate mg sh lo hi).subsetIndex x = sh.subsetIndex x :=
  foldl_frame _ x _ (fun b a ha => propagateLevel_frame mg b a (hx a ha)) sh

/-- Propagation keeps `G` when all its sources lie in a set `T` on which `G` holds. -/
theorem propagate_keeps (G : Int → Prop) (mg : MultiGrid) (sh : SubsetHandler) (lo : Nat)
    (hi : Int) (hsrc : ∀ l ∈ levelsBelow lo hi, ∀ p ∈ mg.elems l, G (sh.subsetIndex p)) :
    Keeps G sh (propagate mg sh lo hi) :=
  foldl_keeps G _ _ sh
    (fun b a ha hb => propagateLevel_keeps G mg b a (fun p hp => hb p (hsrc a ha p hp)))


/-- When every element of the levels reached has a parent one level below,
propagation from a level all of whose indices have property `G` gives
property `G` to all indices of the levels it reaches, and keeps `G`
elsewhere. -/
theorem foldl_propagateLevel_full (G : Int → Prop) (mg : MultiGrid) (n : Nat) :
    ∀ (lo : Nat) (sh : SubsetHandler),
      (∀ l, lo ≤ l → l < lo + n → ∀ c ∈ mg.elems (l + 1), ∃ p ∈ mg.elems l, c ∈ mg.children p) →
      (∀ x ∈ mg.elems lo, G (sh.subsetIndex x)) →
      Keeps G sh ((List.range' lo n).foldl (propagateLevel mg) sh) ∧
      ∀ l, lo ≤ l → l ≤ lo + n → ∀ x ∈ mg.elems l,
        G (((List.range' lo n).foldl (propagateLevel mg) sh).subsetIndex x) := by
  induction n with
  | zero =>
    intro lo sh _ h0
    refine ⟨Keeps.refl G sh, ?_⟩
    intro l h1 h2 x hx
    have : l = lo := by omega
    subst this
    simpa using h0 x hx
  | succ n ih =>
    intro lo sh hpar h0
    have hk1 : Keeps G sh (propagateLevel mg sh lo) := propagateLevel_keeps G mg sh lo h0
    have h1 : ∀ x ∈ mg.elems (lo + 1), G ((propagateLevel mg sh lo).subsetIndex x) := by
      intro x hx
      obtain ⟨p, hp, hc⟩ := hpar lo (le_refl _) (by omega) x hx
      exact propagateLevel_child G mg sh lo h0 hp hc
    obtain ⟨hk2, h2⟩ := ih (lo + 1) (propagateLevel mg sh lo)
      (fun l hl1 hl2 => hpar l (by omega) (by omega)) h1
    have hunf : (List.range' lo (n + 1)).foldl (propagateLevel mg) sh =
        (List.range' (lo + 1) n).foldl (propagateLevel mg) (propagateLevel mg sh lo) := by
      simp [List.range'_succ]
    rw [hunf]
    refine ⟨hk1.trans hk2, ?_⟩
    intro l hl1 hl2 x hx
    by_cases hl : l = lo
    · subst hl
      exact hk2 x (hk1 x (h0 x hx))
    · exact h2 l (by omega) (by omega) x hx

theorem propagate_full (G : Int → Prop) (mg : MultiGrid) (sh : SubsetHandler)
    (lo : Nat) (hi : Int) (hpar : mg.ParentsWithin lo hi)
    (h0 : ∀ x ∈ mg.elems lo, G (sh.subsetIndex x)) :
    Keeps G sh (propagate mg sh lo hi) ∧
    ∀ l, lo ≤ l → (l : Int) ≤ hi → ∀ x ∈ mg.elems l, G ((propagate mg sh lo hi).subsetIndex x) := by
  obtain ⟨hk, h⟩ := foldl_propagateLevel_full G mg (hi - lo).toNat lo sh
    (fun l hl1 hl2 => hpar l hl1 (by omega)) h0
  refine ⟨hk, ?_⟩
  intro l h1 h2 x hx
  exact h l h1 (by omega) x hx

/-! #### The split of a window -/

/-- The split of a window changes no element outside the window. -/
theorem splitWindow_frame (env : Env) (mg : MultiGrid) (hwf : mg.WF) (cl : Bool)
    (sh : SubsetHandler) (lo : Nat) (hi : Int) (n : Nat) {x : Elem}
    (hx : ∀ l, lo ≤ l → ((l : Int) ≤ hi ∨ l = lo) → x ∉ mg.elems l) :
    (splitWindow env mg cl sh lo hi n).subsetIndex x = sh.subsetIndex x := by
  unfold splitWindow
  have hxlo : x ∉ mg.elems lo := hx lo (le_refl _) (Or.inr rfl)
  have h1 : (applySplitter env mg sh lo n).subsetIndex x = sh.subsetIndex x :=
    applySplitter_frame env mg sh lo n hxlo
  have h2 : (if cl then clusterSiblings mg (applySplitter env mg sh lo n) lo
      else applySplitter env mg sh lo n).subsetIndex x = sh.subsetIndex x := by
    cases cl
    · simpa using h1
    · simp only [if_true]
      rw [clusterSiblings_frame, h1]
      intro hlo p hp hc
      have := hwf.child_level hp hc
      rw [Nat.sub_add_cancel hlo] at this
      exact hxlo this
  rw [propagate_frame, h2]
  intro l hl p hp hc
  have hl2 := mem_levelsBelow.mp hl
  have := hwf.child_level hp hc
  exact hx (l + 1) (by omega) (Or.inl (by push_cast; omega)) this


/-! ## One round of the loop over hierarchy levels -/

theorem processLevel_of_emptyWindow (env : Env) (mg : MultiGrid) (procH : ProcessHierarchy)
    (b t : Nat) (s : Partitioner_Bisection) (h : Nat)
    (hb : branch mg procH b t s.m_highestRedistLevel h = Branch.emptyWindow) :
    processLevel env mg procH b t s h = s := by
  unfold branch at hb
  unfold processLevel
  simp only at hb ⊢
  split_ifs at hb ⊢
  rfl

theorem processLevel_of_assignZero (env : Env) (mg : MultiGrid) (procH : ProcessHierarchy)
    (b t : Nat) (s : Partitioner_Bisection) (h : Nat)
    (hb : branch mg procH b t s.m_highestRedistLevel h = Branch.singleProc ∨
      branch mg procH b t s.m_highestRedistLevel h = Branch.alreadyRedist ∨
      branch mg procH b t s.m_highestRedistLevel h = Branch.belowThreshold) :
    processLevel env mg procH b t s h =
      { s with m_sh := assignLevels mg s.m_sh (levelsUpTo (minLvl procH b h) (maxLvl procH mg h)) } := by
  unfold branch at hb
  unfold processLevel
  simp only at hb ⊢
  split_ifs at hb ⊢ <;> first | rfl | simp at hb

theorem processLevel_of_split (env : Env) (mg : MultiGrid) (procH : ProcessHierarchy)
    (b t : Nat) (s : Partitioner_Bisection) (h : Nat)
    (hb : branch mg procH b t s.m_highestRedistLevel h = Branch.split) :
    processLevel env mg procH b t s h =
      { s with
        m_sh := splitWindow env mg s.m_clusteredSiblings s.m_sh (minLvl procH b h)
          (maxLvl procH mg h) (procH.cluster_procs h).length
        m_procMap := procH.cluster_procs h
        m_highestRedistLevel := h } := by
  unfold branch at hb
  unfold processLevel
  simp only at hb ⊢
  split_ifs at hb ⊢
  rfl

/-- What the decision `Branch.split` says about the guards. -/
theorem branch_split_iff (mg : MultiGrid) (procH : ProcessHierarchy) (b t : Nat) (r : Int)
    (h : Nat) :
    branch mg procH b t r h = Branch.split ↔
      ((minLvl procH b h : Int) ≤ maxLvl procH mg h ∧ 1 < (procH.cluster_procs h).length ∧
        r < (h : Int) ∧
        belowThreshold (mg.num (minLvl procH b h)) (procH.cluster_procs h).length t = false) := by
  unfold branch
  simp only
  split_ifs <;> simp_all

/-- The decision depends on the ratchet only through the test `hlevel <= ratchet`. -/
theorem branch_congr (mg : MultiGrid) (procH : ProcessHierarchy) (b t : Nat) (r r2 : Int)
    (h : Nat) (hr : (h : Int) ≤ r ↔ (h : Int) ≤ r2) :
    branch mg procH b t r h = branch mg procH b t r2 h := by
  unfold branch
  simp only [hr]

theorem processLevel_fields (env : Env) (mg : MultiGrid) (procH : ProcessHierarchy)
    (b t : Nat) (s : Partitioner_Bisection) (h : Nat) :
    (processLevel env mg procH b t s h).m_mg = s.m_mg ∧
    (processLevel env mg procH b t s h).m_processHierarchy = s.m_processHierarchy ∧
    (processLevel env mg procH b t s h).m_nextProcessHierarchy = s.m_nextProcessHierarchy ∧
    (processLevel env mg procH b t s h).m_clusteredSiblings = s.m_clusteredSiblings := by
  unfold processLevel
  simp only
  split_ifs <;> simp

/-- A round changes no element outside the window of its hierarchy level. -/
theorem processLevel_frame (env : Env) (mg : MultiGrid) (hwf : mg.WF) (procH : ProcessHierarchy)
    (b t : Nat) (s : Partitioner_Bisection) (h : Nat) {x : Elem}
    (hx : ∀ l, minLvl procH b h ≤ l → (l : Int) ≤ maxLvl procH mg h → x ∉ mg.elems l) :
    (processLevel env mg procH b t s h).m_sh.subsetIndex x = s.m_sh.subsetIndex x := by
  have hz : (assignLevels mg s.m_sh
      (levelsUpTo (minLvl procH b h) (maxLvl procH mg h))).subsetIndex x = s.m_sh.subsetIndex x :=
    assignLevels_not_mem mg s.m_sh _
      (fun l hl => hx l (mem_levelsUpTo.mp hl).1 (mem_levelsUpTo.mp hl).2)
  unfold processLevel
  simp only
  split_ifs with h1 h2 h3 h4
  · rfl
  · exact hz
  · exact hz
  · exact hz
  · refine splitWindow_frame env mg hwf _ _ _ _ _ ?_
    intro l hl1 hl2
    rcases hl2 with hl2 | hl2
    · exact hx l hl1 hl2
    · subst hl2
      exact hx _ hl1 (by omega)


/-! ## The loop over hierarchy levels -/

theorem loopUpTo_zero (env : Env) (mg : MultiGrid) (procH : ProcessHierarchy) (b t : Nat)
    (s : Partitioner_Bisection) : loopUpTo env mg procH b t s 0 = s := rfl

theorem loopUpTo_succ (env : Env) (mg : MultiGrid) (procH : ProcessHierarchy) (b t : Nat)
    (s : Partitioner_Bisection) (k : Nat) :
    loopUpTo env mg procH b t s (k + 1) =
      processLevel env mg procH b t (loopUpTo env mg procH b t s k) k := by
  simp [loopUpTo, List.range_succ, List.foldl_append]

theorem loopUpTo_fields (env : Env) (mg : MultiGrid) (procH : ProcessHierarchy) (b t : Nat)
    (s : Partitioner_Bisection) (k : Nat) :
    (loopUpTo env mg procH b t s k).m_mg = s.m_mg ∧
    (loopUpTo env mg procH b t s k).m_processHierarchy = s.m_processHierarchy ∧
    (loopUpTo env mg procH b t s k).m_nextProcessHierarchy = s.m_nextProcessHierarchy ∧
    (loopUpTo env mg procH b t s k).m_clusteredSiblings = s.m_clusteredSiblings := by
  induction k with
  | zero => simp [loopUpTo_zero]
  | succ k ih =>
    rw [loopUpTo_succ]
    obtain ⟨h1, h2, h3, h4⟩ := processLevel_fields env mg procH b t (loopUpTo env mg procH b t s k) k
    obtain ⟨i1, i2, i3, i4⟩ := ih
    exact ⟨h1.trans i1, h2.trans i2, h3.trans i3, h4.trans i4⟩

/-- Within the loop the ratchet is its initial value or the index of a level
already visited, and never below its initial value. -/
theorem loopUpTo_redist (env : Env) (mg : MultiGrid) (procH : ProcessHierarchy) (b t : Nat)
    (s : Partitioner_Bisection) (k : Nat) :
    s.m_highestRedistLevel ≤ (loopUpTo env mg procH b t s k).m_highestRedistLevel ∧
    ((loopUpTo env mg procH b t s k).m_highestRedistLevel = s.m_highestRedistLevel ∨
      (loopUpTo env mg procH b t s k).m_highestRedistLevel < (k : Int)) := by
  induction k with
  | zero => simp [loopUpTo_zero]
  | succ k ih =>
    rw [loopUpTo_succ]
    obtain ⟨ih1, ih2⟩ := ih
    generalize loopUpTo env mg procH b t s k = sk at ih1 ih2
    have hkeep : s.m_highestRedistLevel ≤ sk.m_highestRedistLevel ∧
        (sk.m_highestRedistLevel = s.m_highestRedistLevel ∨
          sk.m_highestRedistLevel < ((k + 1 : Nat) : Int)) := by
      refine ⟨ih1, ?_⟩
      rcases ih2 with h | h
      · exact Or.inl h
      · right; push_cast; omega
    cases hcase : branch mg procH b t sk.m_highestRedistLevel k with
    | split =>
      rw [processLevel_of_split env mg procH b t sk k hcase]
      have hlt := ((branch_split_iff mg procH b t _ k).mp hcase).2.2.1
      simp only
      constructor
      · omega
      · right; push_cast; omega
    | emptyWindow =>
      rw [processLevel_of_emptyWindow env mg procH b t sk k hcase]
      exact hkeep
    | singleProc =>
      rw [processLevel_of_assignZero env mg procH b t sk k (Or.inl hcase)]
      exact hkeep
    | alreadyRedist =>
      rw [processLevel_of_assignZero env mg procH b t sk k (Or.inr (Or.inl hcase))]
      exact hkeep
    | belowThreshold =>
      rw [processLevel_of_assignZero env mg procH b t sk k (Or.inr (Or.inr hcase))]
      exact hkeep

/-- In every round the decision is the one computed from the ratchet value
that the loop started with. -/
theorem branch_loopUpTo (env : Env) (mg : MultiGrid) (procH : ProcessHierarchy) (b t : Nat)
    (s : Partitioner_Bisection) (k : Nat) :
    branch mg procH b t (loopUpTo env mg procH b t s k).m_highestRedistLevel k =
      branch mg procH b t s.m_highestRedistLevel k := by
  apply branch_congr
  obtain ⟨h1, h2⟩ := loopUpTo_redist env mg procH b t s k
  rcases h2 with h | h
  · rw [h]
  · constructor <;> intro hh <;> omega

theorem lastSplit_eq_some (mg : MultiGrid) (procH : ProcessHierarchy) (b t : Nat) (r : Int)
    (k h : Nat) :
    lastSplit mg procH b t r k = some h ↔
      (h < k ∧ branch mg procH b t r h = Branch.split ∧
        ∀ h2, h < h2 → h2 < k → branch mg procH b t r h2 ≠ Branch.split) := by
  induction k with
  | zero => simp [lastSplit]
  | succ k ih =>
    unfold lastSplit
    split_ifs with hk
    · constructor
      · intro heq
        have : k = h := Option.some.inj heq
        subst this
        exact ⟨Nat.lt_succ_self _, hk, fun h2 h3 h4 => by omega⟩
      · rintro ⟨h1, _, h3⟩
        by_cases hkh : h = k
        · rw [hkh]
        · exact absurd hk (h3 k (by omega) (Nat.lt_succ_self _))
    · rw [ih]
      constructor
      · rintro ⟨h1, h2, h3⟩
        refine ⟨by omega, h2, fun h2 h4 h5 => ?_⟩
        by_cases hkh : h2 = k
        · rw [hkh]; exact hk
        · exact h3 h2 h4 (by omega)
      · rintro ⟨h1, h2, h3⟩
        have hne : h ≠ k := fun hh => hk (hh ▸ h2)
        exact ⟨by omega, h2, fun h2 h4 h5 => h3 h2 h4 (by omega)⟩

theorem lastSplit_eq_none (mg : MultiGrid) (procH : ProcessHierarchy) (b t : Nat) (r : Int)
    (k : Nat) :
    lastSplit mg procH b t r k = none ↔
      ∀ h, h < k → branch mg procH b t r h ≠ Branch.split := by
  induction k with
  | zero => simp [lastSplit]
  | succ k ih =>
    unfold lastSplit
    split_ifs with hk
    · simp only [false_iff]
      intro hall
      exact hall k (Nat.lt_succ_self _) hk
    · rw [ih]
      constructor
      · intro hall h hh
        by_cases hkh : h = k
        · rw [hkh]; exact hk
        · exact hall h (by omega)
      · intro hall h hh
        exact hall h (by omega)

/-- Process map and ratchet during the loop, started with an empty map:
they are those of the last level split so far. -/
theorem loopUpTo_procMap_redist (env : Env) (mg : MultiGrid) (procH : ProcessHierarchy)
    (b t : Nat) (s : Partitioner_Bisection) (hs : s.m_procMap = []) (k : Nat) :
    (loopUpTo env mg procH b t s k).m_procMap =
        (match lastSplit mg procH b t s.m_highestRedistLevel k with
          | some h => procH.cluster_procs h
          | none => []) ∧
    (loopUpTo env mg procH b t s k).m_highestRedistLevel =
        (match lastSplit mg procH b t s.m_highestRedistLevel k with
          | some h => (h : Int)
          | none => s.m_highestRedistLevel) := by
  induction k with
  | zero => simp [loopUpTo_zero, lastSplit, hs]
  | succ k ih =>
    rw [loopUpTo_succ]
    have hbr := branch_loopUpTo env mg procH b t s k
    unfold lastSplit
    split_ifs with hk
    · rw [← hbr] at hk
      rw [processLevel_of_split env mg procH b t _ k hk]
      simp
    · rw [← hbr] at hk
      cases hcase : branch mg procH b t (loopUpTo env mg procH b t s k).m_highestRedistLevel k with
      | split => exact absurd hcase hk
      | emptyWindow =>
        rw [processLevel_of_emptyWindow env mg procH b t _ k hcase]
        exact ih
      | singleProc =>
        rw [processLevel_of_assignZero env mg procH b t _ k (Or.inl hcase)]
        exact ih
      | alreadyRedist =>
        rw [processLevel_of_assignZero env mg procH b t _ k (Or.inr (Or.inl hcase))]
        exact ih
      | belowThreshold =>
        rw [processLevel_of_assignZero env mg procH b t _ k (Or.inr (Or.inr hcase))]
        exact ih


/-! ## Windows of the hierarchy levels -/

theorem intCast_le (x : Nat) : intCast x ≤ (x : Int) := by
  unfold intCast
  have := Nat.mod_le x 4294967296
  split_ifs <;> omega

theorem intCast_of_lt (x : Nat) (hx : x < 2147483648) : intCast x = (x : Int) := by
  unfold intCast
  have h1 : x % 4294967296 = x := Nat.mod_eq_of_lt (by omega)
  rw [h1, if_pos hx]

theorem base_le_minLvl (procH : ProcessHierarchy) (b h : Nat) :
    intCast b ≤ (minLvl procH b h : Int) := by
  unfold minLvl
  split_ifs <;> omega

theorem grid_base_le_minLvl (procH : ProcessHierarchy) (b h : Nat) :
    procH.grid_base_level h ≤ minLvl procH b h := by
  unfold minLvl
  split_ifs <;> omega

theorem maxLvl_le_top (procH : ProcessHierarchy) (mg : MultiGrid) (h : Nat) :
    maxLvl procH mg h ≤ (mg.top_level : Int) := by
  unfold maxLvl
  split_ifs
  · exact min_le_left _ _
  · exact le_refl _

theorem maxLvl_lt_next (procH : ProcessHierarchy) (mg : MultiGrid) (h : Nat)
    (hn : h + 1 < procH.num_hierarchy_levels) :
    maxLvl procH mg h < (procH.grid_base_level (h + 1) : Int) := by
  unfold maxLvl
  rw [if_pos hn]
  have := min_le_right (mg.top_level : Int) ((procH.grid_base_level (h + 1) : Int) - 1)
  omega

theorem ProcessHierarchy.Monotone.chain {procH : ProcessHierarchy} (hm : procH.Monotone)
    (i j : Nat) (hij : i ≤ j) (hj : j < procH.num_hierarchy_levels) :
    procH.grid_base_level i ≤ procH.grid_base_level j := by
  induction j with
  | zero =>
    have : i = 0 := by omega
    rw [this]
  | succ j ih =>
    by_cases hi : i = j + 1
    · rw [hi]
    · exact le_trans (ih (by omega) (by omega)) (hm j (by omega) hj)

/-- Under a monotone topology the window of a hierarchy level ends before
the window of every later level starts. -/
theorem window_before (procH : ProcessHierarchy) (hm : procH.Monotone) (mg : MultiGrid)
    (b h k : Nat) (hhk : h < k) (hk : k < procH.num_hierarchy_levels) :
    maxLvl procH mg h < (minLvl procH b k : Int) := by
  have h1 := maxLvl_lt_next procH mg h (by omega)
  have h2 := hm.chain (h + 1) k (by omega) hk
  have h3 := grid_base_le_minLvl procH b k
  omega

theorem minLvl_mono (procH : ProcessHierarchy) (hm : procH.Monotone) (b h k : Nat) (hhk : h ≤ k)
    (hk : k < procH.num_hierarchy_levels) : minLvl procH b h ≤ minLvl procH b k := by
  have h2 := hm.chain h k hhk hk
  unfold minLvl
  split_ifs <;> omega

/-- Every mesh level from `max(baseLvl, grid_base_level(0))` up to the top
level lies in the window of some hierarchy level. -/
theorem window_cover (procH : ProcessHierarchy) (mg : MultiGrid) (b l : Nat)
    (hl : (l : Int) ≤ (mg.top_level : Int)) (hb : intCast b ≤ (l : Int)) (m : Nat) :
    ∀ k, k < procH.num_hierarchy_levels → procH.num_hierarchy_levels - k ≤ m →
      procH.grid_base_level k ≤ l →
      ∃ h, h < procH.num_hierarchy_levels ∧ minLvl procH b h ≤ l ∧ (l : Int) ≤ maxLvl procH mg h := by
  induction m with
  | zero => intro k hk hm; omega
  | succ m ih =>
    intro k hk hm hg
    by_cases hnext : k + 1 < procH.num_hierarchy_levels ∧ procH.grid_base_level (k + 1) ≤ l
    · exact ih (k + 1) hnext.1 (by omega) hnext.2
    · refine ⟨k, hk, ?_, ?_⟩
      · unfold minLvl
        split_ifs <;> omega
      · unfold maxLvl
        split_ifs with hn
        · have : ¬ procH.grid_base_level (k + 1) ≤ l := fun h => hnext ⟨hn, h⟩
          rw [le_min_iff]
          constructor
          · exact hl
          · omega
        · exact hl

theorem mem_elems_le_top {mg : MultiGrid} {l : Nat} {x : Elem} (hx : x ∈ mg.elems l) :
    (l : Int) ≤ (mg.top_level : Int) := by
  have := MultiGrid.lt_length_of_mem hx
  unfold MultiGrid.top_level
  omega

/-! ## Elements during the loop -/

/-- Elements outside all windows visited so far keep their index. -/
theorem loopUpTo_frame (env : Env) (mg : MultiGrid) (hwf : mg.WF) (procH : ProcessHierarchy)
    (b t : Nat) (s : Partitioner_Bisection) (k : Nat) {x : Elem}
    (hx : ∀ h, h < k → ∀ l, minLvl procH b h ≤ l → (l : Int) ≤ maxLvl procH mg h →
      x ∉ mg.elems l) :
    (loopUpTo env mg procH b t s k).m_sh.subsetIndex x = s.m_sh.subsetIndex x := by
  induction k with
  | zero => rfl
  | succ k ih =>
    rw [loopUpTo_succ, processLevel_frame env mg hwf procH b t _ k (hx k (Nat.lt_succ_self _))]
    exact ih (fun h hh => hx h (by omega))

/-- Rounds after round `h` do not touch the window of hierarchy level `h`. -/
theorem loopUpTo_window_final (env : Env) (mg : MultiGrid) (hwf : mg.WF)
    (procH : ProcessHierarchy) (hm : procH.Monotone) (b t : Nat) (s : Partitioner_Bisection)
    (h k : Nat) (hhk : h < k) (hk : k ≤ procH.num_hierarchy_levels) {l : Nat} {x : Elem}
    (hx : x ∈ mg.elems l) (hl2 : (l : Int) ≤ maxLvl procH mg h) :
    (loopUpTo env mg procH b t s k).m_sh.subsetIndex x =
      (loopUpTo env mg procH b t s (h + 1)).m_sh.subsetIndex x := by
  induction k with
  | zero => omega
  | succ k ih =>
    by_cases hkh : k = h
    · rw [hkh]
    · rw [loopUpTo_succ, processLevel_frame env mg hwf procH b t _ k]
      · exact ih (by omega) (by omega)
      · intro l2 h1 h2 hmem
        have := hwf.level_unique hx hmem
        subst this
        have := window_before procH hm mg b h k (by omega) (by omega)
        omega

/-- Levels at or above the window of the next hierarchy level are untouched. -/
theorem loopUpTo_above (env : Env) (mg : MultiGrid) (hwf : mg.WF)
    (procH : ProcessHierarchy) (hm : procH.Monotone) (b t : Nat) (s : Partitioner_Bisection)
    (k : Nat) (hk : k < procH.num_hierarchy_levels) {l : Nat} {x : Elem}
    (hx : x ∈ mg.elems l) (hl : minLvl procH b k ≤ l) :
    (loopUpTo env mg procH b t s k).m_sh.subsetIndex x = s.m_sh.subsetIndex x := by
  apply loopUpTo_frame env mg hwf
  intro h hh l2 h1 h2 hmem
  have := hwf.level_unique hx hmem
  subst this
  have := window_before procH hm mg b h k hh hk
  omega

/-- State of the subset handler when the loop over hierarchy levels starts
(lines 161-165). -/
theorem init_below (mg : MultiGrid) (b : Nat) {l : Nat} {x : Elem} (hx : x ∈ mg.elems l)
    (hl : (l : Int) < intCast b) :
    (assignLevels mg SubsetHandler.clear (firstLevels b)).subsetIndex x = 0 :=
  assignLevels_mem mg _ _ (mem_levelsBelow.mpr ⟨Nat.zero_le l, hl⟩) hx

theorem init_above (mg : MultiGrid) (hwf : mg.WF) (b : Nat) {l : Nat} {x : Elem}
    (hx : x ∈ mg.elems l) (hl : intCast b ≤ (l : Int)) :
    (assignLevels mg SubsetHandler.clear (firstLevels b)).subsetIndex x = -1 := by
  rw [assignLevels_not_mem]
  · rfl
  · intro l2 hl2 hmem
    have := hwf.level_unique hx hmem
    have := (mem_levelsBelow.mp hl2).2
    omega


/-! ## Number of subsets, and the result of partition -/

theorem assign_zero_numSubsets (sh : SubsetHandler) (e : Elem) (h : sh.numSubsets ≤ 1) :
    (sh.assign_subset e 0).numSubsets = 1 := by
  simp only [SubsetHandler.assign_subset, le_refl, if_true, Int.toNat_zero, zero_add]
  omega

theorem assignLevels_numSubsets (mg : MultiGrid) (sh : SubsetHandler) (lvls : List Nat)
    (h : sh.numSubsets ≤ 1) : (assignLevels mg sh lvls).numSubsets ≤ 1 := by
  refine foldl_invariant (fun (b : SubsetHandler) => b.numSubsets ≤ 1) _ lvls ?_ sh h
  intro b l _ hb
  refine foldl_invariant (fun (c : SubsetHandler) => c.numSubsets ≤ 1) _ (mg.elems l) ?_ b hb
  intro c e _ hc
  exact le_of_eq (assign_zero_numSubsets c e hc)

theorem loopUpTo_numSubsets (env : Env) (mg : MultiGrid) (procH : ProcessHierarchy) (b t : Nat)
    (s : Partitioner_Bisection) (hs : s.m_sh.numSubsets ≤ 1) (k : Nat)
    (hnone : lastSplit mg procH b t s.m_highestRedistLevel k = none) :
    (loopUpTo env mg procH b t s k).m_sh.numSubsets ≤ 1 := by
  induction k with
  | zero => exact hs
  | succ k ih =>
    rw [lastSplit_eq_none] at hnone
    have ih2 := ih ((lastSplit_eq_none mg procH b t _ k).mpr (fun h hh => hnone h (by omega)))
    have hk := hnone k (Nat.lt_succ_self _)
    rw [← branch_loopUpTo env mg procH b t s k] at hk
    rw [loopUpTo_succ]
    cases hcase : branch mg procH b t (loopUpTo env mg procH b t s k).m_highestRedistLevel k with
    | split => exact absurd hcase hk
    | emptyWindow =>
      rw [processLevel_of_emptyWindow env mg procH b t _ k hcase]
      exact ih2
    | singleProc =>
      rw [processLevel_of_assignZero env mg procH b t _ k (Or.inl hcase)]
      exact assignLevels_numSubsets mg _ _ ih2
    | alreadyRedist =>
      rw [processLevel_of_assignZero env mg procH b t _ k (Or.inr (Or.inl hcase))]
      exact assignLevels_numSubsets mg _ _ ih2
    | belowThreshold =>
      rw [processLevel_of_assignZero env mg procH b t _ k (Or.inr (Or.inr hcase))]
      exact assignLevels_numSubsets mg _ _ ih2

theorem partitionLoop_eq (env : Env) (mg : MultiGrid) (s : Partitioner_Bisection) (b t : Nat) :
    partitionLoop env mg s b t =
      loopUpTo env mg (activeHierarchy s) b t
        { s with m_sh := assignLevels mg SubsetHandler.clear (firstLevels b), m_procMap := [] }
        (activeHierarchy s).num_hierarchy_levels := rfl

theorem partitionLoop_procMap_redist (env : Env) (mg : MultiGrid) (s : Partitioner_Bisection)
    (b t : Nat) :
    (partitionLoop env mg s b t).m_procMap =
        (match lastSplit mg (activeHierarchy s) b t s.m_highestRedistLevel
            (activeHierarchy s).num_hierarchy_levels with
          | some h => (activeHierarchy s).cluster_procs h
          | none => []) ∧
    (partitionLoop env mg s b t).m_highestRedistLevel =
        (match lastSplit mg (activeHierarchy s) b t s.m_highestRedistLevel
            (activeHierarchy s).num_hierarchy_levels with
          | some h => (h : Int)
          | none => s.m_highestRedistLevel) := by
  rw [partitionLoop_eq]
  exact loopUpTo_procMap_redist env mg (activeHierarchy s) b t
    { s with m_sh := assignLevels mg SubsetHandler.clear (firstLevels b), m_procMap := [] } rfl _

/-- The fallback never throws on the state the loop leaves behind. -/
theorem fallbackProcMap_partitionLoop (env : Env) (mg : MultiGrid) (s : Partitioner_Bisection)
    (b t : Nat) :
    fallbackProcMap env (partitionLoop env mg s b t) =
      Except.ok { partitionLoop env mg s b t with m_procMap := resultProcMap env mg s b t } := by
  obtain ⟨hpm, -⟩ := partitionLoop_procMap_redist env mg s b t
  unfold resultProcMap
  cases hls : lastSplit mg (activeHierarchy s) b t s.m_highestRedistLevel
      (activeHierarchy s).num_hierarchy_levels with
  | some h =>
    rw [hls] at hpm
    simp only at hpm ⊢
    have hsplit := ((lastSplit_eq_some mg _ b t _ _ h).mp hls).2.1
    have hlen := ((branch_split_iff mg _ b t _ h).mp hsplit).2.1
    have hne : (partitionLoop env mg s b t).m_procMap.isEmpty = false := by
      rw [hpm]
      cases hc : (activeHierarchy s).cluster_procs h with
      | nil => rw [hc] at hlen; simp at hlen
      | cons a l => rfl
    unfold fallbackProcMap
    rw [hne, ← hpm]
    simp
  | none =>
    rw [hls] at hpm
    simp only at hpm ⊢
    have hnum : (partitionLoop env mg s b t).m_sh.numSubsets ≤ 1 := by
      rw [partitionLoop_eq]
      exact loopUpTo_numSubsets env mg _ b t _
        (assignLevels_numSubsets mg _ _ (Nat.zero_le 1)) _ hls
    unfold fallbackProcMap SubsetHandler.num_subsets
    rw [hpm]
    by_cases h0 : (partitionLoop env mg s b t).m_sh.numSubsets = 0
    · simp [h0, ← hpm]
    · have h1 : (partitionLoop env mg s b t).m_sh.numSubsets = 1 := by omega
      simp [h1]

theorem partition_eq (env : Env) (mg : MultiGrid) (s : Partitioner_Bisection) (b t : Nat)
    (hmg : s.m_mg = some mg) :
    partition env s b t =
      Except.ok (syncAndCommit env
        { partitionLoop env mg s b t with m_procMap := resultProcMap env mg s b t }) := by
  unfold partition
  rw [hmg]
  simp only
  rw [fallbackProcMap_partitionLoop]

theorem syncAndCommit_fields (env : Env) (s : Partitioner_Bisection) :
    (syncAndCommit env s).m_sh = s.m_sh ∧ (syncAndCommit env s).m_procMap = s.m_procMap ∧
    (syncAndCommit env s).m_highestRedistLevel =
      allreduceMax s.m_highestRedistLevel env.peerRedistLevels ∧
    (syncAndCommit env s).m_mg = s.m_mg ∧
    (syncAndCommit env s).m_clusteredSiblings = s.m_clusteredSiblings := by
  unfold syncAndCommit
  cases s.m_nextProcessHierarchy <;> simp

theorem le_allreduceMax (v : Int) (peers : List Int) : v ≤ allreduceMax v peers := by
  unfold allreduceMax
  induction peers generalizing v with
  | nil => simp
  | cons a l ih =>
    simp only [List.foldl_cons]
    exact le_trans (le_max_left v a) (ih (max v a))


/-! ## What the split of a window establishes -/

/-- After splitter and sibling clustering the elements of the split level
carry indices with property `G`, if the splitter hands out such indices. -/
theorem preSplit_keeps (G : Int → Prop) (env : Env) (mg : MultiGrid) (hwf : mg.WF) (cl : Bool)
    (sh : SubsetHandler) (lo n : Nat)
    (hsp : ∀ e ∈ mg.elems lo, G (env.splitter (mg.elems lo) n e)) :
    Keeps G sh (if cl then clusterSiblings mg (applySplitter env mg sh lo n) lo
      else applySplitter env mg sh lo n) ∧
    ∀ x ∈ mg.elems lo, G ((if cl then clusterSiblings mg (applySplitter env mg sh lo n) lo
      else applySplitter env mg sh lo n).subsetIndex x) := by
  have hk1 := applySplitter_keeps G env mg sh lo n hsp
  have hm1 : ∀ x ∈ mg.elems lo, G ((applySplitter env mg sh lo n).subsetIndex x) :=
    fun x hx => applySplitter_mem G env mg sh lo n hsp hx
  cases cl
  · exact ⟨by simpa using hk1, by simpa using hm1⟩
  · simp only [if_true]
    have hk2 : Keeps G (applySplitter env mg sh lo n)
        (clusterSiblings mg (applySplitter env mg sh lo n) lo) := by
      apply clusterSiblings_keeps
      intro hpos p hp c hc
      have := hwf.child_level hp hc
      rw [Nat.sub_add_cancel hpos] at this
      exact hm1 c this
    exact ⟨hk1.trans hk2, fun x hx => hk2 x (hm1 x hx)⟩

/-- The split of a window keeps `G` when the splitter hands out indices with
`G` and the indices found on the inner levels of the window have `G`. -/
theorem splitWindow_keeps (G : Int → Prop) (env : Env) (mg : MultiGrid) (hwf : mg.WF) (cl : Bool)
    (sh : SubsetHandler) (lo : Nat) (hi : Int) (n : Nat)
    (hsp : ∀ e ∈ mg.elems lo, G (env.splitter (mg.elems lo) n e))
    (hsrc : ∀ l, lo < l → (l : Int) < hi → ∀ p ∈ mg.elems l, G (sh.subsetIndex p)) :
    Keeps G sh (splitWindow env mg cl sh lo hi n) ∧
    ∀ x ∈ mg.elems lo, G ((splitWindow env mg cl sh lo hi n).subsetIndex x) := by
  obtain ⟨hk, hm⟩ := preSplit_keeps G env mg hwf cl sh lo n hsp
  unfold splitWindow
  simp only
  have hk3 : Keeps G (if cl then clusterSiblings mg (applySplitter env mg sh lo n) lo
      else applySplitter env mg sh lo n) (propagate mg (if cl then
        clusterSiblings mg (applySplitter env mg sh lo n) lo
      else applySplitter env mg sh lo n) lo hi) := by
    apply propagate_keeps
    intro l hl p hp
    have hl2 := mem_levelsBelow.mp hl
    by_cases hlo : l = lo
    · subst hlo; exact hm p hp
    · exact hk p (hsrc l (by omega) hl2.2 p hp)
  exact ⟨hk.trans hk3, fun x hx => hk3 x (hm x hx)⟩

/-- When the elements above the first level of a window have parents, the
split of the window gives indices with `G` to all elements of the window. -/
theorem splitWindow_full (G : Int → Prop) (env : Env) (mg : MultiGrid) (hwf : mg.WF)
    (cl : Bool) (sh : SubsetHandler) (lo : Nat) (hi : Int) (n : Nat)
    (hpar : mg.ParentsWithin lo hi)
    (hsp : ∀ e ∈ mg.elems lo, G (env.splitter (mg.elems lo) n e)) :
    Keeps G sh (splitWindow env mg cl sh lo hi n) ∧
    ∀ l, lo ≤ l → (l : Int) ≤ hi → ∀ x ∈ mg.elems l,
      G ((splitWindow env mg cl sh lo hi n).subsetIndex x) := by
  obtain ⟨hk, hm⟩ := preSplit_keeps G env mg hwf cl sh lo n hsp
  unfold splitWindow
  simp only
  obtain ⟨hk3, hm3⟩ := propagate_full G mg _ lo hi hpar hm
  exact ⟨hk.trans hk3, hm3⟩

/-! ## Rounds that assign subset 0 -/

theorem zeroOnly_clear : ZeroOnly SubsetHandler.clear :=
  ⟨Nat.zero_le 1, fun _ => Or.inl rfl⟩

theorem zeroOnly_assign (sh : SubsetHandler) (e : Elem) (h : ZeroOnly sh) :
    ZeroOnly (sh.assign_subset e 0) := by
  have hn := assign_zero_numSubsets sh e h.1
  refine ⟨le_of_eq hn, fun x => ?_⟩
  rcases sh.assign_subset_cases e x 0 with hx | hx
  · exact Or.inr ⟨hx, hn⟩
  · rw [hx]
    rcases h.2 x with h1 | h1
    · exact Or.inl h1
    · exact Or.inr ⟨h1.1, hn⟩

theorem zeroOnly_assignLevels (mg : MultiGrid) (sh : SubsetHandler) (lvls : List Nat)
    (h : ZeroOnly sh) : ZeroOnly (assignLevels mg sh lvls) := by
  refine foldl_invariant ZeroOnly _ lvls ?_ sh h
  intro b l _ hb
  exact foldl_invariant ZeroOnly _ (mg.elems l) (fun c e _ hc => zeroOnly_assign c e hc) b hb

theorem loopUpTo_zeroOnly (env : Env) (mg : MultiGrid) (procH : ProcessHierarchy) (b t : Nat)
    (s : Partitioner_Bisection) (hs : ZeroOnly s.m_sh) (k : Nat)
    (hnone : ∀ h, h < k → branch mg procH b t s.m_highestRedistLevel h ≠ Branch.split) :
    ZeroOnly (loopUpTo env mg procH b t s k).m_sh := by
  induction k with
  | zero => exact hs
  | succ k ih =>
    have ih2 := ih (fun h hh => hnone h (by omega))
    have hk := hnone k (Nat.lt_succ_self _)
    rw [← branch_loopUpTo env mg procH b t s k] at hk
    rw [loopUpTo_succ]
    cases hcase : branch mg procH b t (loopUpTo env mg procH b t s k).m_highestRedistLevel k with
    | split => exact absurd hcase hk
    | emptyWindow =>
      rw [processLevel_of_emptyWindow env mg procH b t _ k hcase]
      exact ih2
    | singleProc =>
      rw [processLevel_of_assignZero env mg procH b t _ k (Or.inl hcase)]
      exact zeroOnly_assignLevels mg _ _ ih2
    | alreadyRedist =>
      rw [processLevel_of_assignZero env mg procH b t _ k (Or.inr (Or.inl hcase))]
      exact zeroOnly_assignLevels mg _ _ ih2
    | belowThreshold =>
      rw [processLevel_of_assignZero env mg procH b t _ k (Or.inr (Or.inr hcase))]
      exact zeroOnly_assignLevels mg _ _ ih2

/-! ## Every round keeps assigned elements assigned -/

/-- A round keeps property `G` of all indices and gives it to the elements
of its window, when in a window that is split the elements above the first
level have parents. -/
theorem processLevel_full (G : Int → Prop) (hG0 : G 0) (env : Env) (mg : MultiGrid)
    (hwf : mg.WF) (procH : ProcessHierarchy) (b t : Nat)
    (s : Partitioner_Bisection) (h : Nat)
    (hpar : branch mg procH b t s.m_highestRedistLevel h = Branch.split →
      mg.ParentsWithin (minLvl procH b h) (maxLvl procH mg h))
    (hsp : ∀ (es : List Elem) (n : Nat) (e : Elem), e ∈ es → 1 < n → G (env.splitter es n e)) :
    Keeps G s.m_sh (processLevel env mg procH b t s h).m_sh ∧
    ∀ l, minLvl procH b h ≤ l → (l : Int) ≤ maxLvl procH mg h → ∀ x ∈ mg.elems l,
      G ((processLevel env mg procH b t s h).m_sh.subsetIndex x) := by
  have hz : Keeps G s.m_sh (assignLevels mg s.m_sh
      (levelsUpTo (minLvl procH b h) (maxLvl procH mg h))) :=
    fun y hy => assignLevels_keeps G hG0 mg _ _ y hy
  have hz2 : ∀ l, minLvl procH b h ≤ l → (l : Int) ≤ maxLvl procH mg h → ∀ x ∈ mg.elems l,
      G ((assignLevels mg s.m_sh
        (levelsUpTo (minLvl procH b h) (maxLvl procH mg h))).subsetIndex x) := by
    intro l h1 h2 x hx
    rw [assignLevels_mem mg _ _ (mem_levelsUpTo.mpr ⟨h1, h2⟩) hx]
    exact hG0
  cases hcase : branch mg procH b t s.m_highestRedistLevel h with
  | split =>
    rw [processLevel_of_split env mg procH b t s h hcase]
    have hlen := ((branch_split_iff mg procH b t _ h).mp hcase).2.1
    exact splitWindow_full G env mg hwf _ _ _ _ _ (hpar hcase) (fun e he => hsp _ _ e he hlen)
  | emptyWindow =>
    rw [processLevel_of_emptyWindow env mg procH b t s h hcase]
    refine ⟨Keeps.refl G _, ?_⟩
    intro l h1 h2 x _
    unfold branch at hcase
    simp only at hcase
    split_ifs at hcase
    omega
  | singleProc =>
    rw [processLevel_of_assignZero env mg procH b t s h (Or.inl hcase)]
    exact ⟨hz, hz2⟩
  | alreadyRedist =>
    rw [processLevel_of_assignZero env mg procH b t s h (Or.inr (Or.inl hcase))]
    exact ⟨hz, hz2⟩
  | belowThreshold =>
    rw [processLevel_of_assignZero env mg procH b t s h (Or.inr (Or.inr hcase))]
    exact ⟨hz, hz2⟩

theorem loopUpTo_full (G : Int → Prop) (hG0 : G 0) (env : Env) (mg : MultiGrid)
    (hwf : mg.WF) (procH : ProcessHierarchy) (b t : Nat)
    (s : Partitioner_Bisection)
    (hsp : ∀ (es : List Elem) (n : Nat) (e : Elem), e ∈ es → 1 < n → G (env.splitter es n e))
    (k : Nat)
    (hpar : ∀ h, h < k → branch mg procH b t s.m_highestRedistLevel h = Branch.split →
      mg.ParentsWithin (minLvl procH b h) (maxLvl procH mg h)) :
    Keeps G s.m_sh (loopUpTo env mg procH b t s k).m_sh ∧
    ∀ h, h < k → ∀ l, minLvl procH b h ≤ l → (l : Int) ≤ maxLvl procH mg h → ∀ x ∈ mg.elems l,
      G ((loopUpTo env mg procH b t s k).m_sh.subsetIndex x) := by
  induction k with
  | zero => exact ⟨Keeps.refl G _, fun h hh => by omega⟩
  | succ k ih =>
    obtain ⟨ih1, ih2⟩ := ih (fun h hh => hpar h (by omega))
    rw [loopUpTo_succ]
    obtain ⟨h1, h2⟩ := processLevel_full G hG0 env mg hwf procH b t
      (loopUpTo env mg procH b t s k) k
      (fun hb => hpar k (Nat.lt_succ_self _) (by rw [← branch_loopUpTo env mg procH b t s k]; exact hb))
      hsp
    refine ⟨ih1.trans h1, ?_⟩
    intro h hh l hl1 hl2 x hx
    by_cases hkh : h = k
    · subst hkh
      exact h2 l hl1 hl2 x hx
    · exact h1 x (ih2 h (by omega) l hl1 hl2 x hx)

/-! ## The state partition returns -/

/-- With a mesh bound, `partition` returns, and this is the state it returns. -/
theorem partition_result (env : Env) (mg : MultiGrid) (s : Partitioner_Bisection) (b t : Nat)
    (hmg : s.m_mg = some mg) :
    ∃ s2, partition env s b t = Except.ok s2 ∧
      s2.m_sh = (partitionLoop env mg s b t).m_sh ∧
      s2.m_procMap = resultProcMap env mg s b t ∧
      s2.m_highestRedistLevel =
        allreduceMax (partitionLoop env mg s b t).m_highestRedistLevel env.peerRedistLevels ∧
      s2.m_mg = some mg ∧
      activeHierarchy s2 = activeHierarchy s ∧
      s2.m_nextProcessHierarchy = none ∧
      s2.m_clusteredSiblings = s.m_clusteredSiblings := by
  refine ⟨_, partition_eq env mg s b t hmg, ?_⟩
  obtain ⟨f1, f2, f3, f4⟩ := loopUpTo_fields env mg (activeHierarchy s) b t
    { s with m_sh := assignLevels mg SubsetHandler.clear (firstLevels b), m_procMap := [] }
    (activeHierarchy s).num_hierarchy_levels
  rw [← partitionLoop_eq] at f1 f2 f3 f4
  simp only at f1 f2 f3 f4
  unfold syncAndCommit activeHierarchy
  simp only
  rw [f3]
  cases hn : s.m_nextProcessHierarchy with
  | none => simp [f1, f2, f4, hmg, hn]
  | some p => simp [f1, f4, hmg]

/-- The loop leaves the ratchet at or above the index of every level it split. -/
theorem partitionLoop_redist_ge (env : Env) (mg : MultiGrid) (s : Partitioner_Bisection)
    (b t h : Nat) (hh : h < (activeHierarchy s).num_hierarchy_levels)
    (hsplit : branch mg (activeHierarchy s) b t s.m_highestRedistLevel h = Branch.split) :
    (h : Int) ≤ (partitionLoop env mg s b t).m_highestRedistLevel := by
  obtain ⟨-, hr⟩ := partitionLoop_procMap_redist env mg s b t
  cases hls : lastSplit mg (activeHierarchy s) b t s.m_highestRedistLevel
      (activeHierarchy s).num_hierarchy_levels with
  | none =>
    exact absurd hsplit ((lastSplit_eq_none mg _ b t _ _).mp hls h hh)
  | some h2 =>
    rw [hls] at hr
    simp only at hr
    rw [hr]
    obtain ⟨-, -, h3⟩ := (lastSplit_eq_some mg _ b t _ _ h2).mp hls
    by_contra hlt
    exact h3 h (by omega) hh hsplit

theorem partitionLoop_redist_le (env : Env) (mg : MultiGrid) (s : Partitioner_Bisection)
    (b t : Nat) : s.m_highestRedistLevel ≤ (partitionLoop env mg s b t).m_highestRedistLevel := by
  rw [partitionLoop_eq]
  exact (loopUpTo_redist env mg (activeHierarchy s) b t
    { s with m_sh := assignLevels mg SubsetHandler.clear (firstLevels b), m_procMap := [] } _).1

/-- Index of an element of level `l` after the loop when `l` is in the
window of hierarchy level `h`: the one it had right after round `h`. -/
theorem partitionLoop_window (env : Env) (mg : MultiGrid) (hwf : mg.WF)
    (s : Partitioner_Bisection) (hm : (activeHierarchy s).Monotone) (b t h : Nat)
    (hh : h < (activeHierarchy s).num_hierarchy_levels) {l : Nat} {x : Elem}
    (hx : x ∈ mg.elems l) (hl2 : (l : Int) ≤ maxLvl (activeHierarchy s) mg h) :
    (partitionLoop env mg s b t).m_sh.subsetIndex x =
      (processLevel env mg (activeHierarchy s) b t
        (loopUpTo env mg (activeHierarchy s) b t
          { s with m_sh := assignLevels mg SubsetHandler.clear (firstLevels b), m_procMap := [] }
          h) h).m_sh.subsetIndex x := by
  rw [partitionLoop_eq, ← loopUpTo_succ]
  by_cases hlast : h + 1 = (activeHierarchy s).num_hierarchy_levels
  · rw [hlast]
  · exact loopUpTo_window_final env mg hwf _ hm b t _ h _ (by omega) (le_refl _) hx hl2

/-- A round that takes one of the three assign-to-0 exits puts the elements
of its window in subset 0. -/
theorem partitionLoop_window_zero (env : Env) (mg : MultiGrid) (hwf : mg.WF)
    (s : Partitioner_Bisection) (hm : (activeHierarchy s).Monotone) (b t h : Nat)
    (hh : h < (activeHierarchy s).num_hierarchy_levels)
    (hb : branch mg (activeHierarchy s) b t s.m_highestRedistLevel h = Branch.singleProc ∨
      branch mg (activeHierarchy s) b t s.m_highestRedistLevel h = Branch.alreadyRedist ∨
      branch mg (activeHierarchy s) b t s.m_highestRedistLevel h = Branch.belowThreshold)
    {l : Nat} {x : Elem} (hx : x ∈ mg.elems l) (hl1 : minLvl (activeHierarchy s) b h ≤ l)
    (hl2 : (l : Int) ≤ maxLvl (activeHierarchy s) mg h) :
    (partitionLoop env mg s b t).m_sh.subsetIndex x = 0 := by
  rw [partitionLoop_window env mg hwf s hm b t h hh hx hl2]
  have hbr := branch_loopUpTo env mg (activeHierarchy s) b t
    { s with m_sh := assignLevels mg SubsetHandler.clear (firstLevels b), m_procMap := [] } h
  simp only at hbr
  rw [← hbr] at hb
  rw [processLevel_of_assignZero env mg _ b t _ h hb]
  exact assignLevels_mem mg _ _ (mem_levelsUpTo.mpr ⟨hl1, hl2⟩) hx

theorem exSplitter_inRange : SplitterInRange exEnv := by
  intro es n e _ hn
  refine ⟨Int.natCast_nonneg _, ?_⟩
  show ((es.indexOf e % n : Nat) : Int) < (n : Int)
  exact_mod_cast Nat.mod_lt _ (by omega)

/-! # The claims -/

/-- C1, counterexample: `partition(2^32, 0)` on the example mesh without
sibling clustering. The conversion `(int)baseLvl` gives 0, the first loop
assigns nothing and hierarchy level 1 is split from mesh level 1 on: element
3 of mesh level 1, a level below `baseLvl`, ends in partition 1. -/
theorem C1_counterexample :
    ∃ s2, partition exEnv
        (((Partitioner_Bisection.new false).set_grid exMesh).set_next_process_hierarchy
          (some exTopo)) 4294967296 0 = Except.ok s2 ∧
      3 ∈ exMesh.elems 1 ∧ 1 < 4294967296 ∧ s2.m_sh.subsetIndex 3 = 1 ∧
      s2.m_sh.subsetIndex 3 ≠ 0 :=
  ⟨_, rfl, by decide, by decide, by decide, by decide⟩

/-- C1, amended: after `partition(baseLvl, elementThreshold)` returns, every
element on a mesh level strictly below `(int)baseLvl` has partition index 0:
it is assigned by the first loop and no later round (split, sibling
clustering, downward propagation) overwrites it. For `baseLvl < 2^31` the
conversion keeps the value and these are the levels strictly below
`baseLvl`. The mesh is a well-formed multigrid and is bound to the
partitioner. -/
theorem C1_below_base_partition_zero (env : Env) (s : Partitioner_Bisection) (mg : MultiGrid)
    (baseLvl elementThreshold : Nat) (hmg : s.m_mg = some mg) (hwf : mg.WF) :
    ∃ s2, partition env s baseLvl elementThreshold = Except.ok s2 ∧
      (∀ l : Nat, (l : Int) < intCast baseLvl → ∀ x ∈ mg.elems l, s2.m_sh.subsetIndex x = 0) ∧
      (baseLvl < 2147483648 →
        ∀ l, l < baseLvl → ∀ x ∈ mg.elems l, s2.m_sh.subsetIndex x = 0) := by
  obtain ⟨s2, hok, hsh, -⟩ := partition_result env mg s baseLvl elementThreshold hmg
  have key : ∀ l : Nat, (l : Int) < intCast baseLvl → ∀ x ∈ mg.elems l,
      s2.m_sh.subsetIndex x = 0 := by
    intro l hl x hx
    rw [hsh, partitionLoop_eq, loopUpTo_frame env mg hwf]
    · exact init_below mg baseLvl hx hl
    · intro h _ l2 h1 _ hmem
      have := hwf.level_unique hx hmem
      have := base_le_minLvl (activeHierarchy s) baseLvl h
      omega
  refine ⟨s2, hok, key, ?_⟩
  intro hb l hl x hx
  exact key l (by rw [intCast_of_lt baseLvl hb]; exact_mod_cast hl) x hx

/-- Witness of C1: the example mesh with base level 2, where the level-2
window of the two-process hierarchy level is split. -/
theorem C1_below_base_partition_zero_witness :
    exState.m_mg = some exMesh ∧ exMesh.WF ∧
    ∃ s2, partition exEnv exState 2 0 = Except.ok s2 ∧
      (∀ l : Nat, (l : Int) < intCast 2 → ∀ x ∈ exMesh.elems l, s2.m_sh.subsetIndex x = 0) ∧
      ((2 : Nat) < 2147483648 →
        ∀ l, l < 2 → ∀ x ∈ exMesh.elems l, s2.m_sh.subsetIndex x = 0) :=
  ⟨rfl, by decide, C1_below_base_partition_zero exEnv exState exMesh 2 0 rfl (by decide)⟩

/-- C3: the ratchet never decreases across a call of `partition`: whatever
the state before the call and whatever topology is staged before it (also
one whose later levels use fewer processes), the call returns and
`m_highestRedistLevel` afterwards is at least its value before. -/
theorem C3_ratchet_never_decreases (env : Env) (s : Partitioner_Bisection) (mg : MultiGrid)
    (staged : Option ProcessHierarchy) (baseLvl elementThreshold : Nat)
    (hmg : s.m_mg = some mg) :
    ∃ s2, partition env (s.set_next_process_hierarchy staged) baseLvl elementThreshold
        = Except.ok s2 ∧
      s.m_highestRedistLevel ≤ s2.m_highestRedistLevel := by
  obtain ⟨s2, hok, -, -, hr, -⟩ := partition_result env mg
    (s.set_next_process_hierarchy staged) baseLvl elementThreshold hmg
  refine ⟨s2, hok, ?_⟩
  rw [hr]
  exact le_trans
    (partitionLoop_redist_le env mg (s.set_next_process_hierarchy staged) baseLvl
      elementThreshold)
    (le_allreduceMax _ _)

/-- Witness of C3: from ratchet 1, staging a topology whose second level
has a single process. -/
theorem C3_ratchet_never_decreases_witness :
    exStateRedist.m_mg = some exMesh ∧
    ∃ s2, partition exEnv (exStateRedist.set_next_process_hierarchy
        (some { m_levels := [{ gridLvl := 0, clusterProcs := [0, 1, 2] },
          { gridLvl := 1, clusterProcs := [0] }] })) 0 0 = Except.ok s2 ∧
      exStateRedist.m_highestRedistLevel ≤ s2.m_highestRedistLevel :=
  ⟨rfl, C3_ratchet_never_decreases exEnv exStateRedist exMesh _ 0 0 rfl⟩

/-- C2, counterexample: elements at or above `baseLvl = 0` that `partition`
leaves unassigned (subset index -1): element 0 of level 0 under a topology
without hierarchy levels; element 0 of level 0 under a topology whose first
level starts at mesh level 1; and element 2 of level 2, which has no parent,
in the split window of mesh levels 1 and 2. -/
theorem C2_counterexample :
    (∃ s2, partition exEnv (exStateOn exMesh exTopoEmpty) 0 0 = Except.ok s2 ∧
      0 ∈ exMesh.elems 0 ∧ s2.m_sh.subsetIndex 0 = -1) ∧
    (∃ s2, partition exEnv (exStateOn exMesh exTopoFromOne) 0 0 = Except.ok s2 ∧
      0 ∈ exMesh.elems 0 ∧ s2.m_sh.subsetIndex 0 = -1) ∧
    (∃ s2, partition exEnv (exStateOn exMeshOrphan exTopo) 0 0 = Except.ok s2 ∧
      exMeshOrphan.WF ∧ 2 ∈ exMeshOrphan.elems 2 ∧ s2.m_sh.subsetIndex 2 = -1) :=
  ⟨⟨_, rfl, by decide, by decide⟩, ⟨_, rfl, by decide, by decide⟩,
    ⟨_, rfl, by decide, by decide, by decide⟩⟩

/-- C2, amended: if the topology in use has a first hierarchy level that
starts at or below `baseLvl`, inside every window that is split each element
above the first level of the window has a parent on the level directly
below, and the splitter hands out non-negative indices, then after
`partition` returns every element on a mesh level at or above `baseLvl` has
an assigned partition index (not -1). The mesh is a well-formed multigrid. -/
theorem C2_assigned_at_or_above_base (env : Env) (s : Partitioner_Bisection) (mg : MultiGrid)
    (baseLvl elementThreshold : Nat) (hmg : s.m_mg = some mg) (hwf : mg.WF)
    (hpar : ∀ h, h < (activeHierarchy s).num_hierarchy_levels →
      branch mg (activeHierarchy s) baseLvl elementThreshold s.m_highestRedistLevel h
        = Branch.split →
      mg.ParentsWithin (minLvl (activeHierarchy s) baseLvl h) (maxLvl (activeHierarchy s) mg h))
    (hne : 0 < (activeHierarchy s).num_hierarchy_levels)
    (hg0 : (activeHierarchy s).grid_base_level 0 ≤ baseLvl)
    (hsp : ∀ (es : List Elem) (n : Nat) (e : Elem), e ∈ es → 1 < n → 0 ≤ env.splitter es n e) :
    ∃ s2, partition env s baseLvl elementThreshold = Except.ok s2 ∧
      ∀ l, baseLvl ≤ l → ∀ x ∈ mg.elems l,
        0 ≤ s2.m_sh.subsetIndex x ∧ s2.m_sh.subsetIndex x ≠ -1 := by
  obtain ⟨s2, hok, hsh, -⟩ := partition_result env mg s baseLvl elementThreshold hmg
  refine ⟨s2, hok, ?_⟩
  intro l hl x hx
  obtain ⟨h, hh, h1, h2⟩ := window_cover (activeHierarchy s) mg baseLvl l (mem_elems_le_top hx)
    (le_trans (intCast_le baseLvl) (by exact_mod_cast hl))
    (activeHierarchy s).num_hierarchy_levels 0 hne (by omega) (by omega)
  have h0 : 0 ≤ s2.m_sh.subsetIndex x := by
    rw [hsh, partitionLoop_eq]
    exact (loopUpTo_full (fun v => 0 ≤ v) (le_refl _) env mg hwf (activeHierarchy s)
      baseLvl elementThreshold
      { s with m_sh := assignLevels mg SubsetHandler.clear (firstLevels baseLvl), m_procMap := [] }
      hsp _ hpar).2 h hh l h1 h2 x hx
  exact ⟨h0, by omega⟩

/-- Witness of C2 (amended): the example mesh under the example topology. -/
theorem C2_assigned_at_or_above_base_witness :
    exState.m_mg = some exMesh ∧ exMesh.WF ∧ exMesh.Full ∧
    0 < (activeHierarchy exState).num_hierarchy_levels ∧
    (activeHierarchy exState).grid_base_level 0 ≤ 0 ∧
    ∃ s2, partition exEnv exState 0 0 = Except.ok s2 ∧
      ∀ l, 0 ≤ l → ∀ x ∈ exMesh.elems l,
        0 ≤ s2.m_sh.subsetIndex x ∧ s2.m_sh.subsetIndex x ≠ -1 :=
  ⟨rfl, by decide, by decide, by decide, by decide,
    C2_assigned_at_or_above_base exEnv exState exMesh 0 0 rfl (by decide)
      (fun h _ _ => MultiGrid.Full.parentsWithin (by decide) _ _)
      (by decide) (by decide) (fun es n e he hn => (exSplitter_inRange es n e he hn).1)⟩

/-- Once the ratchet is at or above the level split last, no level is split:
the levels up to the ratchet are barred by the ratchet guard, the levels
above it were not split before and the other guards have not changed. -/
theorem no_split_after (mg : MultiGrid) (procH : ProcessHierarchy) (b t : Nat) (r0 r1 : Int)
    (n h : Nat) (hls : lastSplit mg procH b t r0 n = some h) (hr : (h : Int) ≤ r1)
    (hr0 : r0 ≤ r1) : ∀ h2, h2 < n → branch mg procH b t r1 h2 ≠ Branch.split := by
  intro h2 hh2 hsp
  obtain ⟨h1, h3, h4, h5⟩ := (branch_split_iff mg procH b t r1 h2).mp hsp
  obtain ⟨-, -, hlast⟩ := (lastSplit_eq_some mg procH b t r0 n h).mp hls
  exact hlast h2 (by omega) hh2
    ((branch_split_iff mg procH b t r0 h2).mpr ⟨h1, h3, by omega, h5⟩)

theorem lastSplit_isSome_of_split (mg : MultiGrid) (procH : ProcessHierarchy) (b t : Nat)
    (r : Int) (n h : Nat) (hh : h < n) (hsplit : branch mg procH b t r h = Branch.split) :
    ∃ h2, lastSplit mg procH b t r n = some h2 := by
  cases hls : lastSplit mg procH b t r n with
  | none => exact absurd hsplit ((lastSplit_eq_none mg procH b t r n).mp hls h hh)
  | some h2 => exact ⟨h2, rfl⟩

/-- Process map after a call that splits no level: the fallback. -/
theorem partition_procMap_no_split (env : Env) (mg : MultiGrid) (s s2 : Partitioner_Bisection)
    (b t : Nat)
    (hnone : ∀ h, h < (activeHierarchy s).num_hierarchy_levels →
      branch mg (activeHierarchy s) b t s.m_highestRedistLevel h ≠ Branch.split)
    (hsh : s2.m_sh = (partitionLoop env mg s b t).m_sh)
    (hpm : s2.m_procMap = resultProcMap env mg s b t) :
    s2.m_procMap = if s2.m_sh.num_subsets = 0 then [] else [env.procRank] := by
  rw [hpm]
  unfold resultProcMap SubsetHandler.num_subsets
  rw [(lastSplit_eq_none mg _ b t _ _).mpr hnone, hsh]

/-- Process map after a call in which `h` is the level split last. -/
theorem partition_procMap_split (env : Env) (mg : MultiGrid) (s s2 : Partitioner_Bisection)
    (b t h : Nat)
    (hls : lastSplit mg (activeHierarchy s) b t s.m_highestRedistLevel
      (activeHierarchy s).num_hierarchy_levels = some h)
    (hpm : s2.m_procMap = resultProcMap env mg s b t) :
    s2.m_procMap = (activeHierarchy s).cluster_procs h := by
  rw [hpm]
  unfold resultProcMap
  rw [hls]

/-- C5, counterexample: on the example mesh the first call splits hierarchy
level 1 and leaves the process map `[0, 1]`; the second call, with the same
topology, mesh and arguments, leaves the process map `[7]` (the local rank). -/
theorem C5_counterexample :
    ∃ s1 s2, partition exEnv exState 0 0 = Except.ok s1 ∧
      partition exEnv s1 0 0 = Except.ok s2 ∧
      s1.get_process_map = [0, 1] ∧ s2.get_process_map = [7] ∧
      s2.get_process_map ≠ s1.get_process_map :=
  ⟨_, _, rfl, rfl, by decide, by decide, by decide⟩

/-- C5, amended: when a call of `partition` has split a hierarchy level, a
second call with the same topology, mesh, `baseLvl` and threshold splits no
level and rebuilds the process map from scratch: the map of the first call
holds the at least two ranks of the level it split last, the map of the
second call is the single local rank if a subset exists and empty otherwise,
so the two maps differ. -/
theorem C5_second_call_rebuilds_process_map (env env2 : Env) (s : Partitioner_Bisection)
    (mg : MultiGrid) (baseLvl elementThreshold h : Nat) (hmg : s.m_mg = some mg)
    (hh : h < (activeHierarchy s).num_hierarchy_levels)
    (hsplit : branch mg (activeHierarchy s) baseLvl elementThreshold s.m_highestRedistLevel h
      = Branch.split) :
    ∃ s1 s2, partition env s baseLvl elementThreshold = Except.ok s1 ∧
      partition env2 s1 baseLvl elementThreshold = Except.ok s2 ∧
      2 ≤ s1.get_process_map.length ∧
      s2.get_process_map = (if s2.m_sh.num_subsets = 0 then [] else [env2.procRank]) ∧
      s2.get_process_map ≠ s1.get_process_map ∧
      ∃ h1, h1 < (activeHierarchy s).num_hierarchy_levels ∧
        branch mg (activeHierarchy s) baseLvl elementThreshold s.m_highestRedistLevel h1
          = Branch.split ∧
        s1.get_process_map = (activeHierarchy s).cluster_procs h1 := by
  obtain ⟨s1, hok1, -, hpm1, hr1, hmg1, hact1, -⟩ :=
    partition_result env mg s baseLvl elementThreshold hmg
  obtain ⟨s2, hok2, hsh2, hpm2, -⟩ := partition_result env2 mg s1 baseLvl elementThreshold hmg1
  obtain ⟨hl, hls⟩ := lastSplit_isSome_of_split mg _ baseLvl elementThreshold _ _ h hh hsplit
  have hmap1 := partition_procMap_split env mg s s1 baseLvl elementThreshold hl hls hpm1
  have hlen1 : 2 ≤ s1.m_procMap.length := by
    rw [hmap1]
    have := ((branch_split_iff mg _ baseLvl elementThreshold _ hl).mp
      ((lastSplit_eq_some mg _ baseLvl elementThreshold _ _ hl).mp hls).2.1).2.1
    omega
  have hrL : (partitionLoop env mg s baseLvl elementThreshold).m_highestRedistLevel = (hl : Int) := by
    have := (partitionLoop_procMap_redist env mg s baseLvl elementThreshold).2
    rw [hls] at this
    exact this
  have hge : (hl : Int) ≤ s1.m_highestRedistLevel := by
    rw [hr1, ← hrL]
    exact le_allreduceMax _ _
  have hge0 : s.m_highestRedistLevel ≤ s1.m_highestRedistLevel := by
    rw [hr1]
    exact le_trans (partitionLoop_redist_le env mg s baseLvl elementThreshold)
      (le_allreduceMax _ _)
  have hnone : ∀ h2, h2 < (activeHierarchy s1).num_hierarchy_levels →
      branch mg (activeHierarchy s1) baseLvl elementThreshold s1.m_highestRedistLevel h2
        ≠ Branch.split := by
    rw [hact1]
    exact no_split_after mg _ baseLvl elementThreshold _ _ _ hl hls hge hge0
  have hmap2 := partition_procMap_no_split env2 mg s1 s2 baseLvl elementThreshold hnone hsh2 hpm2
  have hlast := (lastSplit_eq_some mg _ baseLvl elementThreshold _ _ hl).mp hls
  refine ⟨s1, s2, hok1, hok2, hlen1, hmap2, ?_, hl, hlast.1, hlast.2.1, hmap1⟩
  intro heq
  have hlen : s2.m_procMap.length = s1.m_procMap.length := congrArg List.length heq
  rw [hmap2] at hlen
  split_ifs at hlen <;> simp at hlen <;> omega

/-- Witness of C5 (amended): the example state, where hierarchy level 1 is
split by the first call. -/
theorem C5_second_call_rebuilds_process_map_witness :
    exState.m_mg = some exMesh ∧ 1 < (activeHierarchy exState).num_hierarchy_levels ∧
    branch exMesh (activeHierarchy exState) 0 0 exState.m_highestRedistLevel 1 = Branch.split ∧
    ∃ s1 s2, partition exEnv exState 0 0 = Except.ok s1 ∧
      partition exEnv s1 0 0 = Except.ok s2 ∧
      2 ≤ s1.get_process_map.length ∧
      s2.get_process_map = (if s2.m_sh.num_subsets = 0 then [] else [exEnv.procRank]) ∧
      s2.get_process_map ≠ s1.get_process_map ∧
      ∃ h1, h1 < (activeHierarchy exState).num_hierarchy_levels ∧
        branch exMesh (activeHierarchy exState) 0 0 exState.m_highestRedistLevel h1
          = Branch.split ∧
        s1.get_process_map = (activeHierarchy exState).cluster_procs h1 :=
  ⟨rfl, by decide, by decide,
    C5_second_call_rebuilds_process_map exEnv exEnv exState exMesh 0 0 1 rfl (by decide)
      (by decide)⟩

/-- C6, counterexample: under a topology with four processes at hierarchy
level 1 the first call splits level 1 (ratchet 1, process map of length 4);
after the second call level 1 is still the level split most recently
(ratchet 1, nothing split since), it has four processes, and the process map
is `[7]`, of length 1. -/
theorem C6_counterexample :
    ∃ s1 s2, partition exEnv (exStateOn exMesh exTopoFour) 0 0 = Except.ok s1 ∧
      partition exEnv s1 0 0 = Except.ok s2 ∧
      s1.m_highestRedistLevel = 1 ∧ s1.get_process_map.length = 4 ∧
      s2.m_highestRedistLevel = 1 ∧ ((activeHierarchy s2).cluster_procs 1).length = 4 ∧
      s2.get_process_map = [7] ∧ s2.get_process_map.length = 1 :=
  ⟨_, _, rfl, rfl, by decide, by decide, by decide, by decide, by decide, by decide⟩

/-- C6, amended: after `partition` returns, the process map is the
`cluster_procs` sequence of the hierarchy level split last by this call (so
its length is the number of processes of that level), when this call splits a
level; when this call splits none, the map is the single local rank if a
subset exists and empty otherwise. -/
theorem C6_process_map_of_last_split (env : Env) (s : Partitioner_Bisection) (mg : MultiGrid)
    (baseLvl elementThreshold : Nat) (hmg : s.m_mg = some mg) :
    ∃ s2, partition env s baseLvl elementThreshold = Except.ok s2 ∧
      (∀ h, h < (activeHierarchy s).num_hierarchy_levels →
        branch mg (activeHierarchy s) baseLvl elementThreshold s.m_highestRedistLevel h
          = Branch.split →
        (∀ h2, h < h2 → h2 < (activeHierarchy s).num_hierarchy_levels →
          branch mg (activeHierarchy s) baseLvl elementThreshold s.m_highestRedistLevel h2
            ≠ Branch.split) →
        s2.get_process_map = (activeHierarchy s).cluster_procs h ∧
        s2.get_process_map.length = ((activeHierarchy s).cluster_procs h).length) ∧
      ((∀ h, h < (activeHierarchy s).num_hierarchy_levels →
          branch mg (activeHierarchy s) baseLvl elementThreshold s.m_highestRedistLevel h
            ≠ Branch.split) →
        s2.get_process_map = (if s2.m_sh.num_subsets = 0 then [] else [env.procRank])) := by
  obtain ⟨s2, hok, hsh, hpm, -⟩ := partition_result env mg s baseLvl elementThreshold hmg
  refine ⟨s2, hok, ?_, ?_⟩
  · intro h hh hsplit hlast
    have hls := (lastSplit_eq_some mg _ baseLvl elementThreshold _ _ h).mpr ⟨hh, hsplit, hlast⟩
    have := partition_procMap_split env mg s s2 baseLvl elementThreshold h hls hpm
    exact ⟨this, congrArg List.length this⟩
  · intro hnone
    exact partition_procMap_no_split env mg s s2 baseLvl elementThreshold hnone hsh hpm

/-- Witness of C6 (amended): four processes at the split level give a map
of length 4. -/
theorem C6_process_map_of_last_split_witness :
    (exStateOn exMesh exTopoFour).m_mg = some exMesh ∧
    ∃ s2, partition exEnv (exStateOn exMesh exTopoFour) 0 0 = Except.ok s2 ∧
      s2.get_process_map = [0, 1, 2, 3] ∧ s2.get_process_map.length = 4 := by
  refine ⟨rfl, ?_⟩
  obtain ⟨s2, hok, h1, -⟩ :=
    C6_process_map_of_last_split exEnv (exStateOn exMesh exTopoFour) exMesh 0 0 rfl
  exact ⟨s2, hok, h1 1 (by decide) (by decide) (fun h2 hlt hn => by
    have hn2 : h2 < 2 := hn
    omega)⟩

/-- The integer test of lines 225-227 decides the comparison of the exact
quotient with the threshold, for a threshold that fits an `int`. -/
theorem belowThreshold_iff (n p : Int) (t : Nat) (hn : 0 ≤ n) (hp : 0 < p)
    (ht : t < 2147483648) :
    belowThreshold n p t = true ↔ (n : ℚ) / (p : ℚ) < (t : ℚ) := by
  have hpq : (0 : ℚ) < (p : ℚ) := by exact_mod_cast hp
  unfold belowThreshold
  rw [intCast_of_lt t ht, Bool.and_eq_true, decide_eq_true_iff, decide_eq_true_iff,
    Int.tdiv_eq_ediv hn (le_of_lt hp), Int.ediv_lt_iff_lt_mul hp, div_lt_iff₀ hpq]
  constructor
  · rintro ⟨-, h⟩
    exact_mod_cast h
  · intro h
    have h2 : n < (t : Int) * p := by exact_mod_cast h
    refine ⟨?_, h2⟩
    by_contra h0
    have : t = 0 := by omega
    subst this
    simp at h2
    omega

/-- C8, counterexample: hierarchy level 1 of the example topology on the
example mesh (4 elements at mesh level 1, 2 processes, ratchet -1) with
`elementThreshold = 2^31`. The exact quotient 2 is below the threshold, but
`(int)elementThreshold` is negative, the test of line 227 fails and the
window is split. -/
theorem C8_counterexample :
    (exMesh.num (minLvl exTopo 0 1) : ℚ) / ((exTopo.cluster_procs 1).length : ℚ)
      < ((2147483648 : Nat) : ℚ) ∧
    (minLvl exTopo 0 1 : Int) ≤ maxLvl exTopo exMesh 1 ∧
    1 < (exTopo.cluster_procs 1).length ∧
    branch exMesh exTopo 0 2147483648 (-1) 1 = Branch.split ∧
    branch exMesh exTopo 0 2147483648 (-1) 1 ≠ Branch.belowThreshold := by
  refine ⟨?_, by decide, by decide, by decide, by decide⟩
  have h1 : exMesh.num (minLvl exTopo 0 1) = 4 := by decide
  have h2 : (exTopo.cluster_procs 1).length = 2 := by decide
  rw [h1, h2]
  norm_num

/-- C8, amended: for a hierarchy level with more than one process, a
non-empty window and an index above the ratchet, and for an
`elementThreshold` below `2^31`, the round takes the threshold exit if and
only if the exact quotient of the local element count at `minLvl` by the
process count is below `elementThreshold`. At the exit every element of the
window is in subset 0 afterwards, the splitter is not called, process map
and ratchet are untouched; otherwise the window is split. With threshold 0
the exit is never taken; with 400 elements, 4 processes and threshold 200
it is. -/
theorem C8_threshold_skip (env : Env) (mg : MultiGrid) (procH : ProcessHierarchy)
    (baseLvl elementThreshold : Nat) (sk : Partitioner_Bisection) (h : Nat)
    (ht : elementThreshold < 2147483648)
    (hwin : (minLvl procH baseLvl h : Int) ≤ maxLvl procH mg h)
    (hprocs : 1 < (procH.cluster_procs h).length)
    (hr : sk.m_highestRedistLevel < (h : Int)) :
    (branch mg procH baseLvl elementThreshold sk.m_highestRedistLevel h = Branch.belowThreshold ↔
      ((mg.num (minLvl procH baseLvl h) : ℚ) / ((procH.cluster_procs h).length : ℚ)
        < (elementThreshold : ℚ))) ∧
    (branch mg procH baseLvl elementThreshold sk.m_highestRedistLevel h = Branch.belowThreshold →
      processLevel env mg procH baseLvl elementThreshold sk h =
        { sk with m_sh := (assignLevels mg sk.m_sh
            (levelsUpTo (minLvl procH baseLvl h) (maxLvl procH mg h))) } ∧
      (processLevel env mg procH baseLvl elementThreshold sk h).m_procMap = sk.m_procMap ∧
      (processLevel env mg procH baseLvl elementThreshold sk h).m_highestRedistLevel =
        sk.m_highestRedistLevel ∧
      ∀ l, minLvl procH baseLvl h ≤ l → (l : Int) ≤ maxLvl procH mg h → ∀ x ∈ mg.elems l,
        (processLevel env mg procH baseLvl elementThreshold sk h).m_sh.subsetIndex x = 0) ∧
    (branch mg procH baseLvl elementThreshold sk.m_highestRedistLevel h ≠ Branch.belowThreshold →
      branch mg procH baseLvl elementThreshold sk.m_highestRedistLevel h = Branch.split ∧
      processLevel env mg procH baseLvl elementThreshold sk h =
        { sk with
          m_sh := (splitWindow env mg sk.m_clusteredSiblings sk.m_sh (minLvl procH baseLvl h)
            (maxLvl procH mg h) (procH.cluster_procs h).length)
          m_procMap := procH.cluster_procs h
          m_highestRedistLevel := h }) ∧
    (elementThreshold = 0 →
      branch mg procH baseLvl elementThreshold sk.m_highestRedistLevel h
        ≠ Branch.belowThreshold) ∧
    (∀ n p : Int, 0 ≤ n → 1 < p →
      (belowThreshold n p elementThreshold = true ↔ (n : ℚ) / (p : ℚ) < (elementThreshold : ℚ))) ∧
    belowThreshold 400 4 200 = true := by
  have hnum := belowThreshold_iff (mg.num (minLvl procH baseLvl h))
    ((procH.cluster_procs h).length) elementThreshold (Int.natCast_nonneg _) (by omega) ht
  have hcast : (((mg.num (minLvl procH baseLvl h) : Nat) : Int) : ℚ) /
      ((((procH.cluster_procs h).length : Nat) : Int) : ℚ) =
      (mg.num (minLvl procH baseLvl h) : ℚ) / ((procH.cluster_procs h).length : ℚ) := by
    push_cast
    rfl
  rw [hcast] at hnum
  have hb : branch mg procH baseLvl elementThreshold sk.m_highestRedistLevel h =
      if belowThreshold (mg.num (minLvl procH baseLvl h)) (procH.cluster_procs h).length
        elementThreshold = true then Branch.belowThreshold else Branch.split := by
    unfold branch
    simp only
    rw [if_neg (by omega), if_neg (by omega), if_neg (by omega)]
  have hiff : branch mg procH baseLvl elementThreshold sk.m_highestRedistLevel h
      = Branch.belowThreshold ↔
      ((mg.num (minLvl procH baseLvl h) : ℚ) / ((procH.cluster_procs h).length : ℚ)
        < (elementThreshold : ℚ)) := by
    rw [← hnum, hb]
    split_ifs with hc <;> simp [hc]
  refine ⟨hiff, ?_, ?_, ?_, ?_, by decide⟩
  · intro hbr
    have hpl := processLevel_of_assignZero env mg procH baseLvl elementThreshold sk h
      (Or.inr (Or.inr hbr))
    refine ⟨hpl, ?_, ?_, ?_⟩
    · rw [hpl]
    · rw [hpl]
    · intro l hl1 hl2 x hx
      rw [hpl]
      exact assignLevels_mem mg _ _ (mem_levelsUpTo.mpr ⟨hl1, hl2⟩) hx
  · intro hbr
    have hs : branch mg procH baseLvl elementThreshold sk.m_highestRedistLevel h
        = Branch.split := by
      rw [hb] at hbr ⊢
      split_ifs at hbr ⊢ with hc
      · exact absurd rfl hbr
      · rfl
    exact ⟨hs, processLevel_of_split env mg procH baseLvl elementThreshold sk h hs⟩
  · intro ht0 hbr
    rw [hiff, ht0] at hbr
    have h0 : (0 : ℚ) ≤ (mg.num (minLvl procH baseLvl h) : ℚ) /
        ((procH.cluster_procs h).length : ℚ) := by positivity
    simp only [Nat.cast_zero] at hbr
    exact absurd hbr (not_lt.mpr h0)
  · intro n p hn hp
    exact belowThreshold_iff n p elementThreshold hn (by omega) ht

/-- Witness of C8: hierarchy level 1 of the example topology on the example
mesh (4 elements at mesh level 1, 2 processes) with threshold 3: the exit is
taken and the elements of mesh levels 1 and 2 are in subset 0. -/
theorem C8_threshold_skip_witness :
    (3 : Nat) < 2147483648 ∧
    (minLvl exTopo 0 1 : Int) ≤ maxLvl exTopo exMesh 1 ∧
    1 < (exTopo.cluster_procs 1).length ∧ exState.m_highestRedistLevel < ((1 : Nat) : Int) ∧
    branch exMesh exTopo 0 3 exState.m_highestRedistLevel 1 = Branch.belowThreshold ∧
    (exMesh.num (minLvl exTopo 0 1) : ℚ) / ((exTopo.cluster_procs 1).length : ℚ)
      < ((3 : Nat) : ℚ) ∧
    ∀ l, minLvl exTopo 0 1 ≤ l → (l : Int) ≤ maxLvl exTopo exMesh 1 → ∀ x ∈ exMesh.elems l,
      (processLevel exEnv exMesh exTopo 0 3 exState 1).m_sh.subsetIndex x = 0 :=
  ⟨by decide, by decide, by decide, by decide, by decide,
    (C8_threshold_skip exEnv exMesh exTopo 0 3 exState 1 (by decide) (by decide) (by decide)
      (by decide)).1.mp (by decide),
    ((C8_threshold_skip exEnv exMesh exTopo 0 3 exState 1 (by decide) (by decide) (by decide)
      (by decide)).2.1 (by decide)).2.2.2⟩

/-- A round for a hierarchy level with at most one process and a non-empty
window takes the single-process exit. -/
theorem branch_singleProc (mg : MultiGrid) (procH : ProcessHierarchy) (b t : Nat) (r : Int)
    (h : Nat) (hprocs : (procH.cluster_procs h).length ≤ 1)
    (hwin : (minLvl procH b h : Int) ≤ maxLvl procH mg h) :
    branch mg procH b t r h = Branch.singleProc := by
  unfold branch
  simp only
  rw [if_neg (by omega), if_pos hprocs]

/-- Under a topology all of whose levels have at most one process, the loop
only writes subset 0, and has written it to the windows visited so far. -/
theorem loopUpTo_single (env : Env) (mg : MultiGrid) (procH : ProcessHierarchy) (b t : Nat)
    (s : Partitioner_Bisection)
    (hall : ∀ h, h < procH.num_hierarchy_levels → (procH.cluster_procs h).length ≤ 1) (k : Nat)
    (hk : k ≤ procH.num_hierarchy_levels) :
    Keeps (fun v => v = 0) s.m_sh (loopUpTo env mg procH b t s k).m_sh ∧
    ∀ h, h < k → ∀ l, minLvl procH b h ≤ l → (l : Int) ≤ maxLvl procH mg h → ∀ x ∈ mg.elems l,
      (loopUpTo env mg procH b t s k).m_sh.subsetIndex x = 0 := by
  induction k with
  | zero => exact ⟨Keeps.refl _ _, fun h hh => by omega⟩
  | succ k ih =>
    obtain ⟨ih1, ih2⟩ := ih (by omega)
    rw [loopUpTo_succ]
    by_cases hwin : (minLvl procH b k : Int) ≤ maxLvl procH mg k
    · have hb := branch_singleProc mg procH b t
        (loopUpTo env mg procH b t s k).m_highestRedistLevel k (hall k (by omega)) hwin
      rw [processLevel_of_assignZero env mg procH b t _ k (Or.inl hb)]
      simp only
      have hkeep : Keeps (fun v => v = 0) (loopUpTo env mg procH b t s k).m_sh
          (assignLevels mg (loopUpTo env mg procH b t s k).m_sh
            (levelsUpTo (minLvl procH b k) (maxLvl procH mg k))) :=
        fun y hy => assignLevels_keeps (fun v => v = 0) rfl mg _ _ y hy
      refine ⟨ih1.trans hkeep, ?_⟩
      intro h hh l hl1 hl2 x hx
      by_cases hkh : h = k
      · subst hkh
        exact assignLevels_mem mg _ _ (mem_levelsUpTo.mpr ⟨hl1, hl2⟩) hx
      · exact hkeep x (ih2 h (by omega) l hl1 hl2 x hx)
    · have hb : branch mg procH b t (loopUpTo env mg procH b t s k).m_highestRedistLevel k
          = Branch.emptyWindow := by
        unfold branch
        simp only
        rw [if_pos (by omega)]
      rw [processLevel_of_emptyWindow env mg procH b t _ k hb]
      refine ⟨ih1, ?_⟩
      intro h hh l hl1 hl2 x hx
      by_cases hkh : h = k
      · subst hkh
        omega
      · exact ih2 h (by omega) l hl1 hl2 x hx

/-- C10: what `partition` does after the loop over the hierarchy levels, on
a bound mesh. If the loop leaves an empty process map and exactly one
subset, `partition` returns with the one-entry process map holding the local
rank (this is the case whenever no level is split and some element is
assigned); if the loop leaves a non-empty process map, or no subset, the map
is returned as the loop left it. The block of lines 279-285 throws on a
state with an empty process map and more than one subset, and `partition`
fails in no other situation. -/
theorem C10_fallback_process_map (env : Env) (s : Partitioner_Bisection) (mg : MultiGrid)
    (baseLvl elementThreshold : Nat) (hmg : s.m_mg = some mg) :
    ((partitionLoop env mg s baseLvl elementThreshold).m_procMap = [] →
      (partitionLoop env mg s baseLvl elementThreshold).m_sh.num_subsets = 1 →
      ∃ s2, partition env s baseLvl elementThreshold = Except.ok s2 ∧
        s2.m_procMap = [env.procRank] ∧
        s2.m_sh = (partitionLoop env mg s baseLvl elementThreshold).m_sh) ∧
    ((∀ h, h < (activeHierarchy s).num_hierarchy_levels →
        branch mg (activeHierarchy s) baseLvl elementThreshold s.m_highestRedistLevel h
          ≠ Branch.split) →
      (∃ x, (partitionLoop env mg s baseLvl elementThreshold).m_sh.subsetIndex x ≠ -1) →
      (partitionLoop env mg s baseLvl elementThreshold).m_procMap = [] ∧
      (partitionLoop env mg s baseLvl elementThreshold).m_sh.num_subsets = 1 ∧
      ∃ s2, partition env s baseLvl elementThreshold = Except.ok s2 ∧
        s2.m_procMap = [env.procRank]) ∧
    (((partitionLoop env mg s baseLvl elementThreshold).m_procMap ≠ [] ∨
        (partitionLoop env mg s baseLvl elementThreshold).m_sh.num_subsets = 0) →
      ∃ s2, partition env s baseLvl elementThreshold = Except.ok s2 ∧
        s2.m_procMap = (partitionLoop env mg s baseLvl elementThreshold).m_procMap ∧
        s2.m_sh = (partitionLoop env mg s baseLvl elementThreshold).m_sh) ∧
    (∀ sL : Partitioner_Bisection, sL.m_procMap = [] → 1 < sL.m_sh.num_subsets →
      fallbackProcMap env sL = Except.error UGError.ugThrow) ∧
    (∀ sL : Partitioner_Bisection, sL.m_procMap = [] → sL.m_sh.num_subsets = 1 →
      fallbackProcMap env sL = Except.ok { sL with m_procMap := [env.procRank] }) ∧
    (∀ sL : Partitioner_Bisection, ¬ (sL.m_procMap = [] ∧ 0 < sL.m_sh.num_subsets) →
      fallbackProcMap env sL = Except.ok sL) ∧
    (∀ err, partition env s baseLvl elementThreshold = Except.error err →
      (err = UGError.ugThrow ∧
        (partitionLoop env mg s baseLvl elementThreshold).m_procMap = [] ∧
        1 < (partitionLoop env mg s baseLvl elementThreshold).m_sh.num_subsets)) := by
  have h1 : ∀ sL : Partitioner_Bisection, sL.m_procMap = [] → sL.m_sh.num_subsets = 1 →
      fallbackProcMap env sL = Except.ok { sL with m_procMap := [env.procRank] } := by
    intro sL hp hn
    unfold fallbackProcMap
    simp [hp, hn]
  have h2 : ∀ sL : Partitioner_Bisection, sL.m_procMap = [] → 1 < sL.m_sh.num_subsets →
      fallbackProcMap env sL = Except.error UGError.ugThrow := by
    intro sL hp hn
    unfold fallbackProcMap
    have hne : sL.m_sh.num_subsets ≠ 1 := by omega
    have hpos : 0 < sL.m_sh.num_subsets := by omega
    simp [hp, hne, hpos]
  have h3 : ∀ sL : Partitioner_Bisection, ¬ (sL.m_procMap = [] ∧ 0 < sL.m_sh.num_subsets) →
      fallbackProcMap env sL = Except.ok sL := by
    intro sL hc
    unfold fallbackProcMap
    rw [if_neg]
    rw [List.isEmpty_iff]
    exact hc
  have hpart : partition env s baseLvl elementThreshold =
      (match fallbackProcMap env (partitionLoop env mg s baseLvl elementThreshold) with
        | Except.error err => Except.error err
        | Except.ok s2 => Except.ok (syncAndCommit env s2)) := by
    unfold partition
    rw [hmg]
  have hA : (partitionLoop env mg s baseLvl elementThreshold).m_procMap = [] →
      (partitionLoop env mg s baseLvl elementThreshold).m_sh.num_subsets = 1 →
      ∃ s2, partition env s baseLvl elementThreshold = Except.ok s2 ∧
        s2.m_procMap = [env.procRank] ∧
        s2.m_sh = (partitionLoop env mg s baseLvl elementThreshold).m_sh := by
    intro hp hn
    rw [hpart, h1 _ hp hn]
    exact ⟨_, rfl, (syncAndCommit_fields env _).2.1, (syncAndCommit_fields env _).1⟩
  refine ⟨hA, ?_, ?_, h2, h1, h3, ?_⟩
  · intro hnone hex
    have hls := (lastSplit_eq_none mg (activeHierarchy s) baseLvl elementThreshold
      s.m_highestRedistLevel (activeHierarchy s).num_hierarchy_levels).mpr hnone
    obtain ⟨hpm, -⟩ := partitionLoop_procMap_redist env mg s baseLvl elementThreshold
    rw [hls] at hpm
    simp only at hpm
    have hz : ZeroOnly (partitionLoop env mg s baseLvl elementThreshold).m_sh := by
      rw [partitionLoop_eq]
      exact loopUpTo_zeroOnly env mg _ baseLvl elementThreshold _
        (zeroOnly_assignLevels mg _ _ zeroOnly_clear) _ hnone
    obtain ⟨x, hx⟩ := hex
    have hn : (partitionLoop env mg s baseLvl elementThreshold).m_sh.num_subsets = 1 := by
      rcases hz.2 x with h | ⟨-, h⟩
      · exact absurd h hx
      · exact h
    obtain ⟨s2, hok, hmap, -⟩ := hA hpm hn
    exact ⟨hpm, hn, s2, hok, hmap⟩
  · intro hc
    rw [hpart, h3 _ (by
      rintro ⟨hp, hn⟩
      rcases hc with h | h
      · exact h hp
      · omega)]
    exact ⟨_, rfl, (syncAndCommit_fields env _).2.1, (syncAndCommit_fields env _).1⟩
  · intro err herr
    rw [hpart] at herr
    by_cases hp : (partitionLoop env mg s baseLvl elementThreshold).m_procMap = []
    · rcases Nat.lt_trichotomy
        (partitionLoop env mg s baseLvl elementThreshold).m_sh.num_subsets 1 with hn | hn | hn
      · rw [h3 _ (by omega)] at herr
        cases herr
      · rw [h1 _ hp hn] at herr
        cases herr
      · rw [h2 _ hp hn] at herr
        simp only [Except.error.injEq] at herr
        exact ⟨herr.symm, hp, hn⟩
    · rw [h3 _ (fun h => hp h.1)] at herr
      cases herr

/-- Witness of C10: on the example state with ratchet 1 no level is split,
the loop leaves an empty process map and the single subset 0, and
`partition` returns with the process map holding the local rank 7. -/
theorem C10_fallback_process_map_witness :
    exStateRedist.m_mg = some exMesh ∧
    (partitionLoop exEnv exMesh exStateRedist 0 0).m_procMap = [] ∧
    (partitionLoop exEnv exMesh exStateRedist 0 0).m_sh.num_subsets = 1 ∧
    ∃ s2, partition exEnv exStateRedist 0 0 = Except.ok s2 ∧
      s2.m_procMap = [7] ∧
      s2.m_sh = (partitionLoop exEnv exMesh exStateRedist 0 0).m_sh :=
  ⟨rfl, by decide, by decide,
    (C10_fallback_process_map exEnv exStateRedist exMesh 0 0 rfl).1 (by decide) (by decide)⟩

/-! ## The topology slots -/

/-- The two topology slots pass through a round of the loop untouched and
are not read by it. -/
theorem processLevel_set_topology (env : Env) (mg : MultiGrid) (procH : ProcessHierarchy)
    (b t : Nat) (s : Partitioner_Bisection) (h : Nat) (cur : ProcessHierarchy)
    (nxt : Option ProcessHierarchy) :
    processLevel env mg procH b t
        { s with m_processHierarchy := cur, m_nextProcessHierarchy := nxt } h =
      { processLevel env mg procH b t s h with
        m_processHierarchy := cur, m_nextProcessHierarchy := nxt } := by
  unfold processLevel
  simp only
  split_ifs <;> rfl

theorem loopUpTo_set_topology (env : Env) (mg : MultiGrid) (procH : ProcessHierarchy)
    (b t : Nat) (s : Partitioner_Bisection) (cur : ProcessHierarchy)
    (nxt : Option ProcessHierarchy) (k : Nat) :
    loopUpTo env mg procH b t
        { s with m_processHierarchy := cur, m_nextProcessHierarchy := nxt } k =
      { loopUpTo env mg procH b t s k with
        m_processHierarchy := cur, m_nextProcessHierarchy := nxt } := by
  induction k with
  | zero => rfl
  | succ k ih => rw [loopUpTo_succ, loopUpTo_succ, ih, processLevel_set_topology]

/-- C11: when `partition` completes successfully and a topology `T` was
staged, `current_process_hierarchy()` afterwards is `T` and
`next_process_hierarchy()` is empty; when nothing was staged the current
topology is unchanged and the staged slot stays empty. -/
theorem C11_commit_staged_topology (env : Env) (s : Partitioner_Bisection) (mg : MultiGrid)
    (baseLvl elementThreshold : Nat) (hmg : s.m_mg = some mg) :
    ∃ s2, partition env s baseLvl elementThreshold = Except.ok s2 ∧
      (∀ T, s.next_process_hierarchy = some T →
        s2.current_process_hierarchy = T ∧ s2.next_process_hierarchy = none) ∧
      (s.next_process_hierarchy = none →
        s2.current_process_hierarchy = s.current_process_hierarchy ∧
        s2.next_process_hierarchy = none) := by
  obtain ⟨s2, hok, -, -, -, -, hact, hnext, -⟩ :=
    partition_result env mg s baseLvl elementThreshold hmg
  have hcur : s2.m_processHierarchy = activeHierarchy s := by
    rw [← hact]
    unfold activeHierarchy
    rw [hnext]
  refine ⟨s2, hok, ?_, ?_⟩
  · intro T hT
    refine ⟨?_, hnext⟩
    show s2.m_processHierarchy = T
    rw [hcur]
    unfold activeHierarchy
    rw [show s.m_nextProcessHierarchy = some T from hT]
  · intro hnone
    refine ⟨?_, hnext⟩
    show s2.m_processHierarchy = s.m_processHierarchy
    rw [hcur]
    unfold activeHierarchy
    rw [show s.m_nextProcessHierarchy = none from hnone]

/-- Witness of C11: the example state, in which `exTopo` is staged. -/
theorem C11_commit_staged_topology_witness :
    exState.m_mg = some exMesh ∧
    ∃ s2, partition exEnv exState 0 0 = Except.ok s2 ∧
      (∀ T, exState.next_process_hierarchy = some T →
        s2.current_process_hierarchy = T ∧ s2.next_process_hierarchy = none) ∧
      (exState.next_process_hierarchy = none →
        s2.current_process_hierarchy = exState.current_process_hierarchy ∧
        s2.next_process_hierarchy = none) :=
  ⟨rfl, C11_commit_staged_topology exEnv exState exMesh 0 0 rfl⟩

/-- C12: `partition` works on the staged topology if one is present and on
the current one otherwise: on a partitioner with current topology `C` and
staged topology `T` it gives the same result (assignment, process map,
ratchet, and all other members) as on the partitioner with current topology
`T` and nothing staged; with nothing staged it works on the current
topology. -/
theorem C12_staged_topology_is_used (env : Env) (s : Partitioner_Bisection)
    (C T : ProcessHierarchy) (baseLvl elementThreshold : Nat) :
    partition env { s with m_processHierarchy := C, m_nextProcessHierarchy := some T }
        baseLvl elementThreshold =
      partition env { s with m_processHierarchy := T, m_nextProcessHierarchy := none }
        baseLvl elementThreshold ∧
    activeHierarchy { s with m_processHierarchy := C, m_nextProcessHierarchy := some T } = T ∧
    activeHierarchy { s with m_processHierarchy := T, m_nextProcessHierarchy := none } = T := by
  refine ⟨?_, rfl, rfl⟩
  rcases Option.eq_none_or_eq_some s.m_mg with hmg | ⟨mg, hmg⟩
  · unfold partition
    simp only [hmg]
  · rw [partition_eq env mg { s with m_processHierarchy := C, m_nextProcessHierarchy := some T }
        baseLvl elementThreshold hmg,
      partition_eq env mg { s with m_processHierarchy := T, m_nextProcessHierarchy := none }
        baseLvl elementThreshold hmg]
    have hloop : ∀ (cur : ProcessHierarchy) (nxt : Option ProcessHierarchy),
        activeHierarchy { s with m_processHierarchy := cur, m_nextProcessHierarchy := nxt } = T →
        partitionLoop env mg { s with m_processHierarchy := cur, m_nextProcessHierarchy := nxt }
            baseLvl elementThreshold =
          { loopUpTo env mg T baseLvl elementThreshold
              { s with m_sh := assignLevels mg SubsetHandler.clear (firstLevels baseLvl),
                       m_procMap := [] } T.num_hierarchy_levels with
            m_processHierarchy := cur, m_nextProcessHierarchy := nxt } := by
      intro cur nxt hact
      rw [partitionLoop_eq, hact]
      exact loopUpTo_set_topology env mg T baseLvl elementThreshold
        { s with m_sh := assignLevels mg SubsetHandler.clear (firstLevels baseLvl),
                 m_procMap := [] } cur nxt _
    have h1 := hloop C (some T) rfl
    have h2 := hloop T none rfl
    have hr : resultProcMap env mg
          { s with m_processHierarchy := C, m_nextProcessHierarchy := some T }
          baseLvl elementThreshold =
        resultProcMap env mg
          { s with m_processHierarchy := T, m_nextProcessHierarchy := none }
          baseLvl elementThreshold := by
      unfold resultProcMap
      rw [h1, h2]
      rfl
    rw [hr, h1, h2]
    rfl

/-- C18: the setters of the bisection partitioner take no immediate effect.
Both capability probes return false, `set_balance_weights` and
`set_connection_weights` return the state unchanged, and
`set_next_process_hierarchy(T)` changes the staged slot only: the current
topology, the partition assignment, the process map, the ratchet, the bound
mesh and the clustering flag stay as they are. -/
theorem C18_setters_take_no_immediate_effect (s : Partitioner_Bisection) (W : Type) (w : W)
    (T : Option ProcessHierarchy) :
    s.supports_balance_weights = false ∧ s.supports_connection_weights = false ∧
    s.set_balance_weights w = s ∧ s.set_connection_weights w = s ∧
    (s.set_next_process_hierarchy T).next_process_hierarchy = T ∧
    (s.set_next_process_hierarchy T).current_process_hierarchy = s.current_process_hierarchy ∧
    (s.set_next_process_hierarchy T).get_partitions = s.get_partitions ∧
    (s.set_next_process_hierarchy T).get_process_map = s.get_process_map ∧
    (s.set_next_process_hierarchy T).m_highestRedistLevel = s.m_highestRedistLevel ∧
    (s.set_next_process_hierarchy T).m_mg = s.m_mg ∧
    (s.set_next_process_hierarchy T).m_clusteredSiblings = s.m_clusteredSiblings :=
  ⟨rfl, rfl, rfl, rfl, rfl, rfl, rfl, rfl, rfl, rfl, rfl⟩

/-! ## Sibling clustering and propagation: the values they write -/

theorem MultiGrid.UniqueParent.parent_eq {mg : MultiGrid} (hup : mg.UniqueParent) {l : Nat}
    {p q c : Elem} (hp : p ∈ mg.elems l) (hq : q ∈ mg.elems l) (hcp : c ∈ mg.children p)
    (hcq : c ∈ mg.children q) : p = q :=
  hup l (MultiGrid.lt_length_of_mem hp) p hp q hq c hcp hcq

theorem foldl_assign_fun_value (g : Elem → Int) (es : List Elem) (sh : SubsetHandler) {x : Elem}
    (hx : x ∈ es) :
    (es.foldl (fun acc e => acc.assign_subset e (g e)) sh).subsetIndex x = g x := by
  induction es generalizing sh with
  | nil => simp at hx
  | cons a t ih =>
    simp only [List.foldl_cons]
    by_cases hxt : x ∈ t
    · exact ih _ hxt
    · have hxa : x = a := by
        rcases List.mem_cons.mp hx with h | h
        · exact h
        · exact absurd h hxt
      subst hxa
      rw [foldl_frame _ x t
        (fun b _ ha => SubsetHandler.assign_subset_other b _ (fun h => hxt (h ▸ ha)))]
      exact SubsetHandler.assign_subset_same _ _ _

/-- The splitter call leaves at every element of the level the index the
splitter gives it. -/
theorem applySplitter_value (env : Env) (mg : MultiGrid) (sh : SubsetHandler) (lvl n : Nat)
    {x : Elem} (hx : x ∈ mg.elems lvl) :
    (applySplitter env mg sh lvl n).subsetIndex x = env.splitter (mg.elems lvl) n x :=
  foldl_assign_fun_value _ (mg.elems lvl) sh hx

/-- After the sibling step for parent `p` all children of `p` carry the index
its first child had before. -/
theorem clusterChildren_children (mg : MultiGrid) (sh : SubsetHandler) (p : Elem) {c0 c : Elem}
    (h0 : (mg.children p).head? = some c0) (hc : c ∈ mg.children p) :
    (clusterChildren mg sh p).subsetIndex c = sh.subsetIndex c0 := by
  unfold clusterChildren
  split
  · next d0 d1 ds heq =>
    rw [heq] at h0 hc
    have hd : d0 = c0 := by simpa using h0
    subst hd
    simp only [SubsetHandler.get_subset_index]
    by_cases hct : c ∈ d1 :: ds
    · exact assign_list_mem sh _ _ hct
    · have hcd : c = d0 := by
        rcases List.mem_cons.mp hc with h | h
        · exact h
        · exact absurd h hct
      rw [assign_list_not_mem sh _ _ hct, hcd]
  · next hne =>
    cases hch : mg.children p with
    | nil => rw [hch] at hc; simp at hc
    | cons d0 ds =>
      cases ds with
      | nil =>
        rw [hch] at h0 hc
        have hd : d0 = c0 := by simpa using h0
        have hcd : c = d0 := by simpa using hc
        rw [hcd, hd]
      | cons d1 ds2 => exact absurd hch (hne d0 d1 ds2)

/-- After the sibling loop over parents none of which shares a child with
another, all children of each parent carry the index the first child of that
parent had before the loop. -/
theorem foldl_clusterChildren_children (mg : MultiGrid) (ps : List Elem)
    (hup : ∀ p ∈ ps, ∀ q ∈ ps, ∀ c ∈ mg.children p, c ∈ mg.children q → p = q)
    (sh : SubsetHandler) {p c0 c : Elem} (hp : p ∈ ps)
    (h0 : (mg.children p).head? = some c0) (hc : c ∈ mg.children p) :
    (ps.foldl (clusterChildren mg) sh).subsetIndex c = sh.subsetIndex c0 := by
  induction ps generalizing sh with
  | nil => simp at hp
  | cons a t ih =>
    simp only [List.foldl_cons]
    have hc0 : c0 ∈ mg.children p := List.mem_of_mem_head? h0
    have hupt : ∀ p ∈ t, ∀ q ∈ t, ∀ c ∈ mg.children p, c ∈ mg.children q → p = q :=
      fun p hp q hq => hup p (List.mem_cons_of_mem _ hp) q (List.mem_cons_of_mem _ hq)
    by_cases hpt : p ∈ t
    · rw [ih hupt _ hpt]
      by_cases hpa : p = a
      · subst hpa
        exact clusterChildren_children mg sh p h0 hc0
      · apply clusterChildren_frame
        intro hmem
        exact hpa (hup p hp a (List.mem_cons_self _ _) c0 hc0 hmem)
    · have hpa : p = a := by
        rcases List.mem_cons.mp hp with h | h
        · exact h
        · exact absurd h hpt
      subst hpa
      rw [foldl_frame _ c t]
      · exact clusterChildren_children mg sh p h0 hc
      · intro b q hq
        apply clusterChildren_frame
        intro hmem
        have := hup p hp q (List.mem_cons_of_mem _ hq) c hc hmem
        exact hpt (this ▸ hq)

/-- After the propagation loop over elements none of which is a child of
another or shares a child with another, every child carries the index its
parent had before the loop, and the elements themselves keep theirs. -/
theorem foldl_assignChildren_value (mg : MultiGrid) (es : List Elem)
    (hno : ∀ q ∈ es, ∀ x ∈ es, x ∉ mg.children q)
    (hup : ∀ p ∈ es, ∀ q ∈ es, ∀ c ∈ mg.children p, c ∈ mg.children q → p = q)
    (sh : SubsetHandler) :
    (∀ x ∈ es, (es.foldl (assignChildren mg) sh).subsetIndex x = sh.subsetIndex x) ∧
    ∀ p ∈ es, ∀ c ∈ mg.children p,
      (es.foldl (assignChildren mg) sh).subsetIndex c = sh.subsetIndex p := by
  constructor
  · intro x hx
    exact foldl_frame _ x es (fun b q hq => assignChildren_frame mg b q (hno q hq x hx)) sh
  · induction es generalizing sh with
    | nil => intro p hp; simp at hp
    | cons a t ih =>
      intro p hp c hc
      simp only [List.foldl_cons]
      have hnot : ∀ q ∈ t, ∀ x ∈ t, x ∉ mg.children q :=
        fun q hq x hx => hno q (List.mem_cons_of_mem _ hq) x (List.mem_cons_of_mem _ hx)
      have hupt : ∀ p ∈ t, ∀ q ∈ t, ∀ c ∈ mg.children p, c ∈ mg.children q → p = q :=
        fun p hp q hq => hup p (List.mem_cons_of_mem _ hp) q (List.mem_cons_of_mem _ hq)
      by_cases hpt : p ∈ t
      · rw [ih hnot hupt _ p hpt c hc]
        exact assignChildren_frame mg sh a (hno a (List.mem_cons_self _ _) p hp)
      · have hpa : p = a := by
          rcases List.mem_cons.mp hp with h | h
          · exact h
          · exact absurd h hpt
        subst hpa
        rw [foldl_frame _ c t]
        · exact assignChildren_mem mg sh p hc
        · intro b q hq
          apply assignChildren_frame
          intro hmem
          have := hup p hp q (List.mem_cons_of_mem _ hq) c hc hmem
          exact hpt (this ▸ hq)

theorem propagateLevel_value (mg : MultiGrid) (hwf : mg.WF) (hup : mg.UniqueParent)
    (sh : SubsetHandler) (l : Nat) :
    (∀ x ∈ mg.elems l, (propagateLevel mg sh l).subsetIndex x = sh.subsetIndex x) ∧
    ∀ p ∈ mg.elems l, ∀ c ∈ mg.children p,
      (propagateLevel mg sh l).subsetIndex c = sh.subsetIndex p := by
  apply foldl_assignChildren_value
  · intro q hq x hx hmem
    have := hwf.level_unique hx (hwf.child_level hq hmem)
    omega
  · intro p hp q hq c hcp hcq
    exact hup.parent_eq hp hq hcp hcq

/-- After the propagation passes over the levels `lo, .., lo + n - 1` every
child of an element of these levels carries the index of its parent. -/
theorem foldl_propagateLevel_value (mg : MultiGrid) (hwf : mg.WF) (hup : mg.UniqueParent)
    (n : Nat) :
    ∀ (lo : Nat) (sh : SubsetHandler) (l : Nat), lo ≤ l → l < lo + n →
      ∀ p ∈ mg.elems l, ∀ c ∈ mg.children p,
        ((List.range' lo n).foldl (propagateLevel mg) sh).subsetIndex c =
          ((List.range' lo n).foldl (propagateLevel mg) sh).subsetIndex p := by
  induction n with
  | zero => intro lo sh l h1 h2; omega
  | succ n ih =>
    intro lo sh l h1 h2 p hp c hc
    have hunf : (List.range' lo (n + 1)).foldl (propagateLevel mg) sh =
        (List.range' (lo + 1) n).foldl (propagateLevel mg) (propagateLevel mg sh lo) := by
      simp [List.range'_succ]
    rw [hunf]
    by_cases hl : l = lo
    · subst hl
      obtain ⟨hkeep, hval⟩ := propagateLevel_value mg hwf hup sh l
      have hframe : ∀ x l0, x ∈ mg.elems l0 → l0 ≤ l + 1 →
          ((List.range' (l + 1) n).foldl (propagateLevel mg) (propagateLevel mg sh l)).subsetIndex x
            = (propagateLevel mg sh l).subsetIndex x := by
        intro x l0 hx hl0
        apply foldl_frame
        intro b l2 hl2
        apply propagateLevel_frame
        intro q hq hmem
        have := hwf.level_unique hx (hwf.child_level hq hmem)
        have := (List.mem_range'_1.mp hl2).1
        omega
      rw [hframe c (l + 1) (hwf.child_level hp hc) (le_refl _), hframe p l hp (by omega),
        hval p hp c hc, hkeep p hp]
    · exact ih (lo + 1) _ l (by omega) (by omega) p hp c hc

theorem propagate_value (mg : MultiGrid) (hwf : mg.WF) (hup : mg.UniqueParent)
    (sh : SubsetHandler) (lo : Nat) (hi : Int) (l : Nat) (h1 : lo ≤ l) (h2 : (l : Int) < hi)
    {p c : Elem} (hp : p ∈ mg.elems l) (hc : c ∈ mg.children p) :
    (propagate mg sh lo hi).subsetIndex c = (propagate mg sh lo hi).subsetIndex p :=
  foldl_propagateLevel_value mg hwf hup (hi - lo).toNat lo sh l h1 (by omega) p hp c hc

/-- The subset handler right after the round of a hierarchy level that is
split: the split of its window, applied to the handler the round found. -/
theorem round_split_sh (env : Env) (mg : MultiGrid) (s : Partitioner_Bisection) (b t h : Nat)
    (hsplit : branch mg (activeHierarchy s) b t s.m_highestRedistLevel h = Branch.split) :
    (processLevel env mg (activeHierarchy s) b t
      (loopUpTo env mg (activeHierarchy s) b t
        { s with m_sh := assignLevels mg SubsetHandler.clear (firstLevels b), m_procMap := [] }
        h) h).m_sh =
    splitWindow env mg s.m_clusteredSiblings
      (loopUpTo env mg (activeHierarchy s) b t
        { s with m_sh := assignLevels mg SubsetHandler.clear (firstLevels b), m_procMap := [] }
        h).m_sh
      (minLvl (activeHierarchy s) b h) (maxLvl (activeHierarchy s) mg h)
      ((activeHierarchy s).cluster_procs h).length := by
  have hbr := branch_loopUpTo env mg (activeHierarchy s) b t
    { s with m_sh := assignLevels mg SubsetHandler.clear (firstLevels b), m_procMap := [] } h
  simp only at hbr
  rw [← hbr] at hsplit
  rw [processLevel_of_split env mg _ b t _ h hsplit]
  simp only
  rw [(loopUpTo_fields env mg (activeHierarchy s) b t
    { s with m_sh := assignLevels mg SubsetHandler.clear (firstLevels b), m_procMap := [] }
    h).2.2.2]

/-- An element reached by `k` parent-to-child steps lives `k` levels up. -/
theorem descendant_level (mg : MultiGrid) (hwf : mg.WF) {l : Nat} {a : Elem}
    (ha : a ∈ mg.elems l) {k : Nat} {c : Elem} (hd : Descendant mg a k c) :
    c ∈ mg.elems (l + k) := by
  induction hd with
  | self => simpa using ha
  | child _ hc ih => exact hwf.child_level ih hc

theorem foldl_min_le {α : Type} [LinearOrder α] (l : List α) (v : α) :
    l.foldl min v ≤ v ∧ ∀ x ∈ l, l.foldl min v ≤ x := by
  induction l generalizing v with
  | nil => simp
  | cons a t ih =>
    simp only [List.foldl_cons]
    obtain ⟨h1, h2⟩ := ih (min v a)
    refine ⟨le_trans h1 (min_le_left _ _), ?_⟩
    intro x hx
    rcases List.mem_cons.mp hx with h | h
    · rw [h]; exact le_trans h1 (min_le_right _ _)
    · exact h2 x h

theorem foldl_min_mem {α : Type} [LinearOrder α] (l : List α) (v : α) :
    l.foldl min v = v ∨ l.foldl min v ∈ l := by
  induction l generalizing v with
  | nil => simp
  | cons a t ih =>
    simp only [List.foldl_cons]
    rcases ih (min v a) with h | h
    · rw [h]
      rcases min_choice v a with hc | hc
      · exact Or.inl hc
      · right; rw [hc]; exact List.mem_cons_self _ _
    · exact Or.inr (List.mem_cons_of_mem _ h)

theorem le_foldl_max {α : Type} [LinearOrder α] (l : List α) (v : α) :
    v ≤ l.foldl max v ∧ ∀ x ∈ l, x ≤ l.foldl max v := by
  induction l generalizing v with
  | nil => simp
  | cons a t ih =>
    simp only [List.foldl_cons]
    obtain ⟨h1, h2⟩ := ih (max v a)
    refine ⟨le_trans (le_max_left _ _) h1, ?_⟩
    intro x hx
    rcases List.mem_cons.mp hx with h | h
    · rw [h]; exact le_trans (le_max_right _ _) h1
    · exact h2 x h

theorem foldl_max_mem {α : Type} [LinearOrder α] (l : List α) (v : α) :
    l.foldl max v = v ∨ l.foldl max v ∈ l := by
  induction l generalizing v with
  | nil => simp
  | cons a t ih =>
    simp only [List.foldl_cons]
    rcases ih (max v a) with h | h
    · rw [h]
      rcases max_choice v a with hc | hc
      · exact Or.inl hc
      · right; rw [hc]; exact List.mem_cons_self _ _
    · exact Or.inr (List.mem_cons_of_mem _ h)

/-- A property of the local value and of all contributed values holds of
the reduced minimum. -/
theorem foldl_min_prop {α : Type} [LinearOrder α] (P : α → Prop) (l : List α) (v : α)
    (hv : P v) (hl : ∀ x ∈ l, P x) : P (l.foldl min v) := by
  rcases foldl_min_mem l v with h | h
  · rw [h]; exact hv
  · exact hl _ h

/-! ## Weights and per-level quality -/

theorem QProc.localWeight_eq_count (q : QProc) (lvl : Nat) :
    q.localWeight lvl = (((q.mg.elems lvl).filter (fun e => !q.is_ghost e)).length : Int) := by
  unfold QProc.localWeight
  have hgen : ∀ (es : List Elem) (w : Int),
      es.foldl (fun w e => if q.is_ghost e then w else w + 1) w =
        w + ((es.filter (fun e => !q.is_ghost e)).length : Int) := by
    intro es
    induction es with
    | nil => intro w; simp
    | cons a t ih =>
      intro w
      simp only [List.foldl_cons, List.filter_cons]
      rw [ih]
      cases hg : q.is_ghost a
      · simp; omega
      · simp
  rw [hgen]
  simp

theorem QProc.localWeight_nonneg (q : QProc) (lvl : Nat) : 0 ≤ q.localWeight lvl := by
  rw [q.localWeight_eq_count]
  exact Int.natCast_nonneg _

theorem levelMinWeight_nonneg (world : List QProc) (p : QProc) (lvl : Nat) :
    0 ≤ levelMinWeight world p lvl := by
  unfold levelMinWeight allreduceMin
  apply foldl_min_prop (fun v => 0 ≤ v)
  · exact p.localWeight_nonneg lvl
  · intro x hx
    obtain ⟨q, -, rfl⟩ := List.mem_map.mp hx
    exact q.localWeight_nonneg lvl

theorem levelMinWeight_le_max (world : List QProc) (p : QProc) (lvl : Nat) :
    levelMinWeight world p lvl ≤ levelMaxWeight world p lvl := by
  unfold levelMinWeight levelMaxWeight allreduceMin allreduceMax
  exact le_trans (foldl_min_le _ _).1 (le_foldl_max _ _).1

/-- The quotient computed for a level with positive maximum lies in [0, 1]. -/
theorem quotient_bounds (world : List QProc) (p : QProc) (lvl : Nat)
    (hmax : levelMaxWeight world p lvl > 0) :
    0 ≤ (levelMinWeight world p lvl : ℚ) / (levelMaxWeight world p lvl : ℚ) ∧
    (levelMinWeight world p lvl : ℚ) / (levelMaxWeight world p lvl : ℚ) ≤ 1 := by
  have h0 : (0 : ℚ) ≤ (levelMinWeight world p lvl : ℚ) := by
    exact_mod_cast levelMinWeight_nonneg world p lvl
  have h1 : (0 : ℚ) < (levelMaxWeight world p lvl : ℚ) := by exact_mod_cast hmax
  have h2 : (levelMinWeight world p lvl : ℚ) ≤ (levelMaxWeight world p lvl : ℚ) := by
    exact_mod_cast levelMinWeight_le_max world p lvl
  exact ⟨div_nonneg h0 (le_of_lt h1), (div_le_one h1).mpr h2⟩

theorem levelQuality_bounds (world : List QProc) (p : QProc) (lvl : Nat) :
    levelQuality world p lvl = -1 ∨
      (0 ≤ levelQuality world p lvl ∧ levelQuality world p lvl ≤ 1) := by
  unfold levelQuality
  split_ifs with h1 h2 h3
  · right; norm_num
  · right; exact quotient_bounds world p lvl h3
  · left; rfl
  · left; rfl

/-- One round of the loop in terms of the per-level quality: the vector gets
the per-level quality, `minQuality` is lowered to it unless it is the
sentinel. -/
theorem qualityStep_eq (world : List QProc) (p : QProc) (a : ℚ) (o : Option (List ℚ))
    (lvl : Nat) (ha : a ≤ 1) :
    qualityStep world p (a, o) lvl =
      (if levelQuality world p lvl = -1 then a else min a (levelQuality world p lvl),
        pushBack o (levelQuality world p lvl)) := by
  by_cases h1 : p.procH.num_global_procs_involved (p.procH.hierarchy_level_from_grid_level lvl) ≤ 1
  · have hq : levelQuality world p lvl = 1 := by
      unfold levelQuality
      rw [if_pos h1]
    rw [hq]
    unfold qualityStep
    simp only
    rw [if_pos h1, if_neg (by norm_num), min_eq_left ha]
  · by_cases h2 : (comMembers world p (p.procH.hierarchy_level_from_grid_level lvl)).isEmpty = false
    · by_cases h3 : levelMaxWeight world p lvl > 0
      · have hq : levelQuality world p lvl =
            (levelMinWeight world p lvl : ℚ) / (levelMaxWeight world p lvl : ℚ) := by
          unfold levelQuality
          rw [if_neg h1, if_pos h2, if_pos h3]
        have hne : levelQuality world p lvl ≠ -1 := by
          rw [hq]
          intro h
          have := (quotient_bounds world p lvl h3).1
          rw [h] at this
          norm_num at this
        rw [if_neg hne, hq]
        unfold qualityStep
        simp only
        have h3b : allreduceMax (p.localWeight lvl)
            ((reducers world p lvl).map (fun q => q.localWeight lvl)) > 0 := h3
        rw [if_neg h1, if_pos h2, if_pos h3b]
        rfl
      · have hq : levelQuality world p lvl = -1 := by
          unfold levelQuality
          rw [if_neg h1, if_pos h2, if_neg h3]
        rw [hq, if_pos rfl]
        unfold qualityStep
        simp only
        have h3b : ¬ allreduceMax (p.localWeight lvl)
            ((reducers world p lvl).map (fun q => q.localWeight lvl)) > 0 := h3
        rw [if_neg h1, if_pos h2, if_neg h3b]
    · have hq : levelQuality world p lvl = -1 := by
        unfold levelQuality
        rw [if_neg h1, if_neg h2]
      rw [hq, if_pos rfl]
      unfold qualityStep
      simp only
      rw [if_neg h1, if_neg h2]

/-- The loop over mesh levels, started with `minQuality = a` and output
vector `o`: the vector gets the per-level qualities appended, `minQuality`
ends as the minimum of `a` and the per-level qualities other than the
sentinel, and does not depend on the vector. -/
theorem foldl_qualityStep (world : List QProc) (p : QProc) (lvls : List Nat) :
    ∀ (a : ℚ) (o : Option (List ℚ)), a ≤ 1 →
      (lvls.foldl (qualityStep world p) (a, o)).2 =
        o.map (fun l => l ++ lvls.map (levelQuality world p)) ∧
      (lvls.foldl (qualityStep world p) (a, o)).1 ≤ a ∧
      (0 ≤ a → 0 ≤ (lvls.foldl (qualityStep world p) (a, o)).1) ∧
      (∀ l ∈ lvls, levelQuality world p l ≠ -1 →
        (lvls.foldl (qualityStep world p) (a, o)).1 ≤ levelQuality world p l) ∧
      ((lvls.foldl (qualityStep world p) (a, o)).1 = a ∨
        ∃ l ∈ lvls, levelQuality world p l ≠ -1 ∧
          (lvls.foldl (qualityStep world p) (a, o)).1 = levelQuality world p l) ∧
      (lvls.foldl (qualityStep world p) (a, o)).1 =
        (lvls.foldl (qualityStep world p) (a, none)).1 := by
  induction lvls with
  | nil =>
    intro a o _
    refine ⟨?_, le_refl _, fun h => h, fun l hl => by simp at hl, Or.inl rfl, rfl⟩
    cases o <;> simp
  | cons l0 t ih =>
    intro a o ha
    simp only [List.foldl_cons]
    rw [qualityStep_eq world p a o l0 ha, qualityStep_eq world p a none l0 ha]
    have ha2 : (if levelQuality world p l0 = -1 then a else min a (levelQuality world p l0)) ≤ a := by
      split_ifs
      · exact le_refl _
      · exact min_le_left _ _
    obtain ⟨i1, i2, i3, i4, i5, i6⟩ := ih
      (if levelQuality world p l0 = -1 then a else min a (levelQuality world p l0))
      (pushBack o (levelQuality world p l0)) (le_trans ha2 ha)
    have i6n := (ih (if levelQuality world p l0 = -1 then a else min a (levelQuality world p l0))
      (pushBack none (levelQuality world p l0)) (le_trans ha2 ha)).2.2.2.2.2
    refine ⟨?_, le_trans i2 ha2, ?_, ?_, ?_, ?_⟩
    · rw [i1]
      cases o <;> simp [pushBack]
    · intro h0
      apply i3
      split_ifs with hq
      · exact h0
      · rcases levelQuality_bounds world p l0 with hb | hb
        · exact absurd hb hq
        · exact le_min h0 hb.1
    · intro l hl hne
      rcases List.mem_cons.mp hl with h | h
      · subst h
        refine le_trans i2 ?_
        rw [if_neg hne]
        exact min_le_right _ _
      · exact i4 l h hne
    · rcases i5 with h | ⟨l, hl, hne, h⟩
      · rw [h]
        split_ifs with hq
        · exact Or.inl rfl
        · rcases min_choice a (levelQuality world p l0) with hc | hc
          · exact Or.inl hc
          · exact Or.inr ⟨l0, List.mem_cons_self _ _, hq, hc⟩
      · exact Or.inr ⟨l, List.mem_cons_of_mem _ hl, hne, h⟩
    · rw [i6, i6n]

/-- The value `minQuality` of a process after its loop. -/
theorem estimateLocal_spec (world : List QProc) (p : QProc) (out : Option (List ℚ)) :
    (estimateLocal world p out).2 =
      out.map (fun _ => (List.range p.mg.num_levels).map (levelQuality world p)) ∧
    0 ≤ (estimateLocal world p out).1 ∧ (estimateLocal world p out).1 ≤ 1 ∧
    (∀ l, l < p.mg.num_levels → levelQuality world p l ≠ -1 →
      (estimateLocal world p out).1 ≤ levelQuality world p l) ∧
    ((estimateLocal world p out).1 = 1 ∨
      ∃ l, l < p.mg.num_levels ∧ levelQuality world p l ≠ -1 ∧
        (estimateLocal world p out).1 = levelQuality world p l) ∧
    (estimateLocal world p out).1 = (estimateLocal world p none).1 := by
  unfold estimateLocal
  obtain ⟨h1, h2, h3, h4, h5, h6⟩ := foldl_qualityStep world p (List.range p.mg.num_levels) 1
    (out.map (fun _ => [])) (le_refl _)
  refine ⟨?_, h3 (by norm_num), h2, ?_, ?_, ?_⟩
  · rw [h1]
    cases out <;> simp
  · intro l hl hne
    exact h4 l (List.mem_range.mpr hl) hne
  · rcases h5 with h | ⟨l, hl, hne, h⟩
    · exact Or.inl h
    · exact Or.inr ⟨l, List.mem_range.mp hl, hne, h⟩
  · rw [h6]
    rfl

theorem allReturn_iff (world : List QProc) :
    allReturn world = true ↔ ∀ q ∈ world, loopReturns world q = true := by
  unfold allReturn
  rw [List.all_eq_true]

/-- A result of the estimate: the loops of all processes reach their end,
the value is the minimum over the processes of their `minQuality`, the
vector holds the per-level qualities. -/
theorem estimateQuality_some {world : List QProc} {p : QProc} {out : Option (List ℚ)}
    {r : ℚ × Option (List ℚ)} (h : estimateQuality world p out = some r) :
    loopReturns world p = true ∧ allReturn world = true ∧
    r.1 = allreduceMinQ (estimateLocal world p none).1
      (world.map (fun q => (estimateLocal world q none).1)) ∧
    r.2 = out.map (fun _ => (List.range p.mg.num_levels).map (levelQuality world p)) := by
  unfold estimateQuality at h
  split_ifs at h with hc
  rw [Bool.and_eq_true] at hc
  simp only [Option.some.injEq] at h
  rw [← h]
  refine ⟨hc.1, hc.2, ?_, (estimateLocal_spec world p out).1⟩
  simp only
  rw [(estimateLocal_spec world p out).2.2.2.2.2]

/-- The estimate has a result when the loops of all processes reach their
end. -/
theorem estimateQuality_returns (world : List QProc) (p : QProc) (out : Option (List ℚ))
    (hpw : p ∈ world) (hret : allReturn world = true) :
    estimateQuality world p out =
      some (allreduceMinQ (estimateLocal world p none).1
          (world.map (fun q => (estimateLocal world q none).1)),
        out.map (fun _ => (List.range p.mg.num_levels).map (levelQuality world p))) := by
  have hp : loopReturns world p = true := (allReturn_iff world).mp hret p hpw
  unfold estimateQuality
  rw [hp, hret]
  simp only [Bool.and_self, if_true]
  rw [(estimateLocal_spec world p out).2.2.2.2.2, (estimateLocal_spec world p out).1]

/-- The method on a partitioner with a bound mesh. -/
theorem estimate_distribution_quality_eq (s : Partitioner_Bisection) (mg : MultiGrid)
    (hmg : s.m_mg = some mg) (rank : Int) (is_ghost : Elem → Bool) (peers : List QProc)
    (out : Option (List ℚ)) :
    s.estimate_distribution_quality rank is_ghost peers out =
      (estimateQuality (s.asProc mg rank is_ghost :: peers) (s.asProc mg rank is_ghost)
        out).map (fun r => (r.1, r.2, s)) := by
  unfold Partitioner_Bisection.estimate_distribution_quality
  rw [hmg]
  simp only
  cases estimateQuality (s.asProc mg rank is_ghost :: peers) (s.asProc mg rank is_ghost) out
    <;> rfl

/-- A result of the method: the state handed back is the state of the
call, value and vector are those of `estimateQuality`. -/
theorem estimate_distribution_quality_some {s : Partitioner_Bisection} {mg : MultiGrid}
    (hmg : s.m_mg = some mg) {rank : Int} {is_ghost : Elem → Bool} {peers : List QProc}
    {out : Option (List ℚ)} {r : ℚ × Option (List ℚ) × Partitioner_Bisection}
    (h : s.estimate_distribution_quality rank is_ghost peers out = some r) :
    r.2.2 = s ∧
    estimateQuality (s.asProc mg rank is_ghost :: peers) (s.asProc mg rank is_ghost) out =
      some (r.1, r.2.1) := by
  rw [estimate_distribution_quality_eq s mg hmg] at h
  cases he : estimateQuality (s.asProc mg rank is_ghost :: peers) (s.asProc mg rank is_ghost)
      out with
  | none => rw [he] at h; cases h
  | some r2 =>
    rw [he] at h
    simp only [Option.map_some', Option.some.injEq] at h
    rw [← h]
    exact ⟨rfl, rfl⟩

theorem localValue_bounds (world : List QProc) (p : QProc) :
    0 ≤ allreduceMinQ (estimateLocal world p none).1
        (world.map (fun q => (estimateLocal world q none).1)) ∧
    allreduceMinQ (estimateLocal world p none).1
        (world.map (fun q => (estimateLocal world q none).1)) ≤ 1 := by
  unfold allreduceMinQ
  apply foldl_min_prop (fun v => 0 ≤ v ∧ v ≤ 1)
  · exact ⟨(estimateLocal_spec world p none).2.1, (estimateLocal_spec world p none).2.2.1⟩
  · intro x hx
    obtain ⟨q, -, rfl⟩ := List.mem_map.mp hx
    exact ⟨(estimateLocal_spec world q none).2.1, (estimateLocal_spec world q none).2.2.1⟩

/-- C13: whenever `estimate_distribution_quality` returns, whatever the
mesh, the topology and the other processes, the value returned lies in
[0, 1] and every entry written to the optional per-level output is the
sentinel -1 or lies in [0, 1] (counts are exact integers, the quotient an
exact rational). It returns when the loops of all processes reach their
end, that is when the processes of every communicator make the same
reductions. -/
theorem C13_quality_in_unit_interval (s : Partitioner_Bisection) (mg : MultiGrid)
    (hmg : s.m_mg = some mg) (rank : Int) (is_ghost : Elem → Bool) (peers : List QProc)
    (out : Option (List ℚ)) :
    (∀ r, s.estimate_distribution_quality rank is_ghost peers out = some r →
      0 ≤ r.1 ∧ r.1 ≤ 1 ∧
      ∀ l, r.2.1 = some l → ∀ x ∈ l, x = -1 ∨ (0 ≤ x ∧ x ≤ 1)) ∧
    (allReturn (s.asProc mg rank is_ghost :: peers) = true →
      ∃ r, s.estimate_distribution_quality rank is_ghost peers out = some r) := by
  constructor
  · intro r hr
    obtain ⟨-, he⟩ := estimate_distribution_quality_some hmg hr
    obtain ⟨-, -, h1, h2⟩ := estimateQuality_some he
    simp only at h1 h2
    rw [h1]
    refine ⟨(localValue_bounds _ _).1, (localValue_bounds _ _).2, ?_⟩
    intro l hl x hx
    rw [h2] at hl
    cases out with
    | none => simp at hl
    | some o =>
      simp only [Option.map_some', Option.some.injEq] at hl
      subst hl
      obtain ⟨lvl, -, rfl⟩ := List.mem_map.mp hx
      exact levelQuality_bounds _ _ lvl
  · intro hret
    rw [estimate_distribution_quality_eq s mg hmg,
      estimateQuality_returns _ _ out (List.mem_cons_self _ _) hret]
    exact ⟨_, rfl⟩

/-- Witness of C13: the example state on rank 0, no ghosts, with a second
process of rank 1 that has the same topology and as many mesh levels. -/
theorem C13_quality_in_unit_interval_witness :
    exState.m_mg = some exMesh ∧
    allReturn (exState.asProc exMesh 0 (fun _ => false) :: [exPeer]) = true ∧
    ∃ r, exState.estimate_distribution_quality 0 (fun _ => false) [exPeer] (some []) = some r ∧
      0 ≤ r.1 ∧ r.1 ≤ 1 ∧
      ∀ l, r.2.1 = some l → ∀ x ∈ l, x = -1 ∨ (0 ≤ x ∧ x ≤ 1) := by
  refine ⟨rfl, by decide, ?_⟩
  obtain ⟨r, hr⟩ := (C13_quality_in_unit_interval exState exMesh rfl 0 (fun _ => false)
    [exPeer] (some [])).2 (by decide)
  exact ⟨r, hr, (C13_quality_in_unit_interval exState exMesh rfl 0 (fun _ => false)
    [exPeer] (some [])).1 r hr⟩

theorem mem_comMembers {world : List QProc} {p q : QProc} {hlvl : Nat}
    (hp : p.rank ∈ p.procH.global_proc_com hlvl) :
    q ∈ comMembers world p hlvl ↔ q ∈ world ∧ q.rank ∈ p.procH.global_proc_com hlvl := by
  unfold comMembers
  rw [if_pos hp]
  simp [List.mem_filter]

theorem comMembers_isEmpty_false {world : List QProc} {p : QProc} {hlvl : Nat}
    (hpw : p ∈ world) (hp : p.rank ∈ p.procH.global_proc_com hlvl) :
    (comMembers world p hlvl).isEmpty = false := by
  have hmem : p ∈ comMembers world p hlvl := (mem_comMembers hp).mpr ⟨hpw, hp⟩
  cases hc : comMembers world p hlvl with
  | nil => rw [hc] at hmem; simp at hmem
  | cons a l => rfl

theorem comMembers_isEmpty_true {world : List QProc} {p : QProc} {hlvl : Nat}
    (hp : p.rank ∉ p.procH.global_proc_com hlvl) :
    (comMembers world p hlvl).isEmpty = true := by
  unfold comMembers
  rw [if_neg hp]
  rfl

theorem mem_reducers {world : List QProc} {p q : QProc} {lvl : Nat}
    (hp : p.rank ∈ p.procH.global_proc_com (p.procH.hierarchy_level_from_grid_level lvl)) :
    q ∈ reducers world p lvl ↔
      (q ∈ world ∧ q.rank ∈ p.procH.global_proc_com (p.procH.hierarchy_level_from_grid_level lvl))
        ∧ q.procH = p.procH ∧ lvl < q.mg.num_levels := by
  unfold reducers matchesRound
  rw [List.mem_filter, mem_comMembers hp]
  simp

/-- In a round that returns, on a level with more than one process, every
process of the communicator makes the matching reductions. -/
theorem roundReturns_member {world : List QProc} {p q : QProc} {lvl : Nat}
    (hret : roundReturns world p lvl = true)
    (hprocs : 1 < p.procH.num_global_procs_involved (p.procH.hierarchy_level_from_grid_level lvl))
    (hp : p.rank ∈ p.procH.global_proc_com (p.procH.hierarchy_level_from_grid_level lvl))
    (hq : q ∈ world)
    (hqm : q.rank ∈ p.procH.global_proc_com (p.procH.hierarchy_level_from_grid_level lvl)) :
    q ∈ reducers world p lvl := by
  unfold roundReturns at hret
  rw [Bool.or_eq_true, decide_eq_true_iff, List.all_eq_true] at hret
  rcases hret with h | h
  · omega
  · unfold reducers
    rw [List.mem_filter]
    exact ⟨(mem_comMembers hp).mpr ⟨hq, hqm⟩, h q ((mem_comMembers hp).mpr ⟨hq, hqm⟩)⟩

theorem loopReturns_round {world : List QProc} {p : QProc} (h : loopReturns world p = true)
    {lvl : Nat} (hlvl : lvl < p.mg.num_levels) : roundReturns world p lvl = true := by
  unfold loopReturns at h
  rw [List.all_eq_true] at h
  exact h lvl (List.mem_range.mpr hlvl)

/-- The minimal weight of a level is a lower bound of the weights of the
processes that take part in the reduction and is the weight of a process of
the communicator. -/
theorem levelMinWeight_spec (world : List QProc) (p : QProc) (lvl : Nat) (hpw : p ∈ world)
    (hp : p.rank ∈ p.procH.global_proc_com (p.procH.hierarchy_level_from_grid_level lvl)) :
    (∀ q ∈ reducers world p lvl, levelMinWeight world p lvl ≤ q.localWeight lvl) ∧
    levelMinWeight world p lvl ≤ p.localWeight lvl ∧
    ∃ q ∈ world, q.rank ∈ p.procH.global_proc_com (p.procH.hierarchy_level_from_grid_level lvl) ∧
      levelMinWeight world p lvl = q.localWeight lvl := by
  unfold levelMinWeight allreduceMin
  refine ⟨?_, (foldl_min_le _ _).1, ?_⟩
  · intro q hq
    exact (foldl_min_le _ _).2 _ (List.mem_map.mpr ⟨q, hq, rfl⟩)
  · rcases foldl_min_mem ((reducers world p lvl).map (fun q => q.localWeight lvl))
        (p.localWeight lvl) with h | h
    · exact ⟨p, hpw, hp, h⟩
    · obtain ⟨q, hq, hqe⟩ := List.mem_map.mp h
      exact ⟨q, ((mem_reducers hp).mp hq).1.1, ((mem_reducers hp).mp hq).1.2, hqe.symm⟩

/-- The maximal weight of a level is an upper bound of the weights of the
processes that take part in the reduction and is the weight of a process of
the communicator. -/
theorem levelMaxWeight_spec (world : List QProc) (p : QProc) (lvl : Nat) (hpw : p ∈ world)
    (hp : p.rank ∈ p.procH.global_proc_com (p.procH.hierarchy_level_from_grid_level lvl)) :
    (∀ q ∈ reducers world p lvl, q.localWeight lvl ≤ levelMaxWeight world p lvl) ∧
    p.localWeight lvl ≤ levelMaxWeight world p lvl ∧
    ∃ q ∈ world, q.rank ∈ p.procH.global_proc_com (p.procH.hierarchy_level_from_grid_level lvl) ∧
      levelMaxWeight world p lvl = q.localWeight lvl := by
  unfold levelMaxWeight allreduceMax
  refine ⟨?_, (le_foldl_max _ _).1, ?_⟩
  · intro q hq
    exact (le_foldl_max _ _).2 _ (List.mem_map.mpr ⟨q, hq, rfl⟩)
  · rcases foldl_max_mem ((reducers world p lvl).map (fun q => q.localWeight lvl))
        (p.localWeight lvl) with h | h
    · exact ⟨p, hpw, hp, h⟩
    · obtain ⟨q, hq, hqe⟩ := List.mem_map.mp h
      exact ⟨q, ((mem_reducers hp).mp hq).1.1, ((mem_reducers hp).mp hq).1.2, hqe.symm⟩

/-- Per-level quality on a process of the communicator of a level with more
than one process. -/
theorem levelQuality_member (world : List QProc) (p : QProc) (lvl : Nat) (hpw : p ∈ world)
    (hprocs : 1 < p.procH.num_global_procs_involved (p.procH.hierarchy_level_from_grid_level lvl))
    (hp : p.rank ∈ p.procH.global_proc_com (p.procH.hierarchy_level_from_grid_level lvl)) :
    levelQuality world p lvl =
      if levelMaxWeight world p lvl > 0 then
        (levelMinWeight world p lvl : ℚ) / (levelMaxWeight world p lvl : ℚ)
      else -1 := by
  unfold levelQuality
  rw [if_neg (by omega), if_pos (comMembers_isEmpty_false hpw hp)]

/-- C14, counterexample: two processes of a level with two processes hold
the same number of non-ghost elements, namely none (rank 0 holds one ghost,
rank 1 holds no element), and the per-level quality reported is the
sentinel -1, not 1. -/
theorem C14_counterexample :
    (∀ q ∈ [exProc 0 [1] [1], exProc 1 [] []], q.localWeight 0 = 0) ∧
    levelQuality [exProc 0 [1] [1], exProc 1 [] []] (exProc 0 [1] [1]) 0 = -1 ∧
    (estimateQuality [exProc 0 [1] [1], exProc 1 [] []] (exProc 0 [1] [1]) (some [])).map
      (fun r => r.2) = some (some [-1]) :=
  ⟨by decide, by decide, by decide⟩

/-- C14, amended: on a process that takes part in the level (or for a level
with at most one process), a mesh level on which all participating processes
hold the same positive number of non-ghost elements has per-level quality 1,
and this is the entry written for the level to the per-level output by every
call that returns, as it does when the loops of all processes reach their
end. When the common number is zero, a level with more than one process has
the undefined quality -1. -/
theorem C14_even_level_has_quality_one (world : List QProc) (p : QProc) (lvl : Nat) (c : Int)
    (hpw : p ∈ world)
    (hp : p.rank ∈ p.procH.global_proc_com (p.procH.hierarchy_level_from_grid_level lvl))
    (hc : 0 < c)
    (hall : ∀ q ∈ world,
      q.rank ∈ p.procH.global_proc_com (p.procH.hierarchy_level_from_grid_level lvl) →
      q.localWeight lvl = c) :
    levelQuality world p lvl = 1 ∧
    (lvl < p.mg.num_levels → ∀ out : List ℚ,
      (∀ r, estimateQuality world p (some out) = some r →
        ∃ l, r.2 = some l ∧ l[lvl]? = some 1) ∧
      (allReturn world = true →
        ∃ r l, estimateQuality world p (some out) = some r ∧ r.2 = some l ∧
          l[lvl]? = some 1)) ∧
    (∀ world2 : List QProc, p ∈ world2 →
      1 < p.procH.num_global_procs_involved (p.procH.hierarchy_level_from_grid_level lvl) →
      (∀ q ∈ world2,
        q.rank ∈ p.procH.global_proc_com (p.procH.hierarchy_level_from_grid_level lvl) →
        q.localWeight lvl = 0) →
      levelQuality world2 p lvl = -1) := by
  have hq : levelQuality world p lvl = 1 := by
    by_cases hprocs :
        p.procH.num_global_procs_involved (p.procH.hierarchy_level_from_grid_level lvl) ≤ 1
    · unfold levelQuality
      rw [if_pos hprocs]
    · rw [levelQuality_member world p lvl hpw (by omega) hp]
      obtain ⟨q1, hq1, hm1, he1⟩ := (levelMinWeight_spec world p lvl hpw hp).2.2
      obtain ⟨q2, hq2, hm2, he2⟩ := (levelMaxWeight_spec world p lvl hpw hp).2.2
      rw [he1, he2, hall q1 hq1 hm1, hall q2 hq2 hm2, if_pos hc]
      have : (c : ℚ) ≠ 0 := by exact_mod_cast (ne_of_gt hc)
      exact div_self this
  refine ⟨hq, ?_, ?_⟩
  · intro hlvl out
    have hentry : ((List.range p.mg.num_levels).map (levelQuality world p))[lvl]? = some 1 := by
      rw [List.getElem?_map, List.getElem?_range hlvl]
      simp [hq]
    constructor
    · intro r hr
      exact ⟨_, (estimateQuality_some hr).2.2.2, hentry⟩
    · intro hret
      exact ⟨_, _, estimateQuality_returns world p (some out) hpw hret, rfl, hentry⟩
  · intro world2 hpw2 hprocs hzero
    rw [levelQuality_member world2 p lvl hpw2 hprocs hp]
    obtain ⟨q2, hq2, hm2, he2⟩ := (levelMaxWeight_spec world2 p lvl hpw2 hp).2.2
    rw [if_neg (by rw [he2, hzero q2 hq2 hm2]; decide)]

/-- Witness of C14 (amended): two processes holding two non-ghost elements
each. -/
theorem C14_even_level_has_quality_one_witness :
    exProc 0 [1, 2, 3] [3] ∈ [exProc 0 [1, 2, 3] [3], exProc 1 [4, 5] []] ∧
    levelQuality [exProc 0 [1, 2, 3] [3], exProc 1 [4, 5] []] (exProc 0 [1, 2, 3] [3]) 0 = 1 :=
  ⟨List.mem_cons_self _ _,
    (C14_even_level_has_quality_one [exProc 0 [1, 2, 3] [3], exProc 1 [4, 5] []]
      (exProc 0 [1, 2, 3] [3]) 0 2 (List.mem_cons_self _ _) (by decide) (by decide)
      (by
        intro q hq _
        simp only [List.mem_cons, List.mem_singleton, List.not_mem_nil, or_false] at hq
        rcases hq with h | h <;> subst h <;> decide)).1⟩

/-- C16: when the loops of all processes reach their end, the call returns
on every process of the cluster the same value `v`, the minimum over all
processes and all mesh levels of the defined per-level qualities: `v` is at
most 1 and at most every defined per-level quality of every process, and it
is 1 or one of these qualities. When every hierarchy level has a single
process (no reduction inside the loop), the call returns 1. -/
theorem C16_global_minimum_of_level_qualities (world : List QProc) (p : QProc)
    (hpw : p ∈ world) (out : Option (List ℚ)) :
    (allReturn world = true →
      ∃ v : ℚ,
        (∀ q ∈ world, ∀ out2, ∃ r, estimateQuality world q out2 = some r ∧ r.1 = v) ∧
        v ≤ 1 ∧
        (∀ q ∈ world, ∀ l, l < q.mg.num_levels → levelQuality world q l ≠ -1 →
          v ≤ levelQuality world q l) ∧
        (v = 1 ∨
          ∃ q ∈ world, ∃ l, l < q.mg.num_levels ∧ levelQuality world q l ≠ -1 ∧
            v = levelQuality world q l)) ∧
    ((∀ q ∈ world, ∀ h, q.procH.num_global_procs_involved h ≤ 1) →
      ∃ r, estimateQuality world p out = some r ∧ r.1 = 1) := by
  have hle : ∀ (r : QProc), ∀ q ∈ world,
      allreduceMinQ (estimateLocal world r none).1
        (world.map (fun q => (estimateLocal world q none).1)) ≤
        (estimateLocal world q none).1 := by
    intro r q hq
    unfold allreduceMinQ
    exact (foldl_min_le _ _).2 _ (List.mem_map.mpr ⟨q, hq, rfl⟩)
  have hmem : ∀ (r : QProc), r ∈ world →
      ∃ q ∈ world, allreduceMinQ (estimateLocal world r none).1
        (world.map (fun q => (estimateLocal world q none).1)) =
        (estimateLocal world q none).1 := by
    intro r hr
    unfold allreduceMinQ
    rcases foldl_min_mem (world.map (fun q => (estimateLocal world q none).1))
        (estimateLocal world r none).1 with h | h
    · exact ⟨r, hr, h⟩
    · obtain ⟨q, hq, hqe⟩ := List.mem_map.mp h
      exact ⟨q, hq, hqe.symm⟩
  have hsame : ∀ q ∈ world, allreduceMinQ (estimateLocal world q none).1
        (world.map (fun q => (estimateLocal world q none).1)) =
      allreduceMinQ (estimateLocal world p none).1
        (world.map (fun q => (estimateLocal world q none).1)) := by
    intro q hq
    apply le_antisymm
    · obtain ⟨r, hr, he⟩ := hmem p hpw
      rw [he]
      exact hle q r hr
    · obtain ⟨r, hr, he⟩ := hmem q hq
      rw [he]
      exact hle p r hr
  have hthird : allreduceMinQ (estimateLocal world p none).1
        (world.map (fun q => (estimateLocal world q none).1)) = 1 ∨
      ∃ q ∈ world, ∃ l, l < q.mg.num_levels ∧ levelQuality world q l ≠ -1 ∧
        allreduceMinQ (estimateLocal world p none).1
          (world.map (fun q => (estimateLocal world q none).1)) = levelQuality world q l := by
    obtain ⟨q, hq, he⟩ := hmem p hpw
    rcases (estimateLocal_spec world q none).2.2.2.2.1 with h | ⟨l, hl, hne, h⟩
    · exact Or.inl (he.trans h)
    · exact Or.inr ⟨q, hq, l, hl, hne, he.trans h⟩
  constructor
  · intro hret
    refine ⟨_, ?_, (localValue_bounds world p).2, ?_, hthird⟩
    · intro q hq out2
      exact ⟨_, estimateQuality_returns world q out2 hq hret, hsame q hq⟩
    · intro q hq l hl hne
      exact le_trans (hle p q hq) ((estimateLocal_spec world q none).2.2.2.1 l hl hne)
  · intro hsingle
    have hret : allReturn world = true := by
      rw [allReturn_iff]
      intro q hq
      unfold loopReturns
      rw [List.all_eq_true]
      intro lvl _
      unfold roundReturns
      rw [Bool.or_eq_true, decide_eq_true_iff]
      exact Or.inl (hsingle q hq _)
    refine ⟨_, estimateQuality_returns world p out hpw hret, ?_⟩
    rcases hthird with h | ⟨q, hq, l, -, -, h⟩
    · exact h
    · simp only
      rw [h]
      unfold levelQuality
      rw [if_pos (hsingle q hq _)]

/-- Witness of C16: two processes under the two-process topology, each with
a one-level mesh. -/
theorem C16_global_minimum_of_level_qualities_witness :
    exProc 0 [1, 2, 3] [3] ∈ [exProc 0 [1, 2, 3] [3], exProc 1 [4, 5, 6, 7] []] ∧
    allReturn [exProc 0 [1, 2, 3] [3], exProc 1 [4, 5, 6, 7] []] = true ∧
    ∃ v : ℚ,
      (∀ q ∈ [exProc 0 [1, 2, 3] [3], exProc 1 [4, 5, 6, 7] []], ∀ out2,
        ∃ r, estimateQuality [exProc 0 [1, 2, 3] [3], exProc 1 [4, 5, 6, 7] []] q out2 = some r ∧
          r.1 = v) ∧
      v ≤ 1 := by
  refine ⟨List.mem_cons_self _ _, by decide, ?_⟩
  obtain ⟨v, h1, h2, -⟩ := (C16_global_minimum_of_level_qualities
    [exProc 0 [1, 2, 3] [3], exProc 1 [4, 5, 6, 7] []]
    (exProc 0 [1, 2, 3] [3]) (List.mem_cons_self _ _) none).1 (by decide)
  exact ⟨v, h1, h2⟩

/-- C17: `estimate_distribution_quality` is read-only and idempotent. A call
that returns hands back the partitioner state it was called on (assignment,
process map, ratchet, current and staged topology untouched); a second
call, handed the vector the first call filled, returns the same value and
the same per-level breakdown, as does a call with any other vector for the
value; and the prior contents of the vector do not matter. The call returns
when the loops of all processes reach their end. -/
theorem C17_quality_read_only_idempotent (s : Partitioner_Bisection) (mg : MultiGrid)
    (hmg : s.m_mg = some mg) (rank : Int) (is_ghost : Elem → Bool) (peers : List QProc)
    (out : Option (List ℚ)) :
    (∀ r, s.estimate_distribution_quality rank is_ghost peers out = some r →
      r.2.2 = s ∧
      r.2.2.estimate_distribution_quality rank is_ghost peers r.2.1 = some r ∧
      (∀ out2, (s.estimate_distribution_quality rank is_ghost peers out2).map (fun r2 => r2.1)
        = some r.1)) ∧
    (∀ xs ys : List ℚ, s.estimate_distribution_quality rank is_ghost peers (some xs) =
      s.estimate_distribution_quality rank is_ghost peers (some ys)) ∧
    (allReturn (s.asProc mg rank is_ghost :: peers) = true →
      ∃ r, s.estimate_distribution_quality rank is_ghost peers out = some r) := by
  refine ⟨?_, ?_, ?_⟩
  · intro r hr
    obtain ⟨hs, he⟩ := estimate_distribution_quality_some hmg hr
    obtain ⟨-, hret, h1, h2⟩ := estimateQuality_some he
    simp only at h1 h2
    have hgen : ∀ out2, s.estimate_distribution_quality rank is_ghost peers out2 =
        some (r.1, out2.map (fun _ => (List.range (s.asProc mg rank is_ghost).mg.num_levels).map
          (levelQuality (s.asProc mg rank is_ghost :: peers) (s.asProc mg rank is_ghost))), s) := by
      intro out2
      rw [estimate_distribution_quality_eq s mg hmg,
        estimateQuality_returns _ _ out2 (List.mem_cons_self _ _) hret, h1]
      rfl
    refine ⟨hs, ?_, ?_⟩
    · rw [hs, hgen r.2.1, h2]
      obtain ⟨v, lv, s3⟩ := r
      simp only at hs h2 ⊢
      rw [hs, h2]
      cases out <;> rfl
    · intro out2
      rw [hgen out2]
      rfl
  · intro xs ys
    rw [estimate_distribution_quality_eq s mg hmg, estimate_distribution_quality_eq s mg hmg]
    by_cases hret : allReturn (s.asProc mg rank is_ghost :: peers) = true
    · rw [estimateQuality_returns _ _ (some xs) (List.mem_cons_self _ _) hret,
        estimateQuality_returns _ _ (some ys) (List.mem_cons_self _ _) hret]
      rfl
    · have hnone : ∀ o, estimateQuality (s.asProc mg rank is_ghost :: peers)
          (s.asProc mg rank is_ghost) o = none := by
        intro o
        cases he : estimateQuality (s.asProc mg rank is_ghost :: peers)
            (s.asProc mg rank is_ghost) o with
        | none => rfl
        | some r => exact absurd (estimateQuality_some he).2.1 hret
      rw [hnone, hnone]
  · intro hret
    rw [estimate_distribution_quality_eq s mg hmg,
      estimateQuality_returns _ _ out (List.mem_cons_self _ _) hret]
    exact ⟨_, rfl⟩

/-- Witness of C17: the example state on rank 0 with a second process that
has the same topology and as many mesh levels. -/
theorem C17_quality_read_only_idempotent_witness :
    exState.m_mg = some exMesh ∧
    allReturn (exState.asProc exMesh 0 (fun _ => false) :: [exPeer]) = true ∧
    ∃ r, exState.estimate_distribution_quality 0 (fun _ => false) [exPeer] (some [7]) = some r ∧
      r.2.2 = exState ∧
      r.2.2.estimate_distribution_quality 0 (fun _ => false) [exPeer] r.2.1 = some r := by
  refine ⟨rfl, by decide, ?_⟩
  obtain ⟨r, hr⟩ := (C17_quality_read_only_idempotent exState exMesh rfl 0 (fun _ => false)
    [exPeer] (some [7])).2.2 (by decide)
  obtain ⟨h1, h2, -⟩ := (C17_quality_read_only_idempotent exState exMesh rfl 0
    (fun _ => false) [exPeer] (some [7])).1 r hr
  exact ⟨r, hr, h1, h2⟩


/-- C22: the partition assignment and the process map are rebuilt from
scratch on every call: replacing the prior assignment and the prior process
map of a state by arbitrary ones does not change the result of `partition`
(assignment, process map and all other members). -/
theorem C22_rebuilt_from_scratch (env : Env) (s : Partitioner_Bisection)
    (sh : SubsetHandler) (pm : List Int) (baseLvl elementThreshold : Nat) :
    partition env { s with m_sh := sh, m_procMap := pm } baseLvl elementThreshold =
      partition env s baseLvl elementThreshold := by
  unfold partition
  rfl



/-- C21: on a newly constructed partitioner, to which no mesh was bound,
`partition` stops at `assert(m_mg)` and `estimate_distribution_quality`,
which has no check of `m_mg`, dereferences the null pointer and gives no
result; neither raises a configuration error. -/
theorem C21_unbound_mesh (env : Env) (clustered : Bool) (baseLvl elementThreshold : Nat)
    (rank : Int) (is_ghost : Elem → Bool) (peers : List QProc) (out : Option (List ℚ)) :
    partition env (Partitioner_Bisection.new clustered) baseLvl elementThreshold =
      Except.error UGError.assertFailed ∧
    (Partitioner_Bisection.new clustered).estimate_distribution_quality rank is_ghost peers out =
      none :=
  ⟨rfl, rfl⟩

/-- C23, counterexample: the ratchet of a newly constructed partitioner is
not zero (the constructor sets it to -1). -/
theorem C23_counterexample : ¬ ((Partitioner_Bisection.new true).m_highestRedistLevel = 0) := by
  decide

/-- C23, amended: the ratchet of a newly constructed partitioner is -1, and
no operation other than `partition` changes it: `set_grid`,
`set_next_process_hierarchy`, `set_balance_weights`, `set_connection_weights`
and `estimate_distribution_quality` leave the ratchet as it is. -/
theorem C23_ratchet_initial_and_untouched (clustered : Bool) (s : Partitioner_Bisection)
    (mg : MultiGrid) (T : Option ProcessHierarchy) (W : Type) (w : W)
    (rank : Int) (is_ghost : Elem → Bool) (peers : List QProc) (out : Option (List ℚ)) :
    (Partitioner_Bisection.new clustered).m_highestRedistLevel = -1 ∧
    (s.set_grid mg).m_highestRedistLevel = s.m_highestRedistLevel ∧
    (s.set_next_process_hierarchy T).m_highestRedistLevel = s.m_highestRedistLevel ∧
    (s.set_balance_weights w).m_highestRedistLevel = s.m_highestRedistLevel ∧
    (s.set_connection_weights w).m_highestRedistLevel = s.m_highestRedistLevel ∧
    (∀ r, s.estimate_distribution_quality rank is_ghost peers out = some r →
      r.2.2.m_highestRedistLevel = s.m_highestRedistLevel) := by
  refine ⟨rfl, rfl, rfl, rfl, rfl, ?_⟩
  intro r hr
  cases hmg : s.m_mg with
  | none =>
    unfold Partitioner_Bisection.estimate_distribution_quality at hr
    rw [hmg] at hr
    cases hr
  | some mg2 =>
    rw [(estimate_distribution_quality_some hmg hr).1]

theorem C23_ratchet_initial_and_untouched_witness :
    (exStateRedist.estimate_distribution_quality 0 (fun _ => false) [] none).isSome = true ∧
    (Partitioner_Bisection.new true).m_highestRedistLevel = -1 ∧
    (∀ r, exStateRedist.estimate_distribution_quality 0 (fun _ => false) [] none = some r →
      r.2.2.m_highestRedistLevel = 1) :=
  ⟨rfl, (C23_ratchet_initial_and_untouched true exStateRedist exMesh none Nat 0 0
      (fun _ => false) [] none).1,
    (C23_ratchet_initial_and_untouched true exStateRedist exMesh none Nat 0 0
      (fun _ => false) [] none).2.2.2.2.2⟩



/-! ## Branch decisions and windows -/

theorem maxLvl_congr (procH : ProcessHierarchy) (mg1 mg2 : MultiGrid)
    (htop : mg1.top_level = mg2.top_level) (h : Nat) :
    maxLvl procH mg1 h = maxLvl procH mg2 h := by
  unfold maxLvl
  rw [htop]

theorem belowThreshold_zero (a n : Int) : belowThreshold a n 0 = false := by
  unfold belowThreshold
  simp

theorem branch_mesh_congr (procH : ProcessHierarchy) (mg1 mg2 : MultiGrid) (b t : Nat) (r : Int)
    (h : Nat) (htop : mg1.top_level = mg2.top_level)
    (hnum : t = 0 ∨ mg1.num (minLvl procH b h) = mg2.num (minLvl procH b h)) :
    branch mg1 procH b t r h = branch mg2 procH b t r h := by
  unfold branch
  simp only
  rw [maxLvl_congr procH mg1 mg2 htop h]
  rcases hnum with h0 | hn
  · subst h0
    simp only [belowThreshold_zero]
  · rw [hn]

theorem branchTrace_eq (env : Env) (mg : MultiGrid) (s : Partitioner_Bisection) (b t : Nat) :
    branchTrace env mg s b t =
      (List.range (activeHierarchy s).num_hierarchy_levels).map
        (branch mg (activeHierarchy s) b t s.m_highestRedistLevel) := by
  unfold branchTrace
  apply List.map_congr_left
  intro h _
  exact branch_loopUpTo env mg (activeHierarchy s) b t
    { s with m_sh := assignLevels mg SubsetHandler.clear (firstLevels b), m_procMap := [] } h

/-- C25, counterexample: two processes with the same topology, `baseLvl`,
threshold 2, ratchet and mesh top level; the one with four elements on mesh
level 1 splits hierarchy level 1, the one with a single element there skips
it at the threshold test. -/
theorem C25_counterexample :
    activeHierarchy (exStateOn exMesh exTopo) = activeHierarchy (exStateOn exMeshSmall exTopo) ∧
    (exStateOn exMesh exTopo).m_highestRedistLevel =
      (exStateOn exMeshSmall exTopo).m_highestRedistLevel ∧
    exMesh.top_level = exMeshSmall.top_level ∧
    branchTrace exEnv exMesh (exStateOn exMesh exTopo) 0 2 = [Branch.singleProc, Branch.split] ∧
    branchTrace exEnv exMeshSmall (exStateOn exMeshSmall exTopo) 0 2 =
      [Branch.singleProc, Branch.belowThreshold] := by
  refine ⟨rfl, rfl, rfl, ?_, ?_⟩
  · rw [branchTrace_eq]; decide
  · rw [branchTrace_eq]; decide

/-- C25, amended: the decision for a hierarchy level depends on the
topology, `baseLvl`, the threshold, the ratchet, the mesh top level and,
through the threshold test, on the local element count of the lowest level
of the window. Two processes that agree on the first five and also on these
local counts (or run with threshold 0) take the same sequence of branches,
whatever else their meshes, splitters and prior states are. -/
theorem C25_same_branches_given_local_counts (env1 env2 : Env) (mg1 mg2 : MultiGrid)
    (s1 s2 : Partitioner_Bisection) (baseLvl elementThreshold : Nat)
    (htopo : activeHierarchy s1 = activeHierarchy s2)
    (hr : s1.m_highestRedistLevel = s2.m_highestRedistLevel)
    (htop : mg1.top_level = mg2.top_level)
    (hnum : elementThreshold = 0 ∨
      ∀ h, h < (activeHierarchy s1).num_hierarchy_levels →
        mg1.num (minLvl (activeHierarchy s1) baseLvl h) =
          mg2.num (minLvl (activeHierarchy s1) baseLvl h)) :
    branchTrace env1 mg1 s1 baseLvl elementThreshold =
      branchTrace env2 mg2 s2 baseLvl elementThreshold := by
  rw [branchTrace_eq, branchTrace_eq, ← htopo, ← hr]
  apply List.map_congr_left
  intro h hh
  have hh2 := List.mem_range.mp hh
  apply branch_mesh_congr _ _ _ _ _ _ _ htop
  rcases hnum with h0 | hn
  · exact Or.inl h0
  · exact Or.inr (hn h hh2)

theorem C25_same_branches_given_local_counts_witness :
    activeHierarchy (exStateOn exMesh exTopo) = activeHierarchy (exStateOn exMeshOther exTopo) ∧
    exMesh.top_level = exMeshOther.top_level ∧
    branchTrace exEnv exMesh (exStateOn exMesh exTopo) 0 2 =
      branchTrace exEnv exMeshOther (exStateOn exMeshOther exTopo) 0 2 :=
  ⟨rfl, rfl,
    C25_same_branches_given_local_counts exEnv exEnv exMesh exMeshOther
      (exStateOn exMesh exTopo) (exStateOn exMeshOther exTopo) 0 2 rfl rfl rfl
      (Or.inr (by decide))⟩

/-- C28: the fatal branch of `partition` is unreachable. On a bound mesh the
fallback of lines 279-285 never throws: if the loop splits no level, only
subset 0 was ever written (at most one subset, every element unassigned or
in subset 0); if it splits a level, the process map holds the at least two
ranks of the level split last. `partition` returns a state, and in it the
process map is non-empty whenever some element is assigned. -/
theorem C28_fatal_branch_unreachable (env : Env) (s : Partitioner_Bisection) (mg : MultiGrid)
    (baseLvl elementThreshold : Nat) (hmg : s.m_mg = some mg) :
    fallbackProcMap env (partitionLoop env mg s baseLvl elementThreshold) ≠
      Except.error UGError.ugThrow ∧
    ((partitionLoop env mg s baseLvl elementThreshold).m_procMap = [] →
      ZeroOnly (partitionLoop env mg s baseLvl elementThreshold).m_sh) ∧
    ((partitionLoop env mg s baseLvl elementThreshold).m_procMap ≠ [] →
      2 ≤ (partitionLoop env mg s baseLvl elementThreshold).m_procMap.length) ∧
    ∃ s2, partition env s baseLvl elementThreshold = Except.ok s2 ∧
      ((∃ x, s2.m_sh.subsetIndex x ≠ -1) → s2.m_procMap ≠ []) := by
  obtain ⟨hpm, -⟩ := partitionLoop_procMap_redist env mg s baseLvl elementThreshold
  have hsome : ∀ h, lastSplit mg (activeHierarchy s) baseLvl elementThreshold
      s.m_highestRedistLevel (activeHierarchy s).num_hierarchy_levels = some h →
      2 ≤ ((activeHierarchy s).cluster_procs h).length := by
    intro h hls
    have hsplit := ((lastSplit_eq_some mg _ baseLvl elementThreshold _ _ h).mp hls).2.1
    have hlen := ((branch_split_iff mg _ baseLvl elementThreshold _ h).mp hsplit).2.1
    omega
  have hnone : lastSplit mg (activeHierarchy s) baseLvl elementThreshold
      s.m_highestRedistLevel (activeHierarchy s).num_hierarchy_levels = none →
      ZeroOnly (partitionLoop env mg s baseLvl elementThreshold).m_sh := by
    intro hls
    rw [partitionLoop_eq]
    exact loopUpTo_zeroOnly env mg _ baseLvl elementThreshold _
      (zeroOnly_assignLevels mg _ _ zeroOnly_clear) _
      ((lastSplit_eq_none mg _ baseLvl elementThreshold _ _).mp hls)
  refine ⟨?_, ?_, ?_, ?_⟩
  · rw [fallbackProcMap_partitionLoop]
    intro h
    cases h
  · intro hempty
    cases hls : lastSplit mg (activeHierarchy s) baseLvl elementThreshold
        s.m_highestRedistLevel (activeHierarchy s).num_hierarchy_levels with
    | none => exact hnone hls
    | some h =>
      rw [hls] at hpm
      simp only at hpm
      have := hsome h hls
      rw [← hpm, hempty] at this
      simp at this
  · intro hne
    cases hls : lastSplit mg (activeHierarchy s) baseLvl elementThreshold
        s.m_highestRedistLevel (activeHierarchy s).num_hierarchy_levels with
    | none =>
      rw [hls] at hpm
      exact absurd hpm hne
    | some h =>
      rw [hls] at hpm
      simp only at hpm
      rw [hpm]
      exact hsome h hls
  · obtain ⟨s2, hs2, hsh, hmap, -⟩ := partition_result env mg s baseLvl elementThreshold hmg
    refine ⟨s2, hs2, ?_⟩
    rintro ⟨x, hx⟩
    rw [hmap]
    unfold resultProcMap
    cases hls : lastSplit mg (activeHierarchy s) baseLvl elementThreshold
        s.m_highestRedistLevel (activeHierarchy s).num_hierarchy_levels with
    | none =>
      simp only
      have hz := hnone hls
      rw [hsh] at hx
      rcases hz.2 x with h1 | ⟨-, h1⟩
      · exact absurd h1 hx
      · rw [if_neg (by omega)]
        simp
    | some h =>
      simp only
      have := hsome h hls
      intro hnil
      rw [hnil] at this
      simp at this

theorem C28_fatal_branch_unreachable_witness :
    exState.m_mg = some exMesh ∧
    ∃ s2, partition exEnv exState 0 0 = Except.ok s2 ∧
      ((∃ x, s2.m_sh.subsetIndex x ≠ -1) → s2.m_procMap ≠ []) :=
  ⟨rfl, (C28_fatal_branch_unreachable exEnv exState exMesh 0 0 rfl).2.2.2⟩

theorem partitionLoop_redist_highest (env : Env) (mg : MultiGrid) (s : Partitioner_Bisection)
    (b t : Nat) :
    (partitionLoop env mg s b t).m_highestRedistLevel =
      (match lastSplit mg (activeHierarchy s) b t s.m_highestRedistLevel
          (activeHierarchy s).num_hierarchy_levels with
        | some h => max s.m_highestRedistLevel (h : Int)
        | none => s.m_highestRedistLevel) := by
  obtain ⟨-, hr⟩ := partitionLoop_procMap_redist env mg s b t
  rw [hr]
  cases hls : lastSplit mg (activeHierarchy s) b t s.m_highestRedistLevel
      (activeHierarchy s).num_hierarchy_levels with
  | none => rfl
  | some h =>
    simp only
    have hsplit := ((lastSplit_eq_some mg _ b t _ _ h).mp hls).2.1
    have hlt := ((branch_split_iff mg _ b t _ h).mp hsplit).2.2.1
    rw [max_eq_right (le_of_lt hlt)]

theorem localRedistLevel_eq (p : PProc) (b t : Nat) :
    localRedistLevel p b t = highestLocal p b t := by
  unfold localRedistLevel highestLocal
  cases p.state.m_mg with
  | none => rfl
  | some mg => exact partitionLoop_redist_highest p.env mg p.state b t

/-- The maximum over a list, started at one of its members, does not depend
on the member. -/
theorem foldl_max_of_mem {α : Type} [LinearOrder α] (l : List α) (v w : α) (hv : v ∈ l)
    (hw : w ∈ l) : l.foldl max v = l.foldl max w := by
  have hmem : ∀ u, u ∈ l → l.foldl max u ∈ l := by
    intro u hu
    rcases foldl_max_mem l u with h | h
    · rw [h]; exact hu
    · exact h
  exact le_antisymm ((le_foldl_max l w).2 _ (hmem v hv)) ((le_foldl_max l v).2 _ (hmem w hw))

/-- C24: with the cluster a list of processes and the reduction of line 289
the maximum over that list, after the collective call every process returns
and holds the same ratchet value `M`; `M` is the maximum over the processes
of the larger of the previous ratchet and the index of the highest hierarchy
level split in this call: it bounds that value of every process and is that
value of some process (also when some processes split nothing). -/
theorem C24_cluster_ratchet_agreement (procs : List PProc) (baseLvl elementThreshold : Nat)
    (hall : ∀ p ∈ procs, ∃ mg, p.state.m_mg = some mg) :
    (partitionCluster procs baseLvl elementThreshold).length = procs.length ∧
    ∃ M : Int,
      (∀ r ∈ partitionCluster procs baseLvl elementThreshold,
        ∃ s2, r = Except.ok s2 ∧ s2.m_highestRedistLevel = M) ∧
      (∀ p ∈ procs, highestLocal p baseLvl elementThreshold ≤ M) ∧
      (procs ≠ [] → ∃ p ∈ procs, M = highestLocal p baseLvl elementThreshold) := by
  refine ⟨by unfold partitionCluster; simp, ?_⟩
  have key : ∀ p ∈ procs, ∃ s2,
      partition { p.env with
          peerRedistLevels := procs.map (fun q => localRedistLevel q baseLvl elementThreshold) }
        p.state baseLvl elementThreshold = Except.ok s2 ∧
      s2.m_highestRedistLevel =
        (procs.map (fun q => highestLocal q baseLvl elementThreshold)).foldl max
          (highestLocal p baseLvl elementThreshold) := by
    intro p hp
    obtain ⟨mg, hmg⟩ := hall p hp
    obtain ⟨s2, hs2, -, -, hr, -⟩ := partition_result
      { p.env with
        peerRedistLevels := procs.map (fun q => localRedistLevel q baseLvl elementThreshold) }
      mg p.state baseLvl elementThreshold hmg
    refine ⟨s2, hs2, ?_⟩
    rw [hr]
    unfold allreduceMax
    have h1 : (partitionLoop
        { p.env with
          peerRedistLevels := procs.map (fun q => localRedistLevel q baseLvl elementThreshold) }
        mg p.state baseLvl elementThreshold).m_highestRedistLevel =
        highestLocal p baseLvl elementThreshold := by
      rw [partitionLoop_redist_highest]
      unfold highestLocal
      rw [hmg]
    rw [h1]
    have h2 : (fun q => localRedistLevel q baseLvl elementThreshold) =
        (fun q => highestLocal q baseLvl elementThreshold) := by
      funext q
      exact localRedistLevel_eq q baseLvl elementThreshold
    simp only [h2]
  cases hprocs : procs with
  | nil =>
    refine ⟨0, ?_, ?_, ?_⟩
    · intro r hr
      unfold partitionCluster at hr
      simp at hr
    · intro p hp
      simp at hp
    · intro h
      exact absurd rfl h
  | cons p0 rest =>
    rw [← hprocs]
    have hp0 : p0 ∈ procs := by rw [hprocs]; exact List.mem_cons_self _ _
    have hmemv : ∀ p ∈ procs, highestLocal p baseLvl elementThreshold ∈
        procs.map (fun q => highestLocal q baseLvl elementThreshold) :=
      fun p hp => List.mem_map.mpr ⟨p, hp, rfl⟩
    refine ⟨(procs.map (fun q => highestLocal q baseLvl elementThreshold)).foldl max
      (highestLocal p0 baseLvl elementThreshold), ?_, ?_, ?_⟩
    · intro r hr
      unfold partitionCluster at hr
      obtain ⟨p, hp, hpr⟩ := List.mem_map.mp hr
      obtain ⟨s2, hs2, hval⟩ := key p hp
      refine ⟨s2, ?_, ?_⟩
      · rw [← hpr, hs2]
      · rw [hval]
        exact foldl_max_of_mem _ _ _ (hmemv p hp) (hmemv p0 hp0)
    · intro p hp
      exact (le_foldl_max _ _).2 _ (hmemv p hp)
    · intro _
      rcases foldl_max_mem (procs.map (fun q => highestLocal q baseLvl elementThreshold))
        (highestLocal p0 baseLvl elementThreshold) with h | h
      · exact ⟨p0, hp0, h⟩
      · obtain ⟨p, hp, hpv⟩ := List.mem_map.mp h
        exact ⟨p, hp, hpv.symm⟩

theorem C24_cluster_ratchet_agreement_witness :
    (∀ p ∈ exCluster, ∃ mg, p.state.m_mg = some mg) ∧
    (partitionCluster exCluster 0 2).length = exCluster.length ∧
    ∃ M : Int,
      (∀ r ∈ partitionCluster exCluster 0 2,
        ∃ s2, r = Except.ok s2 ∧ s2.m_highestRedistLevel = M) ∧
      (∀ p ∈ exCluster, highestLocal p 0 2 ≤ M) ∧
      (exCluster ≠ [] → ∃ p ∈ exCluster, M = highestLocal p 0 2) :=
  have hall : ∀ p ∈ exCluster, ∃ mg, p.state.m_mg = some mg := by
    intro p hp
    unfold exCluster at hp
    simp only [List.mem_cons, List.mem_singleton, List.not_mem_nil, or_false] at hp
    rcases hp with h | h
    · exact ⟨exMesh, by rw [h]; rfl⟩
    · exact ⟨exMeshSmall, by rw [h]; rfl⟩
  ⟨hall, C24_cluster_ratchet_agreement exCluster 0 2 hall⟩



/-! ## Smart pointers -/

/-- C29: self-assignment of a valid smart pointer whose reference count is
1. `a = a` first releases: the counter drops to 0 and is deleted, and
`FreePolicy<T>::free` is executed on the object; the increment that follows
meets the deleted counter. -/
theorem C29_self_assignment_frees_object :
    (SmartPtr.fromRaw SPHeap.empty (some 7)).2.is_valid = true ∧
    (SmartPtr.fromRaw SPHeap.empty (some 7)).2.get_refcount
      (SmartPtr.fromRaw SPHeap.empty (some 7)).1 = Except.ok 1 ∧
    ∃ h2, (SmartPtr.fromRaw SPHeap.empty (some 7)).2.assign
        (SmartPtr.fromRaw SPHeap.empty (some 7)).2
        (SmartPtr.fromRaw SPHeap.empty (some 7)).1 = Except.error h2 ∧
      h2.freed = [some 7] ∧ h2.counters 0 = none :=
  ⟨rfl, rfl, _, rfl, rfl, rfl⟩

/-- C30: a `SmartPtr<void>` `p` that shares object 7 with one other holder
`a` (count 2). After `p.invalidate()` the pointer `p` is invalid and the
count is 1, but `p.get_refcount()` returns 1, not 0, since the counter
pointer of `p` is still set; the destructor of `p` then decrements the
counter again, to 0, and deletes it, calling free with the null pointer:
`a` is still valid, its counter is gone and object 7 was never freed. -/
theorem C30_invalidate_keeps_counter_pointer :
    ∃ h2 p h3 p2 h4 e,
      SmartPtrVoid.fromSmartPtr (SmartPtr.fromRaw SPHeap.empty (some 7)).2
        (SmartPtr.fromRaw SPHeap.empty (some 7)).1 = Except.ok (h2, p) ∧
      p.get_refcount h2 = Except.ok 2 ∧
      p.invalidate h2 = Except.ok (h3, p2) ∧
      p2.is_valid = false ∧
      p2.get_refcount h3 = Except.ok 1 ∧
      (SmartPtr.fromRaw SPHeap.empty (some 7)).2.get_refcount h3 = Except.ok 1 ∧
      p2.destructor h3 = Except.ok h4 ∧
      h4.counters 0 = none ∧ h4.freed = [none] ∧
      (SmartPtr.fromRaw SPHeap.empty (some 7)).2.is_valid = true ∧
      (SmartPtr.fromRaw SPHeap.empty (some 7)).2.get_refcount h4 = Except.error e :=
  ⟨_, _, _, _, _, _, rfl, rfl, rfl, rfl, rfl, rfl, rfl, rfl, rfl, rfl, rfl⟩

/-- C26, counterexample: the same raw pointer handed to the constructor
twice. Two live smart pointers encapsulate object 7, each with a counter of
its own that holds 1; the destructor of the first executes free on the
object while the second is still live and valid with count 1. -/
theorem C26_counterexample :
    ∃ m m2,
      SPMachine.empty.run [SPOp.construct (some 7), SPOp.construct (some 7)] = Except.ok m ∧
      m.live = [SmartPtr.mk (some 7) (some 0), SmartPtr.mk (some 7) (some 1)] ∧
      SPMachine.holdersOf m.live 7 = 2 ∧
      (SmartPtr.mk (some 7) (some 0)).get_refcount m.heap = Except.ok 1 ∧
      m.step (SPOp.destroy 0) = Except.ok m2 ∧
      m2.live = [SmartPtr.mk (some 7) (some 1)] ∧
      m2.heap.freed = [some 7] ∧
      (SmartPtr.mk (some 7) (some 1)).is_valid = true ∧
      (SmartPtr.mk (some 7) (some 1)).get_refcount m2.heap = Except.ok 1 :=
  ⟨_, _, rfl, rfl, rfl, rfl, rfl, rfl, rfl, rfl, rfl⟩



/-! ## Reference counting: the invariant -/

theorem holders_cons (sp : SmartPtr) (L : List SmartPtr) (c : Nat) :
    SPMachine.holders (sp :: L) c =
      SPMachine.holders L c + (if sp.m_refCount = some c then 1 else 0) := by
  unfold SPMachine.holders
  rw [List.countP_cons]
  simp only [decide_eq_true_eq]

theorem holdersOf_cons (sp : SmartPtr) (L : List SmartPtr) (o : Nat) :
    SPMachine.holdersOf (sp :: L) o =
      SPMachine.holdersOf L o + (if sp.m_ptr = some o then 1 else 0) := by
  unfold SPMachine.holdersOf
  rw [List.countP_cons]
  simp only [decide_eq_true_eq]

theorem holders_pos_iff (L : List SmartPtr) (c : Nat) :
    0 < SPMachine.holders L c ↔ ∃ sq ∈ L, sq.m_refCount = some c := by
  unfold SPMachine.holders
  rw [List.countP_pos_iff]
  simp only [decide_eq_true_eq]

theorem holdersOf_pos_iff (L : List SmartPtr) (o : Nat) :
    0 < SPMachine.holdersOf L o ↔ ∃ sq ∈ L, sq.m_ptr = some o := by
  unfold SPMachine.holdersOf
  rw [List.countP_pos_iff]
  simp only [decide_eq_true_eq]

theorem holders_le_length (L : List SmartPtr) (c : Nat) : SPMachine.holders L c ≤ L.length :=
  List.countP_le_length _

/-- The invariant does not depend on the order of the live smart pointers. -/
theorem SPConsistent.perm {h : SPHeap} {W : List Nat} {L L2 : List SmartPtr}
    (hc : SPConsistent h L W) (hp : L.Perm L2) : SPConsistent h L2 W := by
  have hmem : ∀ {sp}, sp ∈ L2 → sp ∈ L := fun hsp => hp.symm.subset hsp
  have hh : ∀ c, SPMachine.holders L2 c = SPMachine.holders L c :=
    fun c => (hp.countP_eq _).symm
  have ho : ∀ o, SPMachine.holdersOf L2 o = SPMachine.holdersOf L o :=
    fun o => (hp.countP_eq _).symm
  constructor
  · intro c; rw [hh]; exact hc.counters c
  · intro sp hsp; exact hc.fresh sp (hmem hsp)
  · intro sp hsp; exact hc.null_iff sp (hmem hsp)
  · intro sp hsp sq hsq; exact hc.same_counter sp (hmem hsp) sq (hmem hsq)
  · intro sp hsp sq hsq; exact hc.same_object sp (hmem hsp) sq (hmem hsq)
  · intro sp hsp; exact hc.held_wrapped sp (hmem hsp)
  · intro o ho2; rw [ho]; exact hc.freed_iff o ho2
  · exact hc.freed_nodup
  · exact hc.freed_wrapped

/-- Consistency at the start of the program. -/
theorem SPConsistent.empty : SPConsistent SPHeap.empty [] [] := by
  constructor
  · intro c; rfl
  · intro sp hsp; simp at hsp
  · intro sp hsp; simp at hsp
  · intro sp hsp; simp at hsp
  · intro sp hsp; simp at hsp
  · intro sp hsp; simp at hsp
  · intro o ho; simp at ho
  · exact List.nodup_nil
  · intro x hx; simp [SPHeap.empty] at hx

/-- A live smart pointer with a pointer has a counter, and the other way
round. -/
theorem SPConsistent.fields {h : SPHeap} {W : List Nat} {L : List SmartPtr}
    (hc : SPConsistent h L W) {sp : SmartPtr} (hsp : sp ∈ L) :
    (sp.m_ptr = none ∧ sp.m_refCount = none) ∨
      ∃ o c, sp.m_ptr = some o ∧ sp.m_refCount = some c := by
  have hn := hc.null_iff sp hsp
  cases hp : sp.m_ptr with
  | none => exact Or.inl ⟨rfl, hn.mp hp⟩
  | some o =>
    cases hr : sp.m_refCount with
    | none => rw [hn.mpr hr] at hp; cases hp
    | some c => exact Or.inr ⟨o, c, rfl, rfl⟩

/-- Among consistent smart pointers the holders of an object are the holders
of its counter. -/
theorem SPConsistent.holdersOf_eq {h : SPHeap} {W : List Nat} {L : List SmartPtr}
    (hc : SPConsistent h L W) {sp : SmartPtr} (hsp : sp ∈ L) {o c : Nat}
    (hp : sp.m_ptr = some o) (hr : sp.m_refCount = some c) :
    SPMachine.holdersOf L o = SPMachine.holders L c := by
  unfold SPMachine.holdersOf SPMachine.holders
  apply List.countP_congr
  intro sq hsq
  simp only [decide_eq_true_eq]
  constructor
  · intro hq
    rw [← hc.same_counter sp hsp sq hsq o hp hq, hr]
  · intro hq
    rw [← hc.same_object sp hsp sq hsq c hr hq, hp]



theorem SPHeap.store_counters (h : SPHeap) (c : Nat) (v : Option Int) (a : Nat) :
    (h.store c v).counters a = if a = c then v else h.counters a := rfl

/-- The destructor of a live smart pointer succeeds and leaves the rest
consistent. -/
theorem SPConsistent.remove {h : SPHeap} {W : List Nat} {L : List SmartPtr} {sp : SmartPtr}
    (hc : SPConsistent h (sp :: L) W) :
    ∃ h2, sp.release h = Except.ok h2 ∧ SPConsistent h2 L W ∧ h2.nextCounter = h.nextCounter := by
  have hsp : sp ∈ sp :: L := List.mem_cons_self _ _
  have hsub : ∀ {sq}, sq ∈ L → sq ∈ sp :: L := fun hq => List.mem_cons_of_mem _ hq
  rcases hc.fields hsp with ⟨hp, hr⟩ | ⟨o, c, hp, hr⟩
  · refine ⟨h, ?_, ?_, rfl⟩
    · unfold SmartPtr.release
      rw [hr]
    · constructor
      · intro c
        have := hc.counters c
        rw [holders_cons, hr] at this
        simpa using this
      · intro sq hsq; exact hc.fresh sq (hsub hsq)
      · intro sq hsq; exact hc.null_iff sq (hsub hsq)
      · intro sq hsq sr hsr; exact hc.same_counter sq (hsub hsq) sr (hsub hsr)
      · intro sq hsq sr hsr; exact hc.same_object sq (hsub hsq) sr (hsub hsr)
      · intro sq hsq; exact hc.held_wrapped sq (hsub hsq)
      · intro o ho
        have := hc.freed_iff o ho
        rw [holdersOf_cons, hp] at this
        simpa using this
      · exact hc.freed_nodup
      · exact hc.freed_wrapped
  · have hcnt := hc.counters c
    rw [holders_cons, if_pos hr] at hcnt
    have hcnt2 : h.counters c = some ((SPMachine.holders L c : Int) + 1) := by
      rw [hcnt]
      unfold counterOf
      rw [if_neg (by omega)]
      push_cast
      rfl
    have hoc : SPMachine.holdersOf L o = SPMachine.holders L c := by
      have := hc.holdersOf_eq hsp hp hr
      rw [holdersOf_cons, holders_cons, if_pos hp, if_pos hr] at this
      omega
    have hW : o ∈ W := hc.held_wrapped sp hsp o hp
    have hnotfreed : some o ∉ h.freed := by
      intro hf
      have := (hc.freed_iff o hW).mp hf
      rw [holdersOf_cons, if_pos hp] at this
      omega
    have hother : ∀ c2, c2 ≠ c → SPMachine.holders (sp :: L) c2 = SPMachine.holders L c2 := by
      intro c2 hne
      rw [holders_cons, if_neg (by rw [hr]; intro hh; exact hne (Option.some.inj hh).symm)]
      rfl
    have hothero : ∀ o2, o2 ≠ o →
        SPMachine.holdersOf (sp :: L) o2 = SPMachine.holdersOf L o2 := by
      intro o2 hne
      rw [holdersOf_cons, if_neg (by rw [hp]; intro hh; exact hne (Option.some.inj hh).symm)]
      rfl
    have hmin : ¬ ((SPMachine.holders L c : Int) + 1 ≤ INT_MIN) := by
      unfold INT_MIN
      omega
    by_cases hz : SPMachine.holders L c = 0
    · refine ⟨(h.store c none).free (some o), ?_, ?_, rfl⟩
      · unfold SmartPtr.release
        rw [hr]
        simp only
        rw [hcnt2]
        simp only
        rw [if_neg hmin, if_pos (by omega), hp]
      · constructor
        · intro c2
          show (h.store c none).counters c2 = _
          rw [SPHeap.store_counters]
          by_cases hcc : c2 = c
          · rw [if_pos hcc, hcc, hz]
            rfl
          · rw [if_neg hcc, hc.counters c2, hother c2 hcc]
        · intro sq hsq; exact hc.fresh sq (hsub hsq)
        · intro sq hsq; exact hc.null_iff sq (hsub hsq)
        · intro sq hsq sr hsr; exact hc.same_counter sq (hsub hsq) sr (hsub hsr)
        · intro sq hsq sr hsr; exact hc.same_object sq (hsub hsq) sr (hsub hsr)
        · intro sq hsq; exact hc.held_wrapped sq (hsub hsq)
        · intro o2 ho2
          show some o2 ∈ h.freed ++ [some o] ↔ _
          by_cases hoo : o2 = o
          · rw [hoo, hoc, hz]
            simp
          · have := hc.freed_iff o2 ho2
            rw [hothero o2 hoo] at this
            rw [← this]
            simp [hoo]
        · show (h.freed ++ [some o]).Nodup
          rw [List.nodup_append]
          refine ⟨hc.freed_nodup, List.nodup_singleton _, ?_⟩
          intro x hx1 hx2
          rw [List.mem_singleton] at hx2
          rw [hx2] at hx1
          exact hnotfreed hx1
        · intro x hx
          have hx2 : x ∈ h.freed ++ [some o] := hx
          rcases List.mem_append.mp hx2 with h1 | h1
          · exact hc.freed_wrapped x h1
          · rw [List.mem_singleton] at h1
            exact ⟨o, hW, h1⟩
    · refine ⟨h.store c (some ((SPMachine.holders L c : Int) + 1 - 1)), ?_, ?_, rfl⟩
      · unfold SmartPtr.release
        rw [hr]
        simp only
        rw [hcnt2]
        simp only
        rw [if_neg hmin, if_neg (by omega)]
      · constructor
        · intro c2
          rw [SPHeap.store_counters]
          by_cases hcc : c2 = c
          · rw [if_pos hcc, hcc]
            unfold counterOf
            rw [if_neg hz]
            congr 1
            omega
          · rw [if_neg hcc, hc.counters c2, hother c2 hcc]
        · intro sq hsq; exact hc.fresh sq (hsub hsq)
        · intro sq hsq; exact hc.null_iff sq (hsub hsq)
        · intro sq hsq sr hsr; exact hc.same_counter sq (hsub hsq) sr (hsub hsr)
        · intro sq hsq sr hsr; exact hc.same_object sq (hsub hsq) sr (hsub hsr)
        · intro sq hsq; exact hc.held_wrapped sq (hsub hsq)
        · intro o2 ho2
          show some o2 ∈ h.freed ↔ _
          by_cases hoo : o2 = o
          · rw [hoo, hoc]
            constructor
            · intro hf; exact absurd hf hnotfreed
            · intro h0; exact absurd h0 hz
          · have := hc.freed_iff o2 ho2
            rw [hothero o2 hoo] at this
            exact this
        · exact hc.freed_nodup
        · exact hc.freed_wrapped



theorem SmartPtr.copy_null (sp : SmartPtr) (h : SPHeap) (hr : sp.m_refCount = none) :
    sp.copy h = Except.ok (h, sp) := by
  cases sp with
  | mk p r =>
    simp only at hr
    subst hr
    rfl

theorem SmartPtr.copy_some (sp : SmartPtr) (h : SPHeap) (c : Nat) (n : Int)
    (hr : sp.m_refCount = some c) (hc : h.counters c = some n) (hn : n < INT_MAX) :
    sp.copy h = Except.ok (h.store c (some (n + 1)), sp) := by
  cases sp with
  | mk p r =>
    simp only at hr
    subst hr
    unfold SmartPtr.copy SPHeap.increment
    simp only [hc, if_pos hn]

/-- A copy of a live (or null) smart pointer can be made and the result is
consistent. -/
theorem SPConsistent.add {h : SPHeap} {W : List Nat} {L : List SmartPtr} {sp : SmartPtr}
    (hc : SPConsistent h L W)
    (hsp : sp ∈ L ∨ (sp.m_ptr = none ∧ sp.m_refCount = none))
    (hlen : sp.m_refCount ≠ none → (L.length : Int) < INT_MAX) :
    ∃ h2, sp.copy h = Except.ok (h2, sp) ∧ SPConsistent h2 (sp :: L) W ∧
      h2.nextCounter = h.nextCounter := by
  have hfields : (sp.m_ptr = none ∧ sp.m_refCount = none) ∨
      (sp ∈ L ∧ ∃ o c, sp.m_ptr = some o ∧ sp.m_refCount = some c) := by
    rcases hsp with hin | hnull
    · rcases hc.fields hin with h1 | h1
      · exact Or.inl h1
      · exact Or.inr ⟨hin, h1⟩
    · exact Or.inl hnull
  rcases hfields with ⟨hp, hr⟩ | ⟨hin, o, c, hp, hr⟩
  · refine ⟨h, ?_, ?_, rfl⟩
    · exact SmartPtr.copy_null sp h hr
    · constructor
      · intro c
        rw [holders_cons, hr]
        simpa using hc.counters c
      · intro sq hsq c hq
        rcases List.mem_cons.mp hsq with h1 | h1
        · rw [h1, hr] at hq; cases hq
        · exact hc.fresh sq h1 c hq
      · intro sq hsq
        rcases List.mem_cons.mp hsq with h1 | h1
        · rw [h1, hp, hr]
        · exact hc.null_iff sq h1
      · intro sq hsq sr hsr o hq hr2
        rcases List.mem_cons.mp hsq with h1 | h1
        · rw [h1, hp] at hq; cases hq
        · rcases List.mem_cons.mp hsr with h2 | h2
          · rw [h2, hp] at hr2; cases hr2
          · exact hc.same_counter sq h1 sr h2 o hq hr2
      · intro sq hsq sr hsr c hq hr2
        rcases List.mem_cons.mp hsq with h1 | h1
        · rw [h1, hr] at hq; cases hq
        · rcases List.mem_cons.mp hsr with h2 | h2
          · rw [h2, hr] at hr2; cases hr2
          · exact hc.same_object sq h1 sr h2 c hq hr2
      · intro sq hsq o hq
        rcases List.mem_cons.mp hsq with h1 | h1
        · rw [h1, hp] at hq; cases hq
        · exact hc.held_wrapped sq h1 o hq
      · intro o ho
        rw [holdersOf_cons, hp]
        simpa using hc.freed_iff o ho
      · exact hc.freed_nodup
      · exact hc.freed_wrapped
  · have hmem : ∀ {sq}, sq ∈ sp :: L → sq ∈ L := by
      intro sq hsq
      rcases List.mem_cons.mp hsq with h1 | h1
      · rw [h1]; exact hin
      · exact h1
    have hpos : 0 < SPMachine.holders L c := (holders_pos_iff L c).mpr ⟨sp, hin, hr⟩
    have hle := holders_le_length L c
    have hlen2 := hlen (by rw [hr]; exact Option.some_ne_none c)
    have hcnt : h.counters c = some (SPMachine.holders L c : Int) := by
      rw [hc.counters c]
      unfold counterOf
      rw [if_neg (by omega)]
    have hopos : 0 < SPMachine.holdersOf L o := (holdersOf_pos_iff L o).mpr ⟨sp, hin, hp⟩
    refine ⟨h.store c (some ((SPMachine.holders L c : Int) + 1)), ?_, ?_, rfl⟩
    · exact SmartPtr.copy_some sp h c _ hr hcnt (by omega)
    · constructor
      · intro c2
        rw [SPHeap.store_counters, holders_cons]
        by_cases hcc : c2 = c
        · rw [if_pos hcc, hcc, if_pos hr]
          unfold counterOf
          rw [if_neg (by omega)]
          push_cast
          rfl
        · rw [if_neg hcc, if_neg (by rw [hr]; intro hh; exact hcc (Option.some.inj hh).symm)]
          exact hc.counters c2
      · intro sq hsq; exact hc.fresh sq (hmem hsq)
      · intro sq hsq; exact hc.null_iff sq (hmem hsq)
      · intro sq hsq sr hsr; exact hc.same_counter sq (hmem hsq) sr (hmem hsr)
      · intro sq hsq sr hsr; exact hc.same_object sq (hmem hsq) sr (hmem hsr)
      · intro sq hsq; exact hc.held_wrapped sq (hmem hsq)
      · intro o2 ho2
        show some o2 ∈ h.freed ↔ _
        rw [holdersOf_cons]
        by_cases hoo : o2 = o
        · rw [hoo, if_pos hp]
          have := hc.freed_iff o (hc.held_wrapped sp hin o hp)
          constructor
          · intro hf
            have := this.mp hf
            omega
          · intro h0
            omega
        · rw [if_neg (by rw [hp]; intro hh; exact hoo (Option.some.inj hh).symm)]
          exact hc.freed_iff o2 ho2
      · exact hc.freed_nodup
      · exact hc.freed_wrapped

/-- The constructor from a raw pointer that was not wrapped before leaves a
consistent state. -/
theorem SPConsistent.construct {h : SPHeap} {W : List Nat} {L : List SmartPtr}
    (hc : SPConsistent h L W) (o : Nat) (ho : o ∉ W) :
    SPConsistent (SmartPtr.fromRaw h (some o)).1 ((SmartPtr.fromRaw h (some o)).2 :: L)
      (o :: W) := by
  have hfr : (SmartPtr.fromRaw h (some o)).2 =
      { m_ptr := some o, m_refCount := some h.nextCounter } := rfl
  have hcs : ∀ a, (SmartPtr.fromRaw h (some o)).1.counters a =
      if a = h.nextCounter then some 1 else h.counters a := fun _ => rfl
  have hnx : (SmartPtr.fromRaw h (some o)).1.nextCounter = h.nextCounter + 1 := rfl
  have hfd : (SmartPtr.fromRaw h (some o)).1.freed = h.freed := rfl
  have hnone : SPMachine.holders L h.nextCounter = 0 := by
    by_contra hne
    obtain ⟨sq, hsq, hq⟩ := (holders_pos_iff L h.nextCounter).mp (by omega)
    have := hc.fresh sq hsq _ hq
    omega
  have hnoto : ∀ sq ∈ L, sq.m_ptr ≠ some o := by
    intro sq hsq hq
    exact ho (hc.held_wrapped sq hsq o hq)
  have hnotc : ∀ sq ∈ L, sq.m_refCount ≠ some h.nextCounter := by
    intro sq hsq hq
    have := hc.fresh sq hsq _ hq
    omega
  rw [hfr]
  constructor
  · intro c
    rw [hcs, holders_cons]
    by_cases hcc : c = h.nextCounter
    · rw [if_pos hcc, hcc, hnone, if_pos rfl]
      rfl
    · rw [if_neg hcc, if_neg (by intro hh; exact hcc (Option.some.inj hh).symm)]
      exact hc.counters c
  · intro sq hsq c hq
    rw [hnx]
    rcases List.mem_cons.mp hsq with h1 | h1
    · rw [h1] at hq
      have := Option.some.inj hq
      omega
    · have := hc.fresh sq h1 c hq
      omega
  · intro sq hsq
    rcases List.mem_cons.mp hsq with h1 | h1
    · rw [h1]
      simp
    · exact hc.null_iff sq h1
  · intro sq hsq sr hsr o2 hq hr2
    rcases List.mem_cons.mp hsq with h1 | h1
    · rcases List.mem_cons.mp hsr with h2 | h2
      · rw [h1, h2]
      · rw [h1] at hq
        have hoo : o = o2 := Option.some.inj hq
        rw [← hoo] at hr2
        exact absurd hr2 (hnoto sr h2)
    · rcases List.mem_cons.mp hsr with h2 | h2
      · rw [h2] at hr2
        have hoo : o = o2 := Option.some.inj hr2
        rw [← hoo] at hq
        exact absurd hq (hnoto sq h1)
      · exact hc.same_counter sq h1 sr h2 o2 hq hr2
  · intro sq hsq sr hsr c hq hr2
    rcases List.mem_cons.mp hsq with h1 | h1
    · rcases List.mem_cons.mp hsr with h2 | h2
      · rw [h1, h2]
      · rw [h1] at hq
        have hcc : h.nextCounter = c := Option.some.inj hq
        rw [← hcc] at hr2
        exact absurd hr2 (hnotc sr h2)
    · rcases List.mem_cons.mp hsr with h2 | h2
      · rw [h2] at hr2
        have hcc : h.nextCounter = c := Option.some.inj hr2
        rw [← hcc] at hq
        exact absurd hq (hnotc sq h1)
      · exact hc.same_object sq h1 sr h2 c hq hr2
  · intro sq hsq o2 hq
    rcases List.mem_cons.mp hsq with h1 | h1
    · rw [h1] at hq
      have hoo : o = o2 := Option.some.inj hq
      rw [← hoo]
      exact List.mem_cons_self _ _
    · exact List.mem_cons_of_mem _ (hc.held_wrapped sq h1 o2 hq)
  · intro o2 ho2
    rw [hfd, holdersOf_cons]
    rcases List.mem_cons.mp ho2 with h1 | h1
    · rw [h1, if_pos rfl]
      constructor
      · intro hf
        obtain ⟨o3, ho3, heq⟩ := hc.freed_wrapped _ hf
        have : o = o3 := Option.some.inj heq
        rw [← this] at ho3
        exact absurd ho3 ho
      · intro h0
        omega
    · have hne : o2 ≠ o := by
        intro hh
        rw [hh] at h1
        exact ho h1
      rw [if_neg (by intro hh; exact hne (Option.some.inj hh).symm)]
      exact hc.freed_iff o2 h1
  · rw [hfd]
    exact hc.freed_nodup
  · intro x hx
    rw [hfd] at hx
    obtain ⟨o3, ho3, heq⟩ := hc.freed_wrapped x hx
    exact ⟨o3, List.mem_cons_of_mem _ ho3, heq⟩



theorem perm_cons_eraseIdx {α : Type} (L : List α) (i : Nat) (a : α) (ha : L[i]? = some a) :
    L.Perm (a :: L.eraseIdx i) := by
  induction L generalizing i with
  | nil => simp at ha
  | cons x t ih =>
    cases i with
    | zero =>
      simp only [List.getElem?_cons_zero, Option.some.injEq] at ha
      rw [ha]
      exact List.Perm.refl _
    | succ i =>
      simp only [List.getElem?_cons_succ] at ha
      simp only [List.eraseIdx_cons_succ]
      exact ((ih i ha).cons x).trans (List.Perm.swap a x _)

theorem perm_set_eraseIdx {α : Type} (L : List α) (i : Nat) (a b : α) (ha : L[i]? = some a) :
    (L.set i b).Perm (b :: L.eraseIdx i) := by
  induction L generalizing i with
  | nil => simp at ha
  | cons x t ih =>
    cases i with
    | zero =>
      simp only [List.set_cons_zero, List.eraseIdx_cons_zero]
      exact List.Perm.refl _
    | succ i =>
      simp only [List.getElem?_cons_succ] at ha
      simp only [List.set_cons_succ, List.eraseIdx_cons_succ]
      exact ((ih i ha).cons x).trans (List.Perm.swap b x _)

theorem mem_eraseIdx_of_ne {α : Type} (L : List α) (i j : Nat) (b : α) (hb : L[j]? = some b)
    (hij : i ≠ j) : b ∈ L.eraseIdx i := by
  induction L generalizing i j with
  | nil => simp at hb
  | cons x t ih =>
    cases i with
    | zero =>
      cases j with
      | zero => exact absurd rfl hij
      | succ j =>
        simp only [List.getElem?_cons_succ] at hb
        simp only [List.eraseIdx_cons_zero]
        exact List.mem_iff_getElem?.mpr ⟨_, hb⟩
    | succ i =>
      simp only [List.eraseIdx_cons_succ]
      cases j with
      | zero =>
        simp only [List.getElem?_cons_zero, Option.some.injEq] at hb
        rw [hb]
        exact List.mem_cons_self _ _
      | succ j =>
        simp only [List.getElem?_cons_succ] at hb
        exact List.mem_cons_of_mem _ (ih i j hb (fun h => hij (by rw [h])))

/-- For a smart pointer without pointer and without counter, or with a
pointer, the assignment is the release of the target followed by the steps
of a copy of the source. -/
theorem SmartPtr.assign_eq (a b : SmartPtr) (h : SPHeap)
    (ha : a.m_ptr = none → a.m_refCount = none) :
    a.assign b h =
      (match a.release h with
       | Except.ok h1 => b.copy h1
       | Except.error e => Except.error e) := by
  have hrel : (if a.m_ptr.isSome then a.release h else Except.ok h) = a.release h := by
    cases hp : a.m_ptr with
    | none =>
      have hr := ha hp
      unfold SmartPtr.release
      rw [hr]
      rfl
    | some o => rfl
  unfold SmartPtr.assign
  rw [hrel]
  cases a.release h with
  | error e => rfl
  | ok h1 => rfl



/-- An admitted operation succeeds and keeps the state consistent. -/
theorem SPMachine.step_consistent (m : SPMachine)
    (hc : SPConsistent m.heap m.live m.wrapped) (op : SPOp) (hadm : m.admits op = true) :
    ∃ m2, m.step op = Except.ok m2 ∧ SPConsistent m2.heap m2.live m2.wrapped := by
  cases op with
  | construct ptr =>
    cases ptr with
    | none =>
      refine ⟨_, rfl, ?_⟩
      show SPConsistent m.heap (m.live ++ [SmartPtr.null]) m.wrapped
      obtain ⟨h2, hcopy, hcons, -⟩ := @SPConsistent.add _ _ _ SmartPtr.null hc
        (Or.inr ⟨rfl, rfl⟩) (fun h => absurd rfl h)
      rw [SmartPtr.copy_null _ _ rfl] at hcopy
      have h2eq : m.heap = h2 := by
        injection hcopy with h3
        injection h3
      rw [← h2eq] at hcons
      exact hcons.perm (List.perm_append_singleton _ _).symm
    | some o =>
      have ho : o ∉ m.wrapped := by simpa [SPMachine.admits] using hadm
      refine ⟨_, rfl, ?_⟩
      exact (hc.construct o ho).perm (List.perm_append_singleton _ _).symm
  | copy i =>
    have hadm2 : i < m.live.length ∧ (m.live.length : Int) < INT_MAX := by
      simpa [SPMachine.admits] using hadm
    obtain ⟨hi, hlen⟩ := hadm2
    obtain ⟨sp, hget⟩ : ∃ sp, m.live[i]? = some sp := ⟨_, List.getElem?_eq_getElem hi⟩
    have hin : sp ∈ m.live := List.mem_iff_getElem?.mpr ⟨i, hget⟩
    obtain ⟨h2, hcopy, hcons, -⟩ := hc.add (Or.inl hin) (fun _ => hlen)
    refine ⟨{ m with heap := h2, live := m.live ++ [sp] }, ?_, ?_⟩
    · simp only [SPMachine.step, hget, hcopy]
    · exact hcons.perm (List.perm_append_singleton _ _).symm
  | destroy i =>
    have hi : i < m.live.length := by simpa [SPMachine.admits] using hadm
    obtain ⟨sp, hget⟩ : ∃ sp, m.live[i]? = some sp := ⟨_, List.getElem?_eq_getElem hi⟩
    obtain ⟨h2, hrel, hcons, -⟩ := (hc.perm (perm_cons_eraseIdx m.live i sp hget)).remove
    refine ⟨{ m with heap := h2, live := m.live.eraseIdx i }, ?_, hcons⟩
    simp only [SPMachine.step, hget, SmartPtr.destructor, hrel]
  | assign i j =>
    have hadm2 : i < m.live.length ∧ j < m.live.length ∧ (m.live.length : Int) ≤ INT_MAX ∧
        (¬ i = j ∨ m.soleHolder i = false) := by
      simpa [SPMachine.admits, and_assoc] using hadm
    obtain ⟨hi, hj, hlen, hsole2⟩ := hadm2
    have hsole : i = j → m.soleHolder i = false := by
      intro hij
      rcases hsole2 with h | h
      · exact absurd hij h
      · exact h
    obtain ⟨a, hga⟩ : ∃ a, m.live[i]? = some a := ⟨_, List.getElem?_eq_getElem hi⟩
    obtain ⟨b, hgb⟩ : ∃ b, m.live[j]? = some b := ⟨_, List.getElem?_eq_getElem hj⟩
    have hain : a ∈ m.live := List.mem_iff_getElem?.mpr ⟨i, hga⟩
    have hperm := perm_cons_eraseIdx m.live i a hga
    have hc1 := hc.perm hperm
    obtain ⟨h1, hrel, hc2, -⟩ := hc1.remove
    have hlenE : (m.live.eraseIdx i).length + 1 = m.live.length := by
      have := hperm.length_eq
      simp only [List.length_cons] at this
      omega
    have hb : b ∈ m.live.eraseIdx i ∨ (b.m_ptr = none ∧ b.m_refCount = none) := by
      by_cases hij : i = j
      · have hs := hsole hij
        subst hij
        have hab : a = b := by
          rw [hga] at hgb
          exact Option.some.inj hgb
        subst hab
        rcases hc.fields hain with hnull | ⟨o, c, hp, hr⟩
        · exact Or.inr hnull
        · left
          have hcnt := hc.counters c
          have hns : SPMachine.holders m.live c ≠ 1 := by
            intro h1x
            have : m.soleHolder i = true := by
              unfold SPMachine.soleHolder
              rw [hga]
              simp only
              unfold SmartPtr.is_valid SmartPtr.get_refcount
              rw [hp, hr]
              simp only
              rw [hcnt, h1x]
              rfl
            rw [this] at hs
            cases hs
          have hE : SPMachine.holders m.live c =
              SPMachine.holders (m.live.eraseIdx i) c + 1 := by
            have h3 : SPMachine.holders m.live c =
                SPMachine.holders (a :: m.live.eraseIdx i) c := hperm.countP_eq _
            rw [h3, holders_cons, if_pos hr]
          have hpos : 0 < SPMachine.holders m.live c :=
            (holders_pos_iff _ _).mpr ⟨a, hain, hr⟩
          obtain ⟨sq, hsq, hq⟩ := (holders_pos_iff (m.live.eraseIdx i) c).mp (by omega)
          have hsqa : sq.m_ptr = a.m_ptr :=
            hc1.same_object sq (List.mem_cons_of_mem _ hsq) a (List.mem_cons_self _ _) c hq hr
          have hva : sq = a := by
            cases sq
            cases a
            simp_all
          rw [← hva]
          exact hsq
      · exact Or.inl (mem_eraseIdx_of_ne m.live i j b hgb hij)
    have hlenE2 : ((m.live.eraseIdx i).length : Int) < INT_MAX := by
      have : ((m.live.eraseIdx i).length : Int) + 1 = (m.live.length : Int) := by
        exact_mod_cast hlenE
      omega
    obtain ⟨h2, hcopy, hc3, -⟩ := hc2.add hb (fun _ => hlenE2)
    refine ⟨{ m with heap := h2, live := m.live.set i b }, ?_, ?_⟩
    · have hassign : a.assign b m.heap = Except.ok (h2, b) := by
        rw [SmartPtr.assign_eq a b m.heap (fun hp => (hc.null_iff a hain).mp hp), hrel]
        exact hcopy
      simp only [SPMachine.step, hga, hgb, hassign]
    · exact hc3.perm (perm_set_eraseIdx m.live i a b hga).symm

/-- An admitted sequence of operations runs to the end and keeps the state
consistent. -/
theorem SPMachine.run_consistent (ops : List SPOp) :
    ∀ m : SPMachine, SPConsistent m.heap m.live m.wrapped → m.admitsAll ops = true →
      ∃ m2, m.run ops = Except.ok m2 ∧ SPConsistent m2.heap m2.live m2.wrapped := by
  induction ops with
  | nil =>
    intro m hc _
    exact ⟨m, rfl, hc⟩
  | cons op ops ih =>
    intro m hc hadm
    unfold SPMachine.admitsAll at hadm
    rw [Bool.and_eq_true] at hadm
    obtain ⟨m1, hstep, hc1⟩ := m.step_consistent hc op hadm.1
    have hrest := hadm.2
    rw [hstep] at hrest
    obtain ⟨m2, hrun, hc2⟩ := ih m1 hc1 hrest
    refine ⟨m2, ?_, hc2⟩
    unfold SPMachine.run
    rw [hstep]
    exact hrun



theorem SPMachine.step_wrapped (m m1 : SPMachine) (op : SPOp)
    (h : m.step op = Except.ok m1) (o : Nat) :
    o ∈ m1.wrapped ↔ (o ∈ m.wrapped ∨ op = SPOp.construct (some o)) := by
  cases op with
  | construct ptr =>
    simp only [SPMachine.step, Except.ok.injEq] at h
    rw [← h]
    cases ptr with
    | none => simp
    | some o2 =>
      simp only [List.mem_cons, SPOp.construct.injEq, Option.some.injEq]
      constructor
      · rintro (h1 | h1)
        · exact Or.inr h1.symm
        · exact Or.inl h1
      · rintro (h1 | h1)
        · exact Or.inr h1
        · exact Or.inl h1.symm
  | copy i =>
    simp only [SPMachine.step] at h
    split at h
    · simp only [Except.ok.injEq] at h
      rw [← h]
      simp
    · split at h
      · simp only [Except.ok.injEq] at h
        rw [← h]
        simp
      · cases h
  | assign i j =>
    simp only [SPMachine.step] at h
    split at h
    · split at h
      · simp only [Except.ok.injEq] at h
        rw [← h]
        simp
      · cases h
    · simp only [Except.ok.injEq] at h
      rw [← h]
      simp
  | destroy i =>
    simp only [SPMachine.step] at h
    split at h
    · simp only [Except.ok.injEq] at h
      rw [← h]
      simp
    · split at h
      · simp only [Except.ok.injEq] at h
        rw [← h]
        simp
      · cases h

/-- The wrapped raw pointers after a run are those before it and those
handed to the constructor during it. -/
theorem SPMachine.run_wrapped (ops : List SPOp) :
    ∀ (m m2 : SPMachine), m.run ops = Except.ok m2 → ∀ o,
      (o ∈ m2.wrapped ↔ (o ∈ m.wrapped ∨ SPOp.construct (some o) ∈ ops)) := by
  induction ops with
  | nil =>
    intro m m2 h o
    simp only [SPMachine.run, Except.ok.injEq] at h
    rw [← h]
    simp
  | cons op ops ih =>
    intro m m2 h o
    unfold SPMachine.run at h
    cases hstep : m.step op with
    | error e =>
      rw [hstep] at h
      cases h
    | ok m1 =>
      rw [hstep] at h
      simp only at h
      rw [ih m1 m2 h o, m.step_wrapped m1 op hstep o, List.mem_cons]
      constructor
      · rintro ((h1 | h1) | h1)
        · exact Or.inl h1
        · exact Or.inr (Or.inl h1.symm)
        · exact Or.inr (Or.inr h1)
      · rintro (h1 | h1 | h1)
        · exact Or.inl (Or.inl h1)
        · exact Or.inl (Or.inr h1.symm)
        · exact Or.inr h1

theorem countP_eq_of_nodup {α : Type} [DecidableEq α] (l : List α) (a : α) (hn : l.Nodup) :
    l.countP (fun x => decide (x = a)) = if a ∈ l then 1 else 0 := by
  induction l with
  | nil => simp
  | cons x t ih =>
    rw [List.nodup_cons] at hn
    rw [List.countP_cons, ih hn.2]
    by_cases hxa : x = a
    · subst hxa
      simp [hn.1]
    · have hax : ¬ a = x := fun h => hxa h.symm
      simp [hxa, hax]

/-- C26, amended: for every sequence of constructions from a raw pointer,
copy constructions, assignments and destructions in which no raw pointer is
handed to the constructor twice, no smart pointer that is the only holder of
its object is assigned to itself and fewer than `INT_MAX` smart pointers are
live, every operation succeeds, and afterwards: a live smart pointer built
from null is invalid with count 0; the count of a live smart pointer that
encapsulates an object is the number of live smart pointers encapsulating
that object; and on every object that was handed to a constructor free was
executed exactly once if no live smart pointer encapsulates it any more and
not at all otherwise, free being called on nothing else. -/
theorem C26_reference_count_counts_holders (ops : List SPOp)
    (hadm : SPMachine.empty.admitsAll ops = true) :
    ∃ m, SPMachine.empty.run ops = Except.ok m ∧
      (∀ sp ∈ m.live, sp.is_valid = false → sp.get_refcount m.heap = Except.ok 0) ∧
      (∀ sp ∈ m.live, ∀ o, sp.m_ptr = some o →
        sp.get_refcount m.heap = Except.ok (SPMachine.holdersOf m.live o : Int) ∧
        0 < SPMachine.holdersOf m.live o) ∧
      (∀ o, SPOp.construct (some o) ∈ ops →
        m.heap.timesFreed o = if SPMachine.holdersOf m.live o = 0 then 1 else 0) ∧
      (∀ x ∈ m.heap.freed, ∃ o, SPOp.construct (some o) ∈ ops ∧ x = some o) := by
  obtain ⟨m, hrun, hc⟩ := SPMachine.run_consistent ops SPMachine.empty SPConsistent.empty hadm
  have hw : ∀ o, o ∈ m.wrapped ↔ SPOp.construct (some o) ∈ ops := by
    intro o
    rw [SPMachine.run_wrapped ops SPMachine.empty m hrun o]
    simp [SPMachine.empty]
  refine ⟨m, hrun, ?_, ?_, ?_, ?_⟩
  · intro sp hsp hv
    have hp : sp.m_ptr = none := by
      unfold SmartPtr.is_valid at hv
      cases hq : sp.m_ptr with
      | none => rfl
      | some o => rw [hq] at hv; cases hv
    have hr := (hc.null_iff sp hsp).mp hp
    unfold SmartPtr.get_refcount
    rw [hr]
  · intro sp hsp o hp
    rcases hc.fields hsp with ⟨hp2, -⟩ | ⟨o2, c, hp2, hr⟩
    · rw [hp2] at hp; cases hp
    · have hoo : o2 = o := by
        rw [hp2] at hp
        exact Option.some.inj hp
      subst hoo
      have hpos : 0 < SPMachine.holders m.live c := (holders_pos_iff _ _).mpr ⟨sp, hsp, hr⟩
      rw [hc.holdersOf_eq hsp hp2 hr]
      refine ⟨?_, hpos⟩
      unfold SmartPtr.get_refcount
      rw [hr]
      simp only
      rw [hc.counters c]
      unfold counterOf
      rw [if_neg (by omega)]
  · intro o ho
    have hiff := hc.freed_iff o ((hw o).mpr ho)
    unfold SPHeap.timesFreed
    rw [countP_eq_of_nodup _ _ hc.freed_nodup]
    by_cases h0 : SPMachine.holdersOf m.live o = 0
    · rw [if_pos h0, if_pos (hiff.mpr h0)]
    · rw [if_neg h0, if_neg (fun hf => h0 (hiff.mp hf))]
  · intro x hx
    obtain ⟨o, ho, hxo⟩ := hc.freed_wrapped x hx
    exact ⟨o, (hw o).mp ho, hxo⟩

theorem C26_reference_count_counts_holders_witness :
    SPMachine.empty.admitsAll
      [SPOp.construct (some 7), SPOp.copy 0, SPOp.construct none, SPOp.assign 2 1,
        SPOp.destroy 0] = true ∧
    ∃ m, SPMachine.empty.run
        [SPOp.construct (some 7), SPOp.copy 0, SPOp.construct none, SPOp.assign 2 1,
          SPOp.destroy 0] = Except.ok m ∧
      (∀ sp ∈ m.live, sp.is_valid = false → sp.get_refcount m.heap = Except.ok 0) ∧
      (∀ sp ∈ m.live, ∀ o, sp.m_ptr = some o →
        sp.get_refcount m.heap = Except.ok (SPMachine.holdersOf m.live o : Int) ∧
        0 < SPMachine.holdersOf m.live o) ∧
      (∀ o, SPOp.construct (some o) ∈
          [SPOp.construct (some 7), SPOp.copy 0, SPOp.construct none, SPOp.assign 2 1,
            SPOp.destroy 0] →
        m.heap.timesFreed o = if SPMachine.holdersOf m.live o = 0 then 1 else 0) ∧
      (∀ x ∈ m.heap.freed, ∃ o, SPOp.construct (some o) ∈
          [SPOp.construct (some 7), SPOp.copy 0, SPOp.construct none, SPOp.assign 2 1,
            SPOp.destroy 0] ∧ x = some o) :=
  ⟨by decide, C26_reference_count_counts_holders _ (by decide)⟩


end UG
